import Mathlib

/-!
# aoc-2021: days 6, 11, 12 and 14

A shallow embedding of `src/days/day_14/run.cpp` (pair-frequency polymer
simulation), `src/days/day_12/run.cpp` (cave path count),
`src/days/day_06/run.cpp` (lanternfish ring buffer) and
`src/days/day_11/run.cpp` (flashing grid), with the properties of the
specification stated and proved over it.

Conventions of the embedding:

* `std::size_t` is a natural number below `2 ^ 64`; every `+`, `-`, `*` of the
  source on `std::size_t` is reduced modulo `2 ^ 64` (`add64`, `sub64`, `mul64`).
* A C string is the list of its characters; reading the position just after the
  last character gives the terminator `'\0'` (`cstr_at`).  A `char` is taken by
  its code point, which is the value of the C `char` for ASCII text.
* `std::array<std::size_t, N>` is a `List Nat` of length `N`; `a[i]` is
  `List.getD a i 0` and an assignment to `a[i]` is `List.set a i _`.  An access
  outside the array is undefined in the source; the embedding reads `0` and
  drops the write there.
-/

/-- The number of values of `std::size_t`. -/
def SIZE_MOD : Nat := 2 ^ 64

/-- The result of `std::numeric_limits<std::size_t>::max()`. -/
def SIZE_MAX : Nat := 2 ^ 64 - 1

/-- Addition of `std::size_t`. -/
def add64 (a b : Nat) : Nat := (a + b) % SIZE_MOD

/-- Subtraction of `std::size_t`: the difference modulo `2 ^ 64`. -/
def sub64 (a b : Nat) : Nat := (a + (SIZE_MOD - b % SIZE_MOD)) % SIZE_MOD

/-- Multiplication of `std::size_t`. -/
def mul64 (a b : Nat) : Nat := (a * b) % SIZE_MOD

/-- Conversion of an `int` to `std::size_t`. -/
def int_to_size (i : Int) : Nat := (i % (SIZE_MOD : Int)).toNat

/-- The character `str[i]` of a C string: the terminator right after the last
character (and where the source would read past it). -/
def cstr_at (str : List Char) (i : Nat) : Char := str.getD i (Char.ofNat 0)

/-- The statement `a[i] += v` on an array of `std::size_t`. -/
def add_at (a : List Nat) (i v : Nat) : List Nat := a.set i (add64 (a.getD i 0) v)

/-- The statement `a[i] -= v` on an array of `std::size_t`. -/
def sub_at (a : List Nat) (i v : Nat) : List Nat := a.set i (sub64 (a.getD i 0) v)

/-- The entry `a[k]` as a residue modulo `2 ^ 64`. -/
def zget (a : List Nat) (k : Nat) : ZMod SIZE_MOD := ((a.getD k 0 : Nat) : ZMod SIZE_MOD)

/-- An array given by the list of its non-zero entries `(index, value)`: the
entry at `k` (`0` when `k` is not listed). -/
def tbl_get : List (Nat × Nat) → Nat → Nat
  | [], _ => 0
  | (i, x) :: rest, k => if k = i then x else tbl_get rest k

/-- The statement `a[i] += v` on the list of entries. -/
def tbl_add : List (Nat × Nat) → Nat → Nat → List (Nat × Nat)
  | [], i, v => [(i, add64 0 v)]
  | (j, x) :: rest, i, v => if i = j then (j, add64 x v) :: rest else (j, x) :: tbl_add rest i v

/-- The array of length `n` that a list of entries stands for. -/
def untbl (n : Nat) (t : List (Nat × Nat)) : List Nat := (List.range n).map (tbl_get t)

/-- A batch of `+=` statements on one array, applied from left to right. -/
def add_list (a : List Nat) (us : List (Nat × Nat)) : List Nat :=
  us.foldl (fun acc u => add_at acc u.1 u.2) a

namespace Day14

/-- Size of the alphabet: the sentinel and the 26 uppercase letters. -/
def ALPHABET : Nat := 1 + 26

/-- The code of a character: `(c - 'A') + 1`, computed in `int` and returned as
`std::size_t`. -/
def char_to_int (c : Char) : Nat := int_to_size (((c.toNat : Int) - 65) + 1)

/-- An insertion rule. -/
structure rule_t where
  left : Nat
  right : Nat
  result : Nat
deriving DecidableEq, Repr

/-- The count model: `twos[left * ALPHABET + right]` counts a pair, `ones[c]` a
single symbol. -/
structure polymer_t where
  twos : List Nat
  ones : List Nat
deriving DecidableEq, Repr

/-- The value-initialised `polymer_t{}`. -/
def polymer_zero : polymer_t :=
  { twos := List.replicate (ALPHABET * ALPHABET) 0, ones := List.replicate ALPHABET 0 }

/-- The index `left * ALPHABET + right` of a pair. -/
def pair_index (a b : Nat) : Nat := add64 (mul64 a ALPHABET) b

/-- The loop of `parse_polymer`: `prev` is `str[size - 1]`, the list holds
`str[size]`, `str[size + 1]`, ... up to the terminator. -/
def parse_polymer_loop (polymer : polymer_t) (prev : Char) : List Char → polymer_t
  | [] => polymer
  | c :: rest =>
    let a := char_to_int prev
    let b := char_to_int c
    parse_polymer_loop
      { twos := add_at polymer.twos (pair_index a b) 1, ones := add_at polymer.ones b 1 }
      c rest

/-- The function `parse_polymer` on the template line `input[0]`. -/
def parse_polymer_str (str : List Char) : polymer_t :=
  parse_polymer_loop
    { twos := polymer_zero.twos,
      ones := add_at polymer_zero.ones (char_to_int (cstr_at str 0)) 1 }
    (cstr_at str 0) (str.drop 1)

/-- The function `parse_polymer` on the whole input. -/
def parse_polymer (input : List String) : polymer_t :=
  parse_polymer_str (input.getD 0 "").data

/-- The function `parse_rule`. -/
def parse_rule (str : List Char) : rule_t :=
  { left := char_to_int (cstr_at str 0),
    right := char_to_int (cstr_at str 1),
    result := char_to_int (cstr_at str 6) }

/-- The function `parse_rules`: the rule lines start at `input[2]`. -/
def parse_rules (input : List String) : List rule_t :=
  (input.drop 2).map (fun line => parse_rule line.data)

/-- The body of the loop of `search_and_replace` for one rule: `polymer` is the
model that is read, `new_polymer` the copy that is updated. -/
def apply_rule (polymer new_polymer : polymer_t) (rule : rule_t) : polymer_t :=
  let pattern := pair_index rule.left rule.right
  let value := polymer.twos.getD pattern 0
  if value > 0 then
    let twos1 := add_at new_polymer.twos (pair_index rule.left rule.result) value
    let twos2 := add_at twos1 (pair_index rule.result rule.right) value
    let twos3 := sub_at twos2 pattern value
    { twos := twos3, ones := add_at new_polymer.ones rule.result value }
  else new_polymer

/-- The function `search_and_replace`. -/
def search_and_replace (polymer : polymer_t) (rules : List rule_t) : polymer_t :=
  rules.foldl (apply_rule polymer) polymer

/-- The body of the loop of `calculate`, on the pair `(max, min)`. -/
def calculate_step (acc : Nat × Nat) (one : Nat) : Nat × Nat :=
  if one ≠ 0 then (Nat.max acc.1 one, Nat.min acc.2 one) else acc

/-- The function `calculate`. -/
def calculate (polymer : polymer_t) : Nat :=
  let acc := polymer.ones.foldl calculate_step (0, SIZE_MAX)
  sub64 acc.1 acc.2

/-- The loop of `run`: `number_of_steps` applications of `search_and_replace`. -/
def steps (rules : List rule_t) : Nat → polymer_t → polymer_t
  | 0, polymer => polymer
  | n + 1, polymer => steps rules n (search_and_replace polymer rules)

/-- The function `run<number_of_steps>`. -/
def run (number_of_steps : Nat) (input : List String) : Nat :=
  calculate (steps (parse_rules input) number_of_steps (parse_polymer input))

/-- The constant `input_example`. -/
def input_example : List String :=
  ["NNCB", "", "CH -> B", "HH -> N", "CB -> H", "NH -> C", "HB -> C", "HC -> B",
   "HN -> C", "NN -> C", "BH -> H", "NC -> B", "NB -> B", "BN -> B", "BB -> N",
   "BC -> B", "CC -> N", "CN -> C"]

/-- An uppercase letter `'A'`..`'Z'`. -/
def is_upper (c : Char) : Prop := 65 ≤ c.toNat ∧ c.toNat ≤ 90

instance (c : Char) : Decidable (is_upper c) :=
  inferInstanceAs (Decidable (65 ≤ c.toNat ∧ c.toNat ≤ 90))

/-- The updates of `new_polymer.twos` made for one rule whose pattern has count
`value`. -/
def twos_updates (rule : rule_t) (value : Nat) : List (Nat × Nat) :=
  [(pair_index rule.left rule.result, value), (pair_index rule.result rule.right, value),
   (pair_index rule.left rule.right, SIZE_MOD - value % SIZE_MOD)]

/-- The rule is over uppercase letters: its three codes are in `1..26`. -/
def rule_upper (r : rule_t) : Prop :=
  (1 ≤ r.left ∧ r.left ≤ 26) ∧ (1 ≤ r.right ∧ r.right ≤ 26) ∧ (1 ≤ r.result ∧ r.result ≤ 26)

instance (r : rule_t) : Decidable (rule_upper r) :=
  inferInstanceAs (Decidable ((1 ≤ r.left ∧ r.left ≤ 26) ∧ (1 ≤ r.right ∧ r.right ≤ 26) ∧
    (1 ≤ r.result ∧ r.result ≤ 26)))

/-- The `(left, right)` keys of the rule list are pairwise distinct. -/
def distinct_keys (rules : List rule_t) : Prop :=
  rules.Pairwise (fun r1 r2 => ¬ (r1.left = r2.left ∧ r1.right = r2.right))

instance (rules : List rule_t) : Decidable (distinct_keys rules) :=
  inferInstanceAs (Decidable (List.Pairwise _ rules))

/-- Specification: the first rule whose key is the pair of letters `(a, b)`. -/
def find_rule (rules : List rule_t) (a b : Char) : Option rule_t :=
  rules.find? (fun r => decide (r.left = char_to_int a ∧ r.right = char_to_int b))

/-- The model that two lists of entries stand for. -/
def untbl_polymer (t : List (Nat × Nat) × List (Nat × Nat)) : polymer_t :=
  { twos := untbl 729 t.1, ones := untbl 27 t.2 }

/-- The loop body of `search_and_replace` on lists of entries. -/
def apply_rule_tbl (polymer new_polymer : List (Nat × Nat) × List (Nat × Nat)) (rule : rule_t) :
    List (Nat × Nat) × List (Nat × Nat) :=
  let pattern := pair_index rule.left rule.right
  let value := tbl_get polymer.1 pattern
  if value > 0 then
    (tbl_add (tbl_add (tbl_add new_polymer.1 (pair_index rule.left rule.result) value)
        (pair_index rule.result rule.right) value) pattern (SIZE_MOD - value % SIZE_MOD),
     tbl_add new_polymer.2 rule.result value)
  else new_polymer

/-- The loop of `run` on lists of entries. -/
def steps_tbl (rules : List rule_t) :
    Nat → List (Nat × Nat) × List (Nat × Nat) → List (Nat × Nat) × List (Nat × Nat)
  | 0, t => t
  | n + 1, t => steps_tbl rules n (rules.foldl (apply_rule_tbl t) t)

end Day14

namespace Day14

/-- The pair count `polymer.twos[pattern]` that the loop body of
`search_and_replace` reads for a rule. -/
def key_value (polymer : polymer_t) (rule : rule_t) : Nat :=
  polymer.twos.getD (pair_index rule.left rule.right) 0

/-- The statement `new_polymer.twos[pattern] -= value` of the loop body of
`search_and_replace` for one rule is applied to an entry that is at least
`value`: the entry is read after the two `+=` statements that precede it. -/
def sub_in_range (polymer new_polymer : polymer_t) (rule : rule_t) : Prop :=
  key_value polymer rule > 0 →
    key_value polymer rule ≤
      (add_at (add_at new_polymer.twos (pair_index rule.left rule.result) (key_value polymer rule))
        (pair_index rule.result rule.right) (key_value polymer rule)).getD
        (pair_index rule.left rule.right) 0

instance (polymer new_polymer : polymer_t) (rule : rule_t) :
    Decidable (sub_in_range polymer new_polymer rule) :=
  inferInstanceAs (Decidable (key_value polymer rule > 0 →
    key_value polymer rule ≤
      (add_at (add_at new_polymer.twos (pair_index rule.left rule.result) (key_value polymer rule))
        (pair_index rule.result rule.right) (key_value polymer rule)).getD
        (pair_index rule.left rule.right) 0))

/-- Every subtraction of the loop of `search_and_replace` is applied to an entry
that is at least the subtracted value: `new_polymer` is the copy as it stands
when the loop reaches the rules of the list. -/
def no_underflow (polymer : polymer_t) : polymer_t → List rule_t → Prop
  | _, [] => True
  | new_polymer, rule :: rest =>
    sub_in_range polymer new_polymer rule ∧
      no_underflow polymer (apply_rule polymer new_polymer rule) rest

/-- Specification: the occurrences of the pair with index `k` that one
generation inserts, as a natural number. -/
def pairs_added (polymer : polymer_t) (rules : List rule_t) (k : Nat) : Nat :=
  (rules.map (fun r => key_value polymer r *
    ((if k = pair_index r.left r.result then 1 else 0) +
     (if k = pair_index r.result r.right then 1 else 0)))).sum

/-- Specification: the occurrences of the pair with index `k` that one
generation splits, as a natural number. -/
def pairs_removed (polymer : polymer_t) (rules : List rule_t) (k : Nat) : Nat :=
  (rules.map (fun r => if k = pair_index r.left r.right then key_value polymer r else 0)).sum

/-- An input whose pair count of `AA` is `2 ^ 63 - 1` after 63 steps. -/
def input_doubling : List String := ["AB", "", "AA -> A", "AB -> A"]

end Day14

namespace Day12

/-! ## Day 12: cave codes, the cave map, the queue and the traversal -/

/-- The code of the start cave. -/
def START_CODE : Nat := 1

/-- The code of the end cave. -/
def END_CODE : Nat := 2

/-- Size of the cave code alphabet. -/
def ALPHABET : Nat := 4 + 26 + 26

/-- The value of one character in `str_to_cave_code`: computed in `int`, stored
as `std::size_t`. -/
def char_value (c : Char) : Nat :=
  if 97 ≤ c.toNat ∧ c.toNat ≤ 122 then int_to_size (((c.toNat : Int) - 97) + 4)
  else int_to_size ((((c.toNat : Int) - 65) + 4) + 26)

/-- The loop of `str_to_cave_code`: it stops at the terminator or at `'-'` and
gives `size`, `code` and the rest of the string from the stop position on. -/
def str_to_cave_code_loop : List Char → Nat → Nat → Nat × Nat × List Char
  | [], size, code => (size, code, [])
  | c :: rest, size, code =>
    if c.toNat = 0 ∨ c = '-' then (size, code, c :: rest)
    else str_to_cave_code_loop rest (size + 1) (add64 (mul64 code ALPHABET) (char_value c))

/-- The function `str_to_cave_code`: the cave code and the string that
`*endptr` points to. -/
def str_to_cave_code (str : List Char) : Nat × List Char :=
  let r := str_to_cave_code_loop str 0 0
  let code := if r.1 = 1 then add64 (mul64 r.2.1 ALPHABET) 3 else r.2.1
  (if r.1 = 5 then START_CODE else if r.1 = 3 then END_CODE else code, r.2.2)

/-- The function `is_big`: the code is at least the code of `"A"`. -/
def is_big (code : Nat) : Bool := decide (code ≥ (str_to_cave_code ['A']).1)

/-- The loop of `cave_map_t::insert` on one row: the first entry that is `0`
becomes `value`. -/
def row_insert : List Nat → Nat → List Nat
  | [], _ => []
  | elem :: rest, value => if elem = 0 then value :: rest else elem :: row_insert rest value

/-- The type `cave_map_t`: `array key` is the row `array[key]`, an array of
`ALPHABET * ALPHABET` codes (a key outside the array is undefined in the
source). -/
structure cave_map_t where
  array : Nat → List Nat

/-- The value-initialised `cave_map_t{}`. -/
def cave_map_zero : cave_map_t :=
  { array := fun _ => List.replicate (ALPHABET * ALPHABET) 0 }

/-- The function `cave_map_t::insert`. -/
def cave_map_t.insert (map : cave_map_t) (key value : Nat) : cave_map_t :=
  { array := fun k => if k = key then row_insert (map.array key) value else map.array k }

/-- The type `queue_t`: an array of 100 codes and the number of codes in use. -/
structure queue_t where
  array : List Nat
  size : Nat

/-- The value-initialised `queue_t{}`. -/
def queue_zero : queue_t := { array := List.replicate 100 0, size := 0 }

/-- The function `queue_t::push_back`. -/
def queue_t.push_back (queue : queue_t) (value : Nat) : queue_t :=
  { array := queue.array.set queue.size value, size := queue.size + 1 }

/-- The function `queue_t::contains`: a search of the first `size` entries. -/
def queue_t.contains (queue : queue_t) (value : Nat) : Bool :=
  (queue.array.take queue.size).any (fun x => decide (x = value))

/-- The body of `parse_cave_map` for one line `from-to`. -/
def parse_line (map : cave_map_t) (line : String) : cave_map_t :=
  let r1 := str_to_cave_code line.data
  let r2 := str_to_cave_code (r1.2.drop 1)
  (map.insert r1.1 r2.1).insert r2.1 r1.1

/-- The function `parse_cave_map`. -/
def parse_cave_map (input : List String) : cave_map_t :=
  input.foldl parse_line cave_map_zero

/-- The loop `for(auto value : map.array[key])` of `traverse`: it stops at the
first `0` and adds the result `f value` of the recursive call to `sum`.  The
result is `none` when a recursive call gives no result. -/
def traverse_loop (f : Nat → Option Nat) : List Nat → Nat → Option Nat
  | [], sum => some sum
  | value :: rest, sum =>
    if value = 0 then some sum
    else
      match f value with
      | none => none
      | some n => traverse_loop f rest (add64 sum n)

/-- The function `traverse`, with a bound `fuel` on the depth of the recursion:
`none` when the bound is reached. -/
def traverse : Nat → Nat → cave_map_t → queue_t → Nat → Option Nat
  | 0, _, _, _, _ => none
  | fuel + 1, key, map, queue, small_count =>
    if key = END_CODE then some 1
    else if is_big key then
      traverse_loop (fun value => traverse fuel value map queue small_count) (map.array key) 0
    else if !queue.contains key then
      traverse_loop (fun value => traverse fuel value map (queue.push_back key) small_count)
        (map.array key) 0
    else if small_count = 1 ∧ key ≠ START_CODE then
      traverse_loop (fun value => traverse fuel value map queue (small_count - 1))
        (map.array key) 0
    else some 0

/-- The function `how_many_paths<small_count>`, with the bound `fuel` of
`traverse`. -/
def how_many_paths (small_count fuel : Nat) (input : List String) : Option Nat :=
  traverse fuel START_CODE (parse_cave_map input) queue_zero small_count

/-- The constant `input_example_0`. -/
def input_example_0 : List String :=
  ["start-A", "start-b", "A-c", "A-b", "b-d", "A-end", "b-end"]

/-- The constant `input_example_1`. -/
def input_example_1 : List String :=
  ["dc-end", "HN-start", "start-kj", "dc-start", "dc-HN", "LN-dc", "HN-end", "kj-sa",
   "kj-HN", "kj-dc"]

/-- The constant `input_example_2`. -/
def input_example_2 : List String :=
  ["fs-end", "he-DX", "fs-he", "start-DX", "pj-DX", "end-zg", "zg-sl", "zg-pj", "pj-he",
   "RW-he", "fs-DX", "pj-RW", "zg-RW", "start-pj", "he-WI", "zg-he", "pj-fs", "start-RW"]

end Day12

namespace Day06

/-! ## Day 6: the ring buffer of lanternfish counts -/

/-- The loop of `str_to_int<std::size_t>`: the value read so far is `i`; the
result is the value and the string from the stop position on. -/
def str_to_int_loop : List Char → Nat → Nat × List Char
  | [], i => (i, [])
  | c :: rest, i =>
    if 48 ≤ c.toNat ∧ c.toNat ≤ 57 then
      str_to_int_loop rest (add64 (mul64 i 10) (int_to_size ((c.toNat : Int) - 48)))
    else (i, c :: rest)

/-- The function `str_to_int<std::size_t>`: the value and the string that
`*endptr` points to. -/
def str_to_int (str : List Char) : Nat × List Char := str_to_int_loop str 0

/-- The first loop of `simulate`, which reads the timers; `fuel` bounds the
number of tests of the loop condition, and the result is `none` when the bound
is reached. -/
def read_timers : Nat → List Char → List Nat → Option (List Nat)
  | 0, _, _ => none
  | fuel + 1, str, lanternfish =>
    if (cstr_at str 0).toNat = 0 then some lanternfish
    else
      read_timers fuel
        (if cstr_at (str_to_int str).2 0 = ',' then (str_to_int str).2.drop 1
         else (str_to_int str).2)
        (add_at lanternfish (str_to_int str).1 1)

/-- The state of the second loop of `simulate`: the ring `lanternfish`, the
queue `newlanternfish` and `offset`. -/
structure ring_t where
  lanternfish : List Nat
  newlanternfish : List Nat
  offset : Nat
deriving DecidableEq, Repr

/-- The body of the second loop of `simulate`: one day. -/
def day (s : ring_t) : ring_t :=
  { lanternfish := add_at s.lanternfish s.offset (s.newlanternfish.getD 0 0),
    newlanternfish :=
      (s.newlanternfish.set 0 (s.newlanternfish.getD 1 0)).set 1 (s.lanternfish.getD s.offset 0),
    offset := (add64 s.offset 1) % 7 }

/-- The second loop of `simulate`: `no_of_days` days. -/
def days : Nat → ring_t → ring_t
  | 0, s => s
  | n + 1, s => days n (day s)

/-- The two last loops of `simulate`: the sum of the ring and of the queue. -/
def total (s : ring_t) : Nat :=
  s.newlanternfish.foldl add64 (s.lanternfish.foldl add64 0)

/-- The function `simulate<no_of_days>`. -/
def simulate (no_of_days fuel : Nat) (str : List Char) : Option Nat :=
  (read_timers fuel str (List.replicate 7 0)).map (fun lanternfish =>
    total (days no_of_days
      { lanternfish := lanternfish, newlanternfish := List.replicate 2 0, offset := 0 }))

/-- The constant `input_example`. -/
def input_example : String := "3,4,3,1,2"

/-- Specification: one day of the naive process.  A fish with timer 0 resets to
6 and spawns a fish with timer 8; the timer of every other fish decreases
by 1. -/
def naive_day (fish : List Nat) : List Nat :=
  fish.flatMap (fun t => if t = 0 then [6, 8] else [t - 1])

/-- Specification: the naive process run for `n` days. -/
def naive : Nat → List Nat → List Nat
  | 0, fish => fish
  | n + 1, fish => naive n (naive_day fish)

/-- The decimal digit of a timer. -/
def digit (t : Nat) : Char := Char.ofNat (48 + t)

/-- Specification: the comma-separated list of the timers. -/
def timers_str : List Nat → List Char
  | [] => []
  | [t] => [digit t]
  | t :: u :: rest => digit t :: ',' :: timers_str (u :: rest)

/-- The number of fish with timer `t` in the state of the ring buffer: the ring
holds the timers `0..6` from `offset` on, the queue the timers 7 and 8. -/
def ring_count (s : ring_t) (t : Nat) : Nat :=
  if t < 7 then s.lanternfish.getD ((s.offset + t) % 7) 0 else s.newlanternfish.getD (t - 7) 0

end Day06

namespace Day11

/-! ## Day 11: the grid, the chain reaction and the flash of one step -/

/-- The type `grid_t<size>`: the list of the `size` rows, each a list of `size`
values. -/
abbrev grid_t := List (List Nat)

/-- The function `char_to_int`: `c - '0'`, computed in `int` and returned as
`std::size_t`. -/
def char_to_int (c : Char) : Nat := int_to_size ((c.toNat : Int) - 48)

/-- The function `make_grid<size>`. -/
def make_grid (size : Nat) (input : List String) : grid_t :=
  (List.range size).map (fun i =>
    (List.range size).map (fun j => char_to_int (cstr_at (input.getD i "").data j)))

/-- The value `grid[i][j]`. -/
def grid_get (grid : grid_t) (i j : Nat) : Nat := (grid.getD i []).getD j 0

/-- The assignment `grid[i][j] = v`. -/
def grid_set (grid : grid_t) (i j v : Nat) : grid_t := grid.set i ((grid.getD i []).set j v)

/-- The function `increment`. -/
def increment (grid : grid_t) : grid_t :=
  grid.map (fun row => row.map (fun value => add64 value 1))

/-- The index `i + x` for a `std::size_t` index `i` and an `int` offset `x`: the
sum modulo `2 ^ 64`. -/
def offset (i : Nat) (x : Int) : Nat := int_to_size ((i : Int) + x)

/-- The condition of the `continue` in the double loop of `spread_recursive`:
the neighbour is outside the grid, or the offset is `(0, 0)`. -/
def skip (size i j : Nat) (x y : Int) : Bool :=
  (x == -1 && i == 0) || (y == -1 && j == 0) || (x == 1 && i == sub64 size 1) ||
    (y == 1 && j == sub64 size 1) || (x == 0 && y == 0)

/-- The offsets `(x, y)` in the order of the double loop of `spread_recursive`. -/
def offsets : List (Int × Int) :=
  [(-1, -1), (-1, 0), (-1, 1), (0, -1), (0, 0), (0, 1), (1, -1), (1, 0), (1, 1)]

/-- The double loop of `spread_recursive` at the cell `(i, j)`, over the offsets
that are left; `f` is the recursive call. -/
def spread_loop (f : grid_t → Nat → Nat → Option grid_t) (size i j : Nat) :
    List (Int × Int) → grid_t → Option grid_t
  | [], grid => some grid
  | (x, y) :: rest, grid =>
    if skip size i j x y = true then spread_loop f size i j rest grid
    else if grid_get grid (offset i x) (offset j y) ≤ 9 then
      match f (grid_set grid (offset i x) (offset j y)
          (add64 (grid_get grid (offset i x) (offset j y)) 1)) (offset i x) (offset j y) with
      | none => none
      | some grid1 => spread_loop f size i j rest grid1
    else spread_loop f size i j rest grid

/-- The function `spread_recursive<size>`; `fuel` bounds the depth of the
recursion, and the result is `none` when the bound is reached. -/
def spread_recursive (size : Nat) : Nat → grid_t → Nat → Nat → Option grid_t
  | 0, _, _, _ => none
  | fuel + 1, grid, i, j =>
    if grid_get grid i j ≤ 9 then some grid
    else
      spread_loop (spread_recursive size fuel) size i j offsets
        (grid_set grid i j (add64 (grid_get grid i j) 1))

/-- The cells `(i, j)` of the grid in the order of the double loops of `spread`
and `flash`. -/
def cells (size : Nat) : List (Nat × Nat) :=
  (List.range size).flatMap (fun i => (List.range size).map (fun j => (i, j)))

/-- The double loop of `spread` over the cells that are left. -/
def spread_cells (size fuel : Nat) : List (Nat × Nat) → grid_t → Option grid_t
  | [], grid => some grid
  | (i, j) :: rest, grid =>
    if grid_get grid i j = 10 then
      match spread_recursive size fuel grid i j with
      | none => none
      | some grid1 => spread_cells size fuel rest grid1
    else spread_cells size fuel rest grid

/-- The function `spread<size>`. -/
def spread (size fuel : Nat) (grid : grid_t) : Option grid_t :=
  spread_cells size fuel (cells size) grid

/-- The inner loop of `flash` on one row: the new row and the new `sum`. -/
def flash_row : List Nat → Nat → List Nat × Nat
  | [], sum => ([], sum)
  | value :: rest, sum =>
    if value > 9 then ((0 :: (flash_row rest (add64 sum 1)).1), (flash_row rest (add64 sum 1)).2)
    else ((value :: (flash_row rest sum).1), (flash_row rest sum).2)

/-- The outer loop of `flash`. -/
def flash_rows : List (List Nat) → Nat → grid_t × Nat
  | [], sum => ([], sum)
  | row :: rest, sum =>
    (((flash_row row sum).1 :: (flash_rows rest (flash_row row sum).2).1),
      (flash_rows rest (flash_row row sum).2).2)

/-- The function `flash`: the grid after the resets and the returned count. -/
def flash (grid : grid_t) : grid_t × Nat := flash_rows grid 0

/-- One day of `simulate_flashes` and `synchronize_flash`: `increment`, `spread`
and `flash`; the result is the grid and the value returned by `flash`. -/
def day_step (size fuel : Nat) (grid : grid_t) : Option (grid_t × Nat) :=
  (spread size fuel (increment grid)).map flash

/-- The loop of `simulate_flashes`: the grid and `sum` after the days that are
left. -/
def simulate_days (size fuel : Nat) : Nat → grid_t → Nat → Option Nat
  | 0, _, sum => some sum
  | days + 1, grid, sum =>
    match day_step size fuel grid with
    | none => none
    | some r => simulate_days size fuel days r.1 (add64 sum r.2)

/-- The function `simulate_flashes<number_of_days, size>`. -/
def simulate_flashes (number_of_days size fuel : Nat) (input : List String) : Option Nat :=
  simulate_days size fuel number_of_days (make_grid size input) 0

/-- The constant `input_example`. -/
def input_example : List String :=
  ["5483143223", "2745854711", "5264556173", "6141336146", "6357385478", "4167524645",
   "2176841721", "6882881134", "4846848554", "5283751526"]

/-- The double loop of `spread_recursive` with the list of the cells that passed
the guard `grid[i][j] > 9` in the calls made by the loop, in the order of the
calls. -/
def spread_loop_log (f : grid_t → Nat → Nat → Option (grid_t × List (Nat × Nat)))
    (size i j : Nat) : List (Int × Int) → grid_t → Option (grid_t × List (Nat × Nat))
  | [], grid => some (grid, [])
  | (x, y) :: rest, grid =>
    if skip size i j x y = true then spread_loop_log f size i j rest grid
    else if grid_get grid (offset i x) (offset j y) ≤ 9 then
      match f (grid_set grid (offset i x) (offset j y)
          (add64 (grid_get grid (offset i x) (offset j y)) 1)) (offset i x) (offset j y) with
      | none => none
      | some r1 =>
        match spread_loop_log f size i j rest r1.1 with
        | none => none
        | some r2 => some (r2.1, r1.2 ++ r2.2)
    else spread_loop_log f size i j rest grid

/-- The function `spread_recursive` with the list of the cells that passed the
guard `grid[i][j] > 9`, one entry for each call that passed it, in the order of
the calls. -/
def spread_recursive_log (size : Nat) :
    Nat → grid_t → Nat → Nat → Option (grid_t × List (Nat × Nat))
  | 0, _, _, _ => none
  | fuel + 1, grid, i, j =>
    if grid_get grid i j ≤ 9 then some (grid, [])
    else
      match spread_loop_log (spread_recursive_log size fuel) size i j offsets
          (grid_set grid i j (add64 (grid_get grid i j) 1)) with
      | none => none
      | some r => some (r.1, (i, j) :: r.2)

/-- The double loop of `spread` with the list of the cells that passed the
guard of `spread_recursive`. -/
def spread_cells_log (size fuel : Nat) :
    List (Nat × Nat) → grid_t → Option (grid_t × List (Nat × Nat))
  | [], grid => some (grid, [])
  | (i, j) :: rest, grid =>
    if grid_get grid i j = 10 then
      match spread_recursive_log size fuel grid i j with
      | none => none
      | some r1 =>
        match spread_cells_log size fuel rest r1.1 with
        | none => none
        | some r2 => some (r2.1, r1.2 ++ r2.2)
    else spread_cells_log size fuel rest grid

/-- The function `spread` with the list of the cells that passed the guard of
`spread_recursive`. -/
def spread_log (size fuel : Nat) (grid : grid_t) : Option (grid_t × List (Nat × Nat)) :=
  spread_cells_log size fuel (cells size) grid

end Day11

namespace Day12

/-! ## Day 12: the caves, the edges and the walks of the specification -/

/-- A lowercase letter `'a'`..`'z'`. -/
def is_lower_char (c : Char) : Prop := 97 ≤ c.toNat ∧ c.toNat ≤ 122

/-- An uppercase letter `'A'`..`'Z'`. -/
def is_upper_char (c : Char) : Prop := 65 ≤ c.toNat ∧ c.toNat ≤ 90

instance (c : Char) : Decidable (is_lower_char c) :=
  inferInstanceAs (Decidable (97 ≤ c.toNat ∧ c.toNat ≤ 122))

instance (c : Char) : Decidable (is_upper_char c) :=
  inferInstanceAs (Decidable (65 ≤ c.toNat ∧ c.toNat ≤ 90))

/-- Specification: the cave names of the claim, `"start"`, `"end"` and the
names of one or two letters of the same case. -/
def valid_name (s : String) : Prop :=
  s = "start" ∨ s = "end" ∨
    ((s.data.length = 1 ∨ s.data.length = 2) ∧
      ((∀ c ∈ s.data, is_lower_char c) ∨ (∀ c ∈ s.data, is_upper_char c)))

instance (s : String) : Decidable (valid_name s) :=
  inferInstanceAs (Decidable (s = "start" ∨ s = "end" ∨
    ((s.data.length = 1 ∨ s.data.length = 2) ∧
      ((∀ c ∈ s.data, is_lower_char c) ∨ (∀ c ∈ s.data, is_upper_char c)))))

/-- Specification: a big cave has an uppercase name. -/
def cave_big (s : String) : Bool := s.data.all (fun c => decide (is_upper_char c))

/-- The cave code of a name. -/
def cave_code (s : String) : Nat := (str_to_cave_code s.data).1

/-- The value of the next letter in the loop of `str_to_cave_code`. -/
def code_step (code : Nat) (c : Char) : Nat := add64 (mul64 code ALPHABET) (char_value c)

/-- The letter with a given value: the inverse of `char_value` on letters. -/
def value_char (v : Nat) : Char := if v < 30 then Char.ofNat (v + 93) else Char.ofNat (v + 35)

/-- The name with a given cave code: the inverse of `cave_code` on the names of
the claim. -/
def code_name (k : Nat) : List Char :=
  if k = START_CODE then ['s', 't', 'a', 'r', 't']
  else if k = END_CODE then ['e', 'n', 'd']
  else if k % ALPHABET = 3 then [value_char (k / ALPHABET)]
  else [value_char (k / ALPHABET), value_char (k % ALPHABET)]

/-- The input line `from-to` of an edge. -/
def edge_line (e : String × String) : String := e.1 ++ "-" ++ e.2

/-- Specification: two caves are joined by an edge, in either direction. -/
def adjacent (edges : List (String × String)) (a b : String) : Prop :=
  (a, b) ∈ edges ∨ (b, a) ∈ edges

/-- Specification: no edge is listed twice, in the same or in the opposite
direction. -/
def no_duplicate_edges (edges : List (String × String)) : Prop :=
  edges.Pairwise (fun e f => ¬ (e = f ∨ e = (f.2, f.1)))

instance (edges : List (String × String)) : Decidable (no_duplicate_edges edges) :=
  inferInstanceAs (Decidable (List.Pairwise _ edges))

/-- Specification: the small caves, the start cave and every cave of an edge
that is not big, each listed once. -/
def small_caves (edges : List (String × String)) : List String :=
  (("start" :: edges.flatMap (fun e => [e.1, e.2])).dedup).filter (fun s => !cave_big s)

/-- Specification: the walks counted by `how_many_paths<0>`.  A walk goes from
`start` to `end` along the edges, ends at the first visit of `end` and visits
every small cave at most once. -/
def is_walk0 (edges : List (String × String)) (w : List String) : Prop :=
  w.head? = some "start" ∧ w.getLast? = some "end" ∧ List.Chain' (adjacent edges) w ∧
  w.count "end" = 1 ∧ ∀ c ∈ w, cave_big c = false → w.count c ≤ 1

/-- Specification: the walks counted by `how_many_paths<1>`.  A walk goes from
`start` to `end` along the edges, ends at the first visit of `end`, visits
`start` once, and at most one small cave is visited twice, every other small
cave at most once. -/
def is_walk1 (edges : List (String × String)) (w : List String) : Prop :=
  w.head? = some "start" ∧ w.getLast? = some "end" ∧ List.Chain' (adjacent edges) w ∧
  w.count "end" = 1 ∧ w.count "start" = 1 ∧
  (∀ c ∈ w, cave_big c = false → w.count c ≤ 2) ∧
  (∀ c ∈ w, ∀ d ∈ w, cave_big c = false → cave_big d = false →
    w.count c = 2 → w.count d = 2 → c = d)

/-- The neighbours of a cave, in the order in which `parse_cave_map` inserts
them in its row. -/
def neighbours (edges : List (String × String)) (k : String) : List String :=
  edges.flatMap (fun e => (if e.1 = k then [e.2] else []) ++ (if e.2 = k then [e.1] else []))

/-- A row of the cave map that holds the codes `vals` and then zeros. -/
def pad (vals : List Nat) : List Nat :=
  vals ++ List.replicate (ALPHABET * ALPHABET - vals.length) 0

/-- The codes that `parse_cave_map` inserts in the row of the key `k`, in the
order of insertion. -/
def code_neighbours (edges : List (String × String)) (k : Nat) : List Nat :=
  edges.flatMap (fun e =>
    (if cave_code e.1 = k then [cave_code e.2] else []) ++
    (if cave_code e.2 = k then [cave_code e.1] else []))

/-- The queue holds exactly the codes `codes`, in order. -/
def queue_holds (queue : queue_t) (codes : List Nat) : Prop :=
  queue.array.length = 100 ∧ queue.size = codes.length ∧ queue.array.take queue.size = codes

/-- The walks that `traverse` follows from a cave: `seen` are the small caves
in the queue, `small_count` is the number of second visits still allowed. -/
def accepts (edges : List (String × String)) : List String → Nat → List String → Prop
  | _, _, [] => False
  | _, _, [k] => k = "end"
  | seen, small_count, k :: v :: rest =>
    k ≠ "end" ∧ adjacent edges k v ∧
      (if cave_big k = true then accepts edges seen small_count (v :: rest)
       else if k ∉ seen then accepts edges (seen ++ [k]) small_count (v :: rest)
       else small_count = 1 ∧ k ≠ "start" ∧ accepts edges seen (small_count - 1) (v :: rest))

/-- The walks that start at `k` and go on with a walk of `next v` for a
neighbour `v` of `k`. -/
def extend (edges : List (String × String)) (k : String) (next : String → List (List String)) :
    List (List String) :=
  (neighbours edges k).flatMap (fun v => (next v).map (fun p => k :: p))

/-- The list of the walks that `traverse` counts from the cave `k`, by the same
recursion as `traverse`. -/
def walks_from (edges : List (String × String)) :
    Nat → String → List String → Nat → List (List String)
  | 0, _, _, _ => []
  | fuel + 1, k, seen, small_count =>
    if k = "end" then [["end"]]
    else if cave_big k = true then
      extend edges k (fun v => walks_from edges fuel v seen small_count)
    else if k ∉ seen then
      extend edges k (fun v => walks_from edges fuel v (seen ++ [k]) small_count)
    else if small_count = 1 ∧ k ≠ "start" then
      extend edges k (fun v => walks_from edges fuel v seen (small_count - 1))
    else []

/-- The number of small caves that are not in the queue. -/
def unseen (edges : List (String × String)) (seen : List String) : Nat :=
  ((small_caves edges).filter (fun s => decide (s ∉ seen))).length

/-- A bound on the depth of the recursion of `traverse` from a cave. -/
def depth_bound (edges : List (String × String)) (k : String) (seen : List String)
    (small_count : Nat) : Nat :=
  2 * (unseen edges seen + small_count) + (if cave_big k = true then 2 else 1)

/-- The cave is the start cave or a cave of an edge. -/
def in_graph (edges : List (String × String)) (k : String) : Prop :=
  k = "start" ∨ ∃ e ∈ edges, e.1 = k ∨ e.2 = k

/-- The number of visits of a cave: one if it is in the queue, plus its
occurrences in the walk. -/
def visits (seen walk : List String) (c : String) : Nat :=
  (if c ∈ seen then 1 else 0) + walk.count c

/-- The visits of small caves stay within what `small_count` allows. -/
def within (seen : List String) (small_count : Nat) (walk : List String) : Prop :=
  (∀ c, cave_big c = false → visits seen walk c ≤ 1 + small_count) ∧
  (∀ c d, cave_big c = false → cave_big d = false →
    visits seen walk c = 2 → visits seen walk d = 2 → c = d) ∧
  visits seen walk "start" ≤ 1

end Day12

namespace Day12

/-- A letter, of either case. -/
def is_letter (c : Char) : Prop := is_lower_char c ∨ is_upper_char c

instance (c : Char) : Decidable (is_letter c) :=
  inferInstanceAs (Decidable (is_lower_char c ∨ is_upper_char c))

/-- Specification: the names `"start"`, `"end"` and every name of one or two
letters, of either case. -/
def letter_name (s : String) : Prop :=
  s = "start" ∨ s = "end" ∨
    ((s.data.length = 1 ∨ s.data.length = 2) ∧ ∀ c ∈ s.data, is_letter c)

instance (s : String) : Decidable (letter_name s) :=
  inferInstanceAs (Decidable (s = "start" ∨ s = "end" ∨
    ((s.data.length = 1 ∨ s.data.length = 2) ∧ ∀ c ∈ s.data, is_letter c)))

end Day12

namespace Day11

/-! ## Day 11: cells, neighbours and the sets of flashing cells -/

/-- The value of the grid at a cell. -/
def val (grid : grid_t) (c : Nat × Nat) : Nat := grid_get grid c.1 c.2

/-- The cell lies in the `size` by `size` grid. -/
def in_grid (size : Nat) (c : Nat × Nat) : Prop := c.1 < size ∧ c.2 < size

instance (size : Nat) (c : Nat × Nat) : Decidable (in_grid size c) :=
  inferInstanceAs (Decidable (c.1 < size ∧ c.2 < size))

/-- The grid has `size` rows of `size` values. -/
def grid_ok (size : Nat) (grid : grid_t) : Prop :=
  grid.length = size ∧ ∀ row ∈ grid, row.length = size

instance (size : Nat) (grid : grid_t) : Decidable (grid_ok size grid) :=
  inferInstanceAs (Decidable (grid.length = size ∧ ∀ row ∈ grid, row.length = size))

/-- Specification: two distinct cells that touch, by a side or by a corner. -/
def adj (c d : Nat × Nat) : Prop :=
  c ≠ d ∧ c.1 ≤ d.1 + 1 ∧ d.1 ≤ c.1 + 1 ∧ c.2 ≤ d.2 + 1 ∧ d.2 ≤ c.2 + 1

instance (c d : Nat × Nat) : Decidable (adj c d) :=
  inferInstanceAs (Decidable (c ≠ d ∧ c.1 ≤ d.1 + 1 ∧ d.1 ≤ c.1 + 1 ∧ c.2 ≤ d.2 + 1 ∧
    d.2 ≤ c.2 + 1))

/-- Specification: the up-to-8 neighbours of a cell in the grid. -/
def neighbours (size : Nat) (c : Nat × Nat) : List (Nat × Nat) :=
  (cells size).filter (fun d => decide (adj c d))

/-- Specification: the number of neighbours of a cell that are in the set `F`. -/
def neighbours_in (size : Nat) (F : Nat × Nat → Bool) (c : Nat × Nat) : Nat :=
  ((neighbours size c).filter F).length

/-- Specification: the number of cells of the grid that are in the set `F`. -/
def card_in (size : Nat) (F : Nat × Nat → Bool) : Nat := ((cells size).filter F).length

/-- Specification: the set `F` is closed under the flash rule of a grid with
the values `v`: a cell whose value plus one plus its neighbours in `F` exceeds 9
is in `F`. -/
def flash_closed (size : Nat) (v : Nat × Nat → Nat) (F : Nat × Nat → Bool) : Prop :=
  ∀ c, in_grid size c → v c + 1 + neighbours_in size F c > 9 → F c = true

/-- Specification: the set `F` is a fixed point of the flash rule: a cell of the
grid is in `F` exactly when its value plus one plus its neighbours in `F`
exceeds 9. -/
def flash_fixed (size : Nat) (v : Nat × Nat → Nat) (F : Nat × Nat → Bool) : Prop :=
  ∀ c, in_grid size c → (F c = true ↔ v c + 1 + neighbours_in size F c > 9)

/-- Specification: `F` is the least set of cells closed under the flash rule. -/
def least_flash_set (size : Nat) (v : Nat × Nat → Nat) (F : Nat × Nat → Bool) : Prop :=
  flash_fixed size v F ∧
    ∀ G : Nat × Nat → Bool, flash_closed size v G → ∀ c, in_grid size c → F c = true → G c = true

/-- Specification: the pair of a grid and a count is the outcome of one step on
the values `v`: the cells at 0 are the least set `F` closed under the flash
rule, every other cell holds its value plus one plus its neighbours in `F`,
which is at most 9, and the count is the number of cells of `F`. -/
def step_outcome (size : Nat) (v : Nat × Nat → Nat) (r : grid_t × Nat) : Prop :=
  grid_ok size r.1 ∧
  least_flash_set size v (fun c => decide (val r.1 c = 0)) ∧
  (∀ c, in_grid size c → val r.1 c ≠ 0 →
    val r.1 c = v c + 1 + neighbours_in size (fun d => decide (val r.1 d = 0)) c ∧
      val r.1 c ≤ 9) ∧
  r.2 = card_in size (fun c => decide (val r.1 c = 0))

/-- The cells that the double loop of `spread_recursive` at `(i, j)` reaches,
in the order of the loop. -/
def targets (size i j : Nat) : List (Nat × Nat) :=
  (offsets.filter (fun xy => !skip size i j xy.1 xy.2)).map
    (fun xy => (offset i xy.1, offset j xy.2))

/-- The double loop of `spread_recursive` as a loop over the cells it reaches. -/
def targets_loop (f : grid_t → Nat → Nat → Option (grid_t × List (Nat × Nat))) :
    List (Nat × Nat) → grid_t → Option (grid_t × List (Nat × Nat))
  | [], grid => some (grid, [])
  | e :: rest, grid =>
    if val grid e ≤ 9 then
      match f (grid_set grid e.1 e.2 (add64 (val grid e) 1)) e.1 e.2 with
      | none => none
      | some r1 =>
        match targets_loop f rest r1.1 with
        | none => none
        | some r2 => some (r2.1, r1.2 ++ r2.2)
    else targets_loop f rest grid

/-- The number of cells of the list that touch the cell `e`. -/
def nb_count (cs : List (Nat × Nat)) (e : Nat × Nat) : Nat :=
  cs.countP (fun d => decide (adj e d))

/-- Every cell of the list has reached 10: its weight `w` plus the number of the
cells that touch it and come before it, in `seen` or in the list, is at least
10. -/
def justified (w : Nat × Nat → Nat) : List (Nat × Nat) → List (Nat × Nat) → Prop
  | _, [] => True
  | seen, d :: rest => 10 ≤ w d + nb_count seen d ∧ justified w (seen ++ [d]) rest

/-- The number of cells of the grid with a value of at most 9. -/
def unflashed (size : Nat) (grid : grid_t) : Nat :=
  ((Finset.range size ×ˢ Finset.range size).filter (fun c => val grid c ≤ 9)).card

end Day11

namespace Day11

/-- What a call of `spread_recursive` at the cell `c` of the grid `g`, with a
value of at most 10 there, leaves: `r.1` is the grid, `r.2` the cells that
passed the guard.  A cell that passed the guard holds 11, any other cell that was at
most 9 has gained one for each cell of `r.2` that touches it and is still at
most 9, and every other cell is unchanged. -/
def call_post (size : Nat) (g : grid_t) (c : Nat × Nat) (r : grid_t × List (Nat × Nat)) : Prop :=
  grid_ok size r.1 ∧ r.2.Nodup ∧
  (∀ d ∈ r.2, in_grid size d ∧ val g d ≤ 10 ∧ val r.1 d = 11 ∧ (val g d = 10 → d = c)) ∧
  (val g c = 10 → c ∈ r.2) ∧
  (∀ e, in_grid size e → e ∉ r.2 →
    (10 ≤ val g e → val r.1 e = val g e) ∧
    (val g e ≤ 9 → val r.1 e = val g e + nb_count r.2 e ∧ val r.1 e ≤ 9)) ∧
  justified (val g) [] r.2

/-- What the double loop of `spread_recursive` over the cells `ns`, started on
the grid `h0`, leaves: `r.1` is the grid, `r.2` the cells that passed the guard
in the calls of the loop. -/
def loop_post (size : Nat) (h0 : grid_t) (ns : List (Nat × Nat))
    (r : grid_t × List (Nat × Nat)) : Prop :=
  grid_ok size r.1 ∧ r.2.Nodup ∧
  (∀ d ∈ r.2, in_grid size d ∧ val h0 d ≤ 9 ∧ val r.1 d = 11) ∧
  (∀ e, in_grid size e → e ∉ r.2 →
    (10 ≤ val h0 e → val r.1 e = val h0 e) ∧
    (val h0 e ≤ 9 →
      val r.1 e = val h0 e + nb_count r.2 e + (if e ∈ ns then 1 else 0) ∧ val r.1 e ≤ 9)) ∧
  justified (fun d => val h0 d + (if d ∈ ns then 1 else 0)) [] r.2

/-- The depth of recursion that a call of `spread_recursive` at the cell `e` of
the grid `g` may need. -/
def depth_needed (size : Nat) (g : grid_t) (e : Nat × Nat) : Nat :=
  if val g e ≤ 9 then 1 else unflashed size g + 1

end Day11

namespace Day11

/-- What the double loop of `spread` over the cells `cs`, started on the grid
`g0`, leaves: `r.1` is the grid, `r.2` the cells that passed the guard of
`spread_recursive`. -/
def cells_post (size : Nat) (g0 : grid_t) (cs : List (Nat × Nat))
    (r : grid_t × List (Nat × Nat)) : Prop :=
  grid_ok size r.1 ∧ r.2.Nodup ∧
  (∀ d ∈ r.2, in_grid size d ∧ val g0 d ≤ 10 ∧ val r.1 d = 11) ∧
  (∀ e ∈ cs, val g0 e = 10 → e ∈ r.2) ∧
  (∀ e, in_grid size e → e ∉ r.2 →
    (10 ≤ val g0 e → val r.1 e = val g0 e) ∧
    (val g0 e ≤ 9 → val r.1 e = val g0 e + nb_count r.2 e ∧ val r.1 e ≤ 9)) ∧
  justified (val g0) [] r.2

end Day11

namespace Day12

/-! ## Day 12: the queues of the calls of `traverse` -/

/-- The outcome of a run of `traverse` that is followed up to a store outside
the array of the queue: `undefined` when `push_back` is reached with the queue
full (the store `array[size++] = value` is then outside `array`, which the
source leaves undefined), else `returned sum queues` with the returned value
and the queues that existed during the run. -/
inductive outcome_t where
  | undefined : outcome_t
  | returned (sum : Nat) (queues : List queue_t) : outcome_t

/-- The queues `queues` existed before the rest of the run. -/
def add_queues (queues : List queue_t) : Option outcome_t → Option outcome_t
  | some (outcome_t.returned sum rest) => some (outcome_t.returned sum (queues ++ rest))
  | some outcome_t.undefined => some outcome_t.undefined
  | none => none

/-- The loop of `traverse`, followed up to a store outside the array of the
queue, with the queues of the calls made by the loop. -/
def traverse_loop_checked (f : Nat → Option outcome_t) : List Nat → Nat → Option outcome_t
  | [], sum => some (outcome_t.returned sum [])
  | value :: rest, sum =>
    if value = 0 then some (outcome_t.returned sum [])
    else
      match f value with
      | none => none
      | some outcome_t.undefined => some outcome_t.undefined
      | some (outcome_t.returned n queues) =>
        add_queues queues (traverse_loop_checked f rest (add64 sum n))

/-- The function `traverse`, followed up to a store outside the array of the
queue: `none` when the bound `fuel` on the depth of the recursion is reached,
`undefined` when `push_back` is reached with `size` not below the length of
`array`, else the returned value with the queues that existed during the call,
the queue of every call and the queue after every `push_back`. -/
def traverse_checked : Nat → Nat → cave_map_t → queue_t → Nat → Option outcome_t
  | 0, _, _, _, _ => none
  | fuel + 1, key, map, queue, small_count =>
    if key = END_CODE then some (outcome_t.returned 1 [queue])
    else if is_big key then
      add_queues [queue]
        (traverse_loop_checked (fun value => traverse_checked fuel value map queue small_count)
          (map.array key) 0)
    else if !queue.contains key then
      if queue.size < queue.array.length then
        add_queues [queue, queue.push_back key]
          (traverse_loop_checked
            (fun value => traverse_checked fuel value map (queue.push_back key) small_count)
            (map.array key) 0)
      else some outcome_t.undefined
    else if small_count = 1 ∧ key ≠ START_CODE then
      add_queues [queue]
        (traverse_loop_checked
          (fun value => traverse_checked fuel value map queue (small_count - 1))
          (map.array key) 0)
    else some (outcome_t.returned 0 [queue])

/-- The codes of a row that the loop of `traverse` reads: the entries before
the first `0`. -/
def row_codes (row : List Nat) : List Nat := row.takeWhile (fun v => decide (v ≠ 0))

/-- Specification: no big cave is adjacent to a big cave. -/
def no_big_adjacent (map : cave_map_t) : Prop :=
  ∀ key v, is_big key = true → v ∈ row_codes (map.array key) → is_big v = false

/-- The code of the `j`-th name of two lowercase letters: `aa`, `ab`, ... -/
def chain_code (j : Nat) : Nat := (4 + j / 26) * ALPHABET + (4 + j % 26)

/-- The row of a cave in the chain of the 102 small caves `aa`, `ab`, ..., each
joined to the next. -/
def chain_row (k : Nat) : List Nat :=
  (List.range 102).flatMap (fun j =>
    if k = chain_code j then
      (if j = 0 then [] else [chain_code (j - 1)]) ++
        (if j = 101 then [] else [chain_code (j + 1)])
    else [])

/-- The cave map of the chain of 102 small caves. -/
def chain_map : cave_map_t := { array := fun k => pad (chain_row k) }

/-- The queue that holds the first 100 caves of the chain. -/
def chain_queue : queue_t := { array := (List.range 100).map chain_code, size := 100 }

end Day12

/-! ## Arithmetic of `std::size_t` and array updates -/

theorem SIZE_MOD_pos : 0 < SIZE_MOD := by decide

theorem add64_lt (a b : Nat) : add64 a b < SIZE_MOD := Nat.mod_lt _ SIZE_MOD_pos

theorem sub64_lt (a b : Nat) : sub64 a b < SIZE_MOD := Nat.mod_lt _ SIZE_MOD_pos

theorem sub64_eq_add64 (a b : Nat) : sub64 a b = add64 a (SIZE_MOD - b % SIZE_MOD) := rfl

theorem sub_at_eq_add_at (a : List Nat) (i v : Nat) :
    sub_at a i v = add_at a i (SIZE_MOD - v % SIZE_MOD) := rfl

theorem add64_comm_right (x v w : Nat) : add64 (add64 x v) w = add64 (add64 x w) v := by
  simp only [add64, SIZE_MOD]
  omega

theorem add64_of_lt {a b : Nat} (h : a + b < SIZE_MOD) : add64 a b = a + b :=
  Nat.mod_eq_of_lt h

theorem cast_add64 (a b : Nat) : ((add64 a b : Nat) : ZMod SIZE_MOD) = a + b := by
  simp [add64, ZMod.natCast_mod]

theorem eq_of_cast_eq {a b : Nat} (ha : a < SIZE_MOD) (hb : b < SIZE_MOD)
    (h : (a : ZMod SIZE_MOD) = (b : ZMod SIZE_MOD)) : a = b := by
  rw [ZMod.natCast_eq_natCast_iff'] at h
  rwa [Nat.mod_eq_of_lt ha, Nat.mod_eq_of_lt hb] at h

theorem getD_set (a : List Nat) (i k x : Nat) :
    (a.set i x).getD k 0 = if k = i ∧ i < a.length then x else a.getD k 0 := by
  simp only [List.getD_eq_getElem?_getD, List.getElem?_set]
  by_cases hki : k = i
  · subst hki
    by_cases hk : k < a.length
    · simp [hk]
    · simp [hk, List.getElem?_eq_none (Nat.le_of_not_lt hk)]
  · have : ¬ i = k := fun h => hki h.symm
    simp [hki, this]

theorem list_ext_getD {a b : List Nat} (hl : a.length = b.length)
    (h : ∀ k, a.getD k 0 = b.getD k 0) : a = b := by
  apply List.ext_getElem hl
  intro n h1 h2
  have := h n
  rwa [List.getD_eq_getElem _ _ h1, List.getD_eq_getElem _ _ h2] at this

theorem length_add_at (a : List Nat) (i v : Nat) : (add_at a i v).length = a.length := by
  simp [add_at]

theorem length_sub_at (a : List Nat) (i v : Nat) : (sub_at a i v).length = a.length := by
  simp [sub_at]

theorem getD_add_at (a : List Nat) (i v k : Nat) :
    (add_at a i v).getD k 0 =
      if k = i ∧ i < a.length then add64 (a.getD i 0) v else a.getD k 0 := by
  rw [add_at, getD_set]

theorem add_at_comm (a : List Nat) (i v j w : Nat) :
    add_at (add_at a i v) j w = add_at (add_at a j w) i v := by
  apply list_ext_getD
  · simp [length_add_at]
  · intro k
    simp only [getD_add_at, length_add_at]
    by_cases hij : i = j
    · subst hij
      by_cases hk : k = i ∧ i < a.length
      · simp only [if_pos hk, true_and, if_pos hk.2, add64_comm_right]
      · simp only [if_neg hk]
    · have hji : ¬ j = i := fun h => hij h.symm
      by_cases hki : k = i
      · subst hki; simp [hij]
      · by_cases hkj : k = j
        · subst hkj; simp [hji]
        · simp [hki, hkj]

theorem add_list_add_at (a : List Nat) (us : List (Nat × Nat)) (j w : Nat) :
    add_at (add_list a us) j w = add_list (add_at a j w) us := by
  induction us generalizing a with
  | nil => rfl
  | cons u us ih =>
    show add_at (add_list (add_at a u.1 u.2) us) j w = add_list (add_at (add_at a j w) u.1 u.2) us
    rw [ih, add_at_comm]

theorem add_list_comm (a : List Nat) (us vs : List (Nat × Nat)) :
    add_list (add_list a us) vs = add_list (add_list a vs) us := by
  induction vs generalizing a with
  | nil => rfl
  | cons v vs ih =>
    show add_list (add_at (add_list a us) v.1 v.2) vs = add_list (add_list (add_at a v.1 v.2) vs) us
    rw [add_list_add_at, ih]

namespace Day14

theorem char_to_int_upper {c : Char} (hc : is_upper c) : char_to_int c = c.toNat - 64 := by
  obtain ⟨h1, h2⟩ := hc
  unfold char_to_int int_to_size SIZE_MOD
  omega

theorem char_to_int_range {c : Char} (hc : is_upper c) :
    1 ≤ char_to_int c ∧ char_to_int c ≤ 26 := by
  rw [char_to_int_upper hc]
  obtain ⟨h1, h2⟩ := hc
  omega

theorem apply_rule_eq (polymer new_polymer : polymer_t) (rule : rule_t) :
    apply_rule polymer new_polymer rule =
      if polymer.twos.getD (pair_index rule.left rule.right) 0 > 0 then
        { twos := add_list new_polymer.twos
            (twos_updates rule (polymer.twos.getD (pair_index rule.left rule.right) 0)),
          ones := add_list new_polymer.ones
            [(rule.result, polymer.twos.getD (pair_index rule.left rule.right) 0)] }
      else new_polymer := rfl

theorem apply_rule_comm (polymer new_polymer : polymer_t) (r1 r2 : rule_t) :
    apply_rule polymer (apply_rule polymer new_polymer r1) r2 =
      apply_rule polymer (apply_rule polymer new_polymer r2) r1 := by
  simp only [apply_rule_eq]
  by_cases h1 : polymer.twos.getD (pair_index r1.left r1.right) 0 > 0 <;>
    by_cases h2 : polymer.twos.getD (pair_index r2.left r2.right) 0 > 0
  · simp only [if_pos h1, if_pos h2]
    rw [add_list_comm new_polymer.twos, add_list_comm new_polymer.ones]
  · simp only [if_pos h1, if_neg h2]
  · simp only [if_pos h2, if_neg h1]
  · simp only [if_neg h1, if_neg h2]

theorem steps_nil (n : Nat) (polymer : polymer_t) : steps [] n polymer = polymer := by
  induction n with
  | zero => rfl
  | succ n ih => exact ih

theorem calculate_fold_zero (l : List Nat) (h : ∀ x ∈ l, x = 0) (acc : Nat × Nat) :
    l.foldl calculate_step acc = acc := by
  induction l with
  | nil => rfl
  | cons x xs ih =>
    have hx : x = 0 := h x (List.mem_cons_self _ _)
    subst hx
    exact ih (fun y hy => h y (List.mem_cons_of_mem _ hy))

theorem calculate_fold_spec (l : List Nat) (mx mn : Nat) :
    mx ≤ (l.foldl calculate_step (mx, mn)).1 ∧
    (∀ x ∈ l, x ≤ (l.foldl calculate_step (mx, mn)).1) ∧
    ((l.foldl calculate_step (mx, mn)).1 = mx ∨ (l.foldl calculate_step (mx, mn)).1 ∈ l) ∧
    (l.foldl calculate_step (mx, mn)).2 ≤ mn ∧
    (∀ x ∈ l, x ≠ 0 → (l.foldl calculate_step (mx, mn)).2 ≤ x) ∧
    ((l.foldl calculate_step (mx, mn)).2 = mn ∨
      ((l.foldl calculate_step (mx, mn)).2 ∈ l ∧ (l.foldl calculate_step (mx, mn)).2 ≠ 0)) := by
  induction l generalizing mx mn with
  | nil => simp
  | cons x xs ih =>
    simp only [List.foldl_cons, List.mem_cons, forall_eq_or_imp]
    by_cases hx : x = 0
    · subst hx
      have hstep : calculate_step (mx, mn) 0 = (mx, mn) := rfl
      rw [hstep]
      obtain ⟨h1, h2, h3, h4, h5, h6⟩ := ih mx mn
      refine ⟨h1, ⟨Nat.zero_le _, h2⟩, ?_, h4, ⟨fun h => absurd rfl h, h5⟩, ?_⟩
      · rcases h3 with h | h
        · exact Or.inl h
        · exact Or.inr (Or.inr h)
      · rcases h6 with h | h
        · exact Or.inl h
        · exact Or.inr ⟨Or.inr h.1, h.2⟩
    · have hstep : calculate_step (mx, mn) x = (Nat.max mx x, Nat.min mn x) := by
        simp [calculate_step, hx]
      rw [hstep]
      obtain ⟨h1, h2, h3, h4, h5, h6⟩ := ih (Nat.max mx x) (Nat.min mn x)
      have hmx1 : mx ≤ Nat.max mx x := Nat.le_max_left _ _
      have hmx2 : x ≤ Nat.max mx x := Nat.le_max_right _ _
      have hmn1 : Nat.min mn x ≤ mn := Nat.min_le_left _ _
      have hmn2 : Nat.min mn x ≤ x := Nat.min_le_right _ _
      refine ⟨le_trans hmx1 h1, ⟨le_trans hmx2 h1, h2⟩, ?_, le_trans h4 hmn1,
        ⟨fun _ => le_trans h4 hmn2, h5⟩, ?_⟩
      · rcases h3 with h | h
        · rw [h]
          rcases Nat.le_total mx x with hle | hle
          · exact Or.inr (Or.inl (Nat.max_eq_right hle))
          · exact Or.inl (Nat.max_eq_left hle)
        · exact Or.inr (Or.inr h)
      · rcases h6 with h | h
        · rw [h]
          rcases Nat.le_total mn x with hle | hle
          · exact Or.inl (Nat.min_eq_left hle)
          · have hm : Nat.min mn x = x := Nat.min_eq_right hle
            exact Or.inr ⟨Or.inl hm, by rw [hm]; exact hx⟩
        · exact Or.inr ⟨Or.inr h.1, h.2⟩

theorem sub64_of_le {a b : Nat} (hab : b ≤ a) (ha : a < SIZE_MOD) : sub64 a b = a - b := by
  unfold sub64
  unfold SIZE_MOD at *
  omega

end Day14

/-! ## Entries of updated arrays, as residues and as sums -/

theorem zget_add_at (a : List Nat) (i v k : Nat) (hi : i < a.length) :
    zget (add_at a i v) k = zget a k + if k = i then (v : ZMod SIZE_MOD) else 0 := by
  unfold zget
  rw [getD_add_at]
  by_cases hk : k = i
  · subst hk
    rw [if_pos ⟨rfl, hi⟩, if_pos rfl, cast_add64]
  · rw [if_neg (fun h => hk h.1), if_neg hk, add_zero]

theorem getD_le_sum (a : List Nat) (i : Nat) : a.getD i 0 ≤ a.sum := by
  induction a generalizing i with
  | nil => simp
  | cons x xs ih =>
    cases i with
    | zero => simp
    | succ i =>
      have := ih i
      simp only [List.getD_cons_succ, List.sum_cons]
      omega

theorem sum_set (a : List Nat) (i x : Nat) (hi : i < a.length) :
    (a.set i x).sum + a.getD i 0 = a.sum + x := by
  induction a generalizing i with
  | nil => simp at hi
  | cons y ys ih =>
    cases i with
    | zero => simp only [List.set_cons_zero, List.sum_cons, List.getD_cons_zero]; omega
    | succ i =>
      have := ih i (by simpa using hi)
      simp only [List.set_cons_succ, List.sum_cons, List.getD_cons_succ]
      omega

theorem sum_add_at (a : List Nat) (i v : Nat) (hi : i < a.length)
    (h : a.sum + v < SIZE_MOD) : (add_at a i v).sum = a.sum + v := by
  have h1 := getD_le_sum a i
  have h2 := sum_set a i (add64 (a.getD i 0) v) hi
  rw [add64_of_lt (by omega)] at h2
  unfold add_at
  rw [add64_of_lt (by omega)]
  omega

namespace Day14

/-! ## One generation, entry by entry -/

theorem pair_index_eq {a b : Nat} (ha : a ≤ 26) (hb : b ≤ 26) : pair_index a b = a * 27 + b := by
  unfold pair_index add64 mul64 SIZE_MOD ALPHABET
  omega

theorem pair_index_lt {a b : Nat} (ha : a ≤ 26) (hb : b ≤ 26) : pair_index a b < 729 := by
  rw [pair_index_eq ha hb]
  omega

theorem pair_index_inj {a b c d : Nat} (ha : a ≤ 26) (hb : b ≤ 26) (hc : c ≤ 26) (hd : d ≤ 26)
    (h : pair_index a b = pair_index c d) : a = c ∧ b = d := by
  rw [pair_index_eq ha hb, pair_index_eq hc hd] at h
  omega

theorem apply_rule_twos_length (polymer new_polymer : polymer_t) (r : rule_t) :
    (apply_rule polymer new_polymer r).twos.length = new_polymer.twos.length := by
  unfold apply_rule
  simp only []
  split
  · simp [length_sub_at, length_add_at]
  · rfl

theorem apply_rule_ones_length (polymer new_polymer : polymer_t) (r : rule_t) :
    (apply_rule polymer new_polymer r).ones.length = new_polymer.ones.length := by
  unfold apply_rule
  simp only []
  split
  · simp [length_add_at]
  · rfl

end Day14

namespace Day14

/-! ## The parsed model counts the pairs and the letters of the template -/

theorem polymer_zero_twos_length : polymer_zero.twos.length = 729 := by
  show (List.replicate (ALPHABET * ALPHABET) 0).length = 729
  rw [List.length_replicate]
  rfl

theorem polymer_zero_ones_length : polymer_zero.ones.length = 27 := by
  show (List.replicate ALPHABET 0).length = 27
  rw [List.length_replicate]
  rfl

end Day14

namespace Day14

/-! ## The expanded sequence, pair by pair -/

theorem find_rule_cons (r : rule_t) (rs : List rule_t) (a c : Char) :
    find_rule (r :: rs) a c =
      if r.left = char_to_int a ∧ r.right = char_to_int c then some r else find_rule rs a c := by
  unfold find_rule
  rw [List.find?_cons]
  by_cases h : r.left = char_to_int a ∧ r.right = char_to_int c
  · simp [h]
  · simp [h]

theorem find_rule_key {rules : List rule_t} {a c : Char} {r : rule_t}
    (h : find_rule rules a c = some r) : r.left = char_to_int a ∧ r.right = char_to_int c := by
  induction rules with
  | nil => simp [find_rule] at h
  | cons q qs ih =>
    rw [find_rule_cons] at h
    split at h
    · rename_i hq
      have : q = r := Option.some.inj h
      rw [← this]
      exact hq
    · exact ih h

theorem find_rule_none {rules : List rule_t} {a c : Char}
    (h : ∀ r ∈ rules, ¬ (r.left = char_to_int a ∧ r.right = char_to_int c)) :
    find_rule rules a c = none := by
  induction rules with
  | nil => rfl
  | cons q qs ih =>
    rw [find_rule_cons, if_neg (h q (List.mem_cons_self _ _))]
    exact ih (fun r hr => h r (List.mem_cons_of_mem _ hr))

end Day14

namespace Day14

theorem polymer_ext {p q : polymer_t} (h2 : p.twos = q.twos) (h1 : p.ones = q.ones) : p = q := by
  cases p
  cases q
  simp only [polymer_t.mk.injEq]
  exact ⟨h2, h1⟩

end Day14

namespace Day14

/-! ## The count model against the materialised sequence -/

theorem foldl_apply_rule_ones_sum (polymer new_polymer : polymer_t) (rules : List rule_t)
    (hlen : new_polymer.ones.length = 27) (hr : ∀ r ∈ rules, r.result < 27)
    (hs : new_polymer.ones.sum +
      (rules.map (fun r => polymer.twos.getD (pair_index r.left r.right) 0)).sum < SIZE_MOD) :
    (rules.foldl (apply_rule polymer) new_polymer).ones.sum =
      new_polymer.ones.sum +
        (rules.map (fun r => polymer.twos.getD (pair_index r.left r.right) 0)).sum := by
  induction rules generalizing new_polymer with
  | nil => rfl
  | cons r rs ih =>
    simp only [List.map_cons, List.sum_cons] at hs ⊢
    have hri := hr r (List.mem_cons_self _ _)
    have hstep : (apply_rule polymer new_polymer r).ones.sum =
        new_polymer.ones.sum + polymer.twos.getD (pair_index r.left r.right) 0 := by
      unfold apply_rule
      simp only []
      split
      · exact sum_add_at _ _ _ (by rw [hlen]; exact hri) (by omega)
      · omega
    rw [List.foldl_cons, ih _ (by rw [apply_rule_ones_length]; exact hlen)
      (fun q hq => hr q (List.mem_cons_of_mem _ hq)) (by rw [hstep]; omega), hstep]
    omega

end Day14

/-! ## Evaluation on the list of non-zero entries -/

theorem tbl_get_add (t : List (Nat × Nat)) (i v k : Nat) :
    tbl_get (tbl_add t i v) k = if k = i then add64 (tbl_get t i) v else tbl_get t k := by
  induction t with
  | nil => simp [tbl_add, tbl_get]
  | cons e rest ih =>
    obtain ⟨j, x⟩ := e
    by_cases hij : i = j
    · subst hij
      simp only [tbl_add, if_true, tbl_get]
      by_cases hk : k = i
      · simp [hk]
      · simp [hk]
    · simp only [tbl_add, if_neg hij, tbl_get, ih]
      by_cases hk : k = i
      · subst hk
        simp [hij]
      · simp [hk]

theorem length_untbl (n : Nat) (t : List (Nat × Nat)) : (untbl n t).length = n := by
  simp [untbl]

theorem getD_untbl (n : Nat) (t : List (Nat × Nat)) (k : Nat) :
    (untbl n t).getD k 0 = if k < n then tbl_get t k else 0 := by
  by_cases hk : k < n
  · rw [if_pos hk, List.getD_eq_getElem _ _ (by rw [length_untbl]; exact hk)]
    simp [untbl]
  · rw [if_neg hk]
    exact List.getD_eq_default _ _ (by rw [length_untbl]; omega)

theorem add_at_untbl (n : Nat) (t : List (Nat × Nat)) (i v : Nat) (hi : i < n) :
    add_at (untbl n t) i v = untbl n (tbl_add t i v) := by
  apply list_ext_getD
  · rw [length_add_at, length_untbl, length_untbl]
  · intro k
    rw [getD_add_at, getD_untbl, getD_untbl, getD_untbl, length_untbl, tbl_get_add, if_pos hi]
    by_cases hk : k = i
    · subst hk
      simp [hi]
    · simp [hk]

namespace Day14

theorem untbl_polymer_twos (t : List (Nat × Nat) × List (Nat × Nat)) :
    (untbl_polymer t).twos = untbl 729 t.1 := by
  simp only [untbl_polymer]

theorem untbl_polymer_ones (t : List (Nat × Nat) × List (Nat × Nat)) :
    (untbl_polymer t).ones = untbl 27 t.2 := by
  simp only [untbl_polymer]

theorem apply_rule_untbl (t u : List (Nat × Nat) × List (Nat × Nat)) (r : rule_t)
    (hr : rule_upper r) :
    apply_rule (untbl_polymer t) (untbl_polymer u) r = untbl_polymer (apply_rule_tbl t u r) := by
  obtain ⟨⟨-, hl⟩, ⟨-, hrr⟩, ⟨-, hx⟩⟩ := hr
  have hp := pair_index_lt hl hrr
  have hval : (untbl_polymer t).twos.getD (pair_index r.left r.right) 0 =
      tbl_get t.1 (pair_index r.left r.right) := by
    rw [untbl_polymer_twos, getD_untbl, if_pos hp]
  unfold apply_rule apply_rule_tbl
  simp only [hval]
  split
  · apply polymer_ext
    · simp only [untbl_polymer_twos]
      rw [sub_at_eq_add_at, add_at_untbl _ _ _ _ (pair_index_lt hl hx),
        add_at_untbl _ _ _ _ (pair_index_lt hx hrr), add_at_untbl _ _ _ _ hp]
    · simp only [untbl_polymer_ones]
      rw [add_at_untbl _ _ _ _ (by omega)]
  · rfl

theorem foldl_apply_rule_untbl (t u : List (Nat × Nat) × List (Nat × Nat))
    (rules : List rule_t) (hr : ∀ r ∈ rules, rule_upper r) :
    rules.foldl (apply_rule (untbl_polymer t)) (untbl_polymer u) =
      untbl_polymer (rules.foldl (apply_rule_tbl t) u) := by
  induction rules generalizing u with
  | nil => rfl
  | cons r rs ih =>
    rw [List.foldl_cons, List.foldl_cons, apply_rule_untbl t u r (hr r (List.mem_cons_self _ _))]
    exact ih _ (fun q hq => hr q (List.mem_cons_of_mem _ hq))

theorem steps_untbl (rules : List rule_t) (hr : ∀ r ∈ rules, rule_upper r) (n : Nat)
    (t : List (Nat × Nat) × List (Nat × Nat)) :
    steps rules n (untbl_polymer t) = untbl_polymer (steps_tbl rules n t) := by
  induction n generalizing t with
  | zero => rfl
  | succ n ih =>
    show steps rules n (rules.foldl (apply_rule (untbl_polymer t)) (untbl_polymer t)) = _
    rw [foldl_apply_rule_untbl t t rules hr]
    exact ih _

theorem parse_example_untbl :
    parse_polymer input_example =
      untbl_polymer ([(392, 1), (381, 1), (83, 1)], [(14, 2), (3, 1), (2, 1)]) := by
  decide!

theorem run_example_untbl (n : Nat) :
    run n input_example =
      calculate (untbl_polymer (steps_tbl (parse_rules input_example) n
        ([(392, 1), (381, 1), (83, 1)], [(14, 2), (3, 1), (2, 1)]))) := by
  unfold run
  rw [parse_example_untbl, steps_untbl _ (by decide)]

end Day14

namespace Day14

/-! ## The subtractions of `search_and_replace` -/

theorem char_to_int_inj {c d : Char} (hc : is_upper c) (hd : is_upper d)
    (h : char_to_int c = char_to_int d) : c = d := by
  rw [char_to_int_upper hc, char_to_int_upper hd] at h
  have h1 := hc.1
  have h2 := hd.1
  have e : c.toNat = d.toNat := by omega
  rw [← Char.ofNat_toNat c, ← Char.ofNat_toNat d, e]

theorem getD_two_adds (a : List Nat) (i1 i2 v j : Nat) (h1 : i1 < a.length) (h2 : i2 < a.length)
    (hlt : ∀ j, a.getD j 0 + 2 * v < SIZE_MOD) :
    (add_at (add_at a i1 v) i2 v).getD j 0 =
      a.getD j 0 + v * ((if j = i1 then 1 else 0) + (if j = i2 then 1 else 0)) := by
  have b1 := hlt i1
  have b2 := hlt i2
  simp only [getD_add_at, length_add_at, h1, h2, and_true]
  by_cases e2 : j = i2
  · subst e2
    rw [if_pos rfl, if_pos rfl]
    by_cases e1 : j = i1
    · subst e1
      rw [if_pos rfl, if_pos rfl, add64_of_lt (show a.getD j 0 + v < SIZE_MOD by omega),
        add64_of_lt (by omega)]
      omega
    · rw [if_neg e1, if_neg e1, add64_of_lt (by omega)]
      omega
  · rw [if_neg e2, if_neg e2]
    by_cases e1 : j = i1
    · subst e1
      rw [if_pos rfl, if_pos rfl, add64_of_lt (by omega)]
      omega
    · rw [if_neg e1, if_neg e1]
      omega

theorem getD_three_updates (a : List Nat) (i1 i2 i3 v k : Nat) (h1 : i1 < a.length)
    (h2 : i2 < a.length) (h3 : i3 < a.length) (hge : v ≤ a.getD i3 0)
    (hlt : ∀ j, a.getD j 0 + 2 * v < SIZE_MOD) :
    v ≤ (add_at (add_at a i1 v) i2 v).getD i3 0 ∧
    (sub_at (add_at (add_at a i1 v) i2 v) i3 v).getD k 0 + (if k = i3 then v else 0) =
      a.getD k 0 + v * ((if k = i1 then 1 else 0) + (if k = i2 then 1 else 0)) := by
  have hle : v ≤ (add_at (add_at a i1 v) i2 v).getD i3 0 := by
    rw [getD_two_adds a i1 i2 v i3 h1 h2 hlt]
    omega
  refine ⟨hle, ?_⟩
  rw [sub_at, getD_set, length_add_at, length_add_at]
  by_cases e3 : k = i3
  · subst e3
    rw [if_pos ⟨rfl, h3⟩, if_pos rfl, sub64_of_le hle, getD_two_adds a i1 i2 v k h1 h2 hlt]
    · rw [getD_two_adds a i1 i2 v k h1 h2 hlt] at hle
      omega
    · rw [getD_two_adds a i1 i2 v k h1 h2 hlt]
      have := hlt k
      split_ifs <;> omega
  · rw [if_neg (fun h => e3 h.1), if_neg e3, getD_two_adds a i1 i2 v k h1 h2 hlt]
    rfl

theorem apply_rule_twos_getD (polymer new_polymer : polymer_t) (r : rule_t) (k : Nat)
    (hlen : new_polymer.twos.length = 729) (hr : rule_upper r)
    (hge : key_value polymer r ≤ new_polymer.twos.getD (pair_index r.left r.right) 0)
    (hlt : ∀ j, new_polymer.twos.getD j 0 + 2 * key_value polymer r < SIZE_MOD) :
    sub_in_range polymer new_polymer r ∧
    (apply_rule polymer new_polymer r).twos.getD k 0 +
        (if k = pair_index r.left r.right then key_value polymer r else 0) =
      new_polymer.twos.getD k 0 + key_value polymer r *
        ((if k = pair_index r.left r.result then 1 else 0) +
         (if k = pair_index r.result r.right then 1 else 0)) := by
  obtain ⟨⟨-, hl⟩, ⟨-, hrr⟩, ⟨-, hx⟩⟩ := hr
  have h1 : pair_index r.left r.result < new_polymer.twos.length := by
    rw [hlen]
    exact pair_index_lt hl hx
  have h2 : pair_index r.result r.right < new_polymer.twos.length := by
    rw [hlen]
    exact pair_index_lt hx hrr
  have h3 : pair_index r.left r.right < new_polymer.twos.length := by
    rw [hlen]
    exact pair_index_lt hl hrr
  have h := getD_three_updates new_polymer.twos _ _ _ _ k h1 h2 h3 hge hlt
  refine ⟨fun _ => h.1, ?_⟩
  have happ : apply_rule polymer new_polymer r =
      if key_value polymer r > 0 then
        { twos := sub_at (add_at (add_at new_polymer.twos (pair_index r.left r.result)
            (key_value polymer r)) (pair_index r.result r.right) (key_value polymer r))
            (pair_index r.left r.right) (key_value polymer r),
          ones := add_at new_polymer.ones r.result (key_value polymer r) }
      else new_polymer := rfl
  rw [happ]
  by_cases hv : key_value polymer r > 0
  · rw [if_pos hv]
    exact h.2
  · rw [if_neg hv]
    have : key_value polymer r = 0 := by omega
    rw [this]
    simp

theorem no_underflow_fold (polymer : polymer_t) (rules : List rule_t) :
    ∀ new_polymer : polymer_t, new_polymer.twos.length = 729 →
      (∀ r ∈ rules, rule_upper r) → distinct_keys rules →
      (∀ r ∈ rules, key_value polymer r ≤ new_polymer.twos.getD (pair_index r.left r.right) 0) →
      (∀ j, new_polymer.twos.getD j 0 + 2 * (rules.map (key_value polymer)).sum < SIZE_MOD) →
      no_underflow polymer new_polymer rules ∧
      ∀ k, (rules.foldl (apply_rule polymer) new_polymer).twos.getD k 0 +
          pairs_removed polymer rules k =
        new_polymer.twos.getD k 0 + pairs_added polymer rules k := by
  induction rules with
  | nil =>
    intro new_polymer _ _ _ _ _
    exact ⟨trivial, fun k => rfl⟩
  | cons r rest ih =>
    intro new_polymer hlen hr hd hge hlt
    have hru := hr r (List.mem_cons_self _ _)
    have hlt1 : ∀ j, new_polymer.twos.getD j 0 + 2 * key_value polymer r < SIZE_MOD := by
      intro j
      have := hlt j
      rw [List.map_cons, List.sum_cons] at this
      omega
    have hone := fun k => apply_rule_twos_getD polymer new_polymer r k hlen hru
      (hge r (List.mem_cons_self _ _)) hlt1
    have hd1 := List.pairwise_cons.mp hd
    have hrest := ih (apply_rule polymer new_polymer r)
      (by rw [apply_rule_twos_length, hlen])
      (fun q hq => hr q (List.mem_cons_of_mem _ hq)) hd1.2
      (by
        intro q hq
        have hqu := hr q (List.mem_cons_of_mem _ hq)
        have hne : pair_index q.left q.right ≠ pair_index r.left r.right := by
          intro e
          have := pair_index_inj hqu.1.2 hqu.2.1.2 hru.1.2 hru.2.1.2 e
          exact hd1.1 q hq ⟨this.1.symm, this.2.symm⟩
        have h := (hone (pair_index q.left q.right)).2
        rw [if_neg hne, Nat.add_zero] at h
        rw [h]
        exact Nat.le_trans (hge q (List.mem_cons_of_mem _ hq)) (Nat.le_add_right _ _))
      (by
        intro j
        have h := (hone j).2
        have := hlt j
        rw [List.map_cons, List.sum_cons] at this
        have hle : (apply_rule polymer new_polymer r).twos.getD j 0 ≤
            new_polymer.twos.getD j 0 + 2 * key_value polymer r := by
          have hb : key_value polymer r *
              ((if j = pair_index r.left r.result then 1 else 0) +
               (if j = pair_index r.result r.right then 1 else 0)) ≤ 2 * key_value polymer r := by
            rw [Nat.mul_comm]
            apply Nat.mul_le_mul_right
            split_ifs <;> omega
          omega
        omega)
    refine ⟨⟨(hone 0).1, hrest.1⟩, fun k => ?_⟩
    have h1 := (hone k).2
    have h2 := hrest.2 k
    simp only [List.foldl_cons, pairs_removed, pairs_added, List.map_cons, List.sum_cons] at h2 ⊢
    omega

end Day14

namespace Day12

/-! ## Walks: the recursive description against the counts of visits -/

theorem cave_big_start : cave_big "start" = false := by decide

theorem cave_big_end : cave_big "end" = false := by decide

theorem visits_cons (seen walk : List String) (k c : String) :
    visits seen (k :: walk) c = visits seen walk c + if k = c then 1 else 0 := by
  unfold visits
  rw [List.count_cons]
  by_cases h : k = c
  · simp [h]
    omega
  · simp [h]

theorem visits_append_seen (seen walk : List String) (k c : String) (hk : k ∉ seen) :
    visits (seen ++ [k]) walk c = visits seen walk c + if k = c then 1 else 0 := by
  unfold visits
  by_cases h : k = c
  · subst h
    simp [hk]
    omega
  · have h' : ¬ c = k := fun e => h e.symm
    simp [h, h']

theorem within_cons_big (seen walk : List String) (sc : Nat) (k : String)
    (hk : cave_big k = true) : within seen sc (k :: walk) ↔ within seen sc walk := by
  have hne : ∀ c, cave_big c = false → ¬ k = c := by
    intro c hc h
    rw [h, hc] at hk
    exact Bool.noConfusion hk
  unfold within
  constructor
  · rintro ⟨h1, h2, h3⟩
    refine ⟨fun c hc => ?_, fun c d hc hd e1 e2 => ?_, ?_⟩
    · have := h1 c hc
      rw [visits_cons, if_neg (hne c hc)] at this
      exact this
    · apply h2 c d hc hd
      · rw [visits_cons, if_neg (hne c hc)]; exact e1
      · rw [visits_cons, if_neg (hne d hd)]; exact e2
    · rw [visits_cons, if_neg (hne _ cave_big_start)] at h3
      exact h3
  · rintro ⟨h1, h2, h3⟩
    refine ⟨fun c hc => ?_, fun c d hc hd e1 e2 => ?_, ?_⟩
    · rw [visits_cons, if_neg (hne c hc)]
      exact h1 c hc
    · rw [visits_cons, if_neg (hne c hc)] at e1
      rw [visits_cons, if_neg (hne d hd)] at e2
      exact h2 c d hc hd e1 e2
    · rw [visits_cons, if_neg (hne _ cave_big_start)]
      exact h3

theorem within_cons_new (seen walk : List String) (sc : Nat) (k : String) (hk : k ∉ seen) :
    within seen sc (k :: walk) ↔ within (seen ++ [k]) sc walk := by
  unfold within
  simp only [visits_cons, visits_append_seen _ _ _ _ hk]

theorem within_cons_seen (seen walk : List String) (sc : Nat) (hsc : sc ≤ 1) (k : String)
    (hb : cave_big k = false) (hk : k ∈ seen) :
    within seen sc (k :: walk) ↔ sc = 1 ∧ k ≠ "start" ∧ within seen (sc - 1) walk := by
  have hvk : ∀ w, visits seen w k = 1 + w.count k := by
    intro w
    unfold visits
    rw [if_pos hk]
  unfold within
  constructor
  · rintro ⟨h1, h2, h3⟩
    have hk1 := h1 k hb
    rw [visits_cons, if_pos rfl, hvk] at hk1
    have hsc1 : sc = 1 := by omega
    have hk2 : visits seen (k :: walk) k = 2 := by
      rw [visits_cons, if_pos rfl, hvk]
      omega
    have hks : k ≠ "start" := by
      intro e
      subst e
      omega
    refine ⟨hsc1, hks, fun c hc => ?_, fun c d hc hd e1 e2 => ?_, ?_⟩
    · by_cases hkc : k = c
      · subst hkc
        rw [hvk]
        omega
      · have hc1 := h1 c hc
        rw [visits_cons, if_neg hkc] at hc1
        by_contra hgt
        have : visits seen (k :: walk) c = 2 := by
          rw [visits_cons, if_neg hkc]
          omega
        exact hkc (h2 k c hb hc hk2 this)
    · by_cases hkc : k = c
      · subst hkc
        rw [hvk] at e1
        omega
      · have : visits seen (k :: walk) c = 2 := by
          rw [visits_cons, if_neg hkc]
          exact e1
        exact absurd (h2 k c hb hc hk2 this) hkc
    · rw [visits_cons, if_neg hks] at h3
      exact h3
  · rintro ⟨hsc1, hks, h1, -, h3⟩
    subst hsc1
    have hk0 := h1 k hb
    rw [hvk] at hk0
    have hle : ∀ c, cave_big c = false → ¬ k = c → visits seen (k :: walk) c ≤ 1 := by
      intro c hc hkc
      rw [visits_cons, if_neg hkc]
      exact h1 c hc
    refine ⟨fun c hc => ?_, fun c d hc hd e1 e2 => ?_, ?_⟩
    · by_cases hkc : k = c
      · subst hkc
        rw [visits_cons, if_pos rfl, hvk]
        omega
      · have := hle c hc hkc
        omega
    · have hc' : k = c := by
        by_contra hkc
        have := hle c hc hkc
        omega
      have hd' : k = d := by
        by_contra hkd
        have := hle d hd hkd
        omega
      rw [← hc', ← hd']
    · rw [visits_cons, if_neg hks]
      exact h3

end Day12

namespace Day12

theorem within_nil (seen : List String) (sc : Nat) : within seen sc [] := by
  have hv : ∀ c, visits seen [] c ≤ 1 := by
    intro c
    unfold visits
    split <;> simp
  refine ⟨fun c _ => ?_, fun c d _ _ e1 _ => ?_, hv _⟩
  · have := hv c
    omega
  · have := hv c
    omega

theorem accepts_iff (edges : List (String × String)) (seen : List String) (sc : Nat)
    (hsc : sc ≤ 1) (p : List String) :
    accepts edges seen sc p ↔
      p.getLast? = some "end" ∧ List.Chain' (adjacent edges) p ∧ "end" ∉ p.dropLast ∧
        within seen sc p.dropLast := by
  induction p generalizing seen sc with
  | nil => simp [accepts]
  | cons k rest ih =>
    cases rest with
    | nil =>
      simp only [accepts, List.getLast?_singleton, Option.some.injEq, List.chain'_singleton,
        List.dropLast_single, List.not_mem_nil, not_false_eq_true, true_and]
      exact ⟨fun h => ⟨h, within_nil _ _⟩, fun h => h.1⟩
    | cons v rest =>
      have hlast : (k :: v :: rest).getLast? = (v :: rest).getLast? := by
        simp [List.getLast?_cons_cons]
      have hdrop : (k :: v :: rest).dropLast = k :: (v :: rest).dropLast := by
        simp [List.dropLast]
      rw [hlast, hdrop, List.chain'_cons, List.mem_cons, not_or]
      unfold accepts
      by_cases hb : cave_big k = true
      · rw [if_pos hb, ih seen sc hsc, within_cons_big _ _ _ _ hb]
        constructor
        · rintro ⟨h1, h2, h3, h4, h5, h6⟩
          exact ⟨h3, ⟨h2, h4⟩, ⟨fun e => h1 e.symm, h5⟩, h6⟩
        · rintro ⟨h3, ⟨h2, h4⟩, ⟨h1, h5⟩, h6⟩
          exact ⟨fun e => h1 e.symm, h2, h3, h4, h5, h6⟩
      · have hb' : cave_big k = false := by
          cases h : cave_big k
          · rfl
          · exact absurd h hb
        rw [if_neg hb]
        by_cases hk : k ∉ seen
        · rw [if_pos hk, ih (seen ++ [k]) sc hsc, within_cons_new _ _ _ _ hk]
          constructor
          · rintro ⟨h1, h2, h3, h4, h5, h6⟩
            exact ⟨h3, ⟨h2, h4⟩, ⟨fun e => h1 e.symm, h5⟩, h6⟩
          · rintro ⟨h3, ⟨h2, h4⟩, ⟨h1, h5⟩, h6⟩
            exact ⟨fun e => h1 e.symm, h2, h3, h4, h5, h6⟩
        · rw [if_neg hk, ih seen (sc - 1) (by omega),
            within_cons_seen _ _ _ hsc _ hb' (not_not.mp hk)]
          constructor
          · rintro ⟨h1, h2, h7, h8, h3, h4, h5, h6⟩
            exact ⟨h3, ⟨h2, h4⟩, ⟨fun e => h1 e.symm, h5⟩, h7, h8, h6⟩
          · rintro ⟨h3, ⟨h2, h4⟩, ⟨h1, h5⟩, h7, h8, h6⟩
            exact ⟨fun e => h1 e.symm, h2, h7, h8, h3, h4, h5, h6⟩

theorem count_of_last {w : List String} (h : w.getLast? = some "end") (c : String) :
    w.count c = w.dropLast.count c + if c = "end" then 1 else 0 := by
  have hw : w.dropLast ++ ["end"] = w := List.dropLast_append_getLast? _ h
  conv_lhs => rw [← hw]
  rw [List.count_append, List.count_singleton]
  by_cases hc : c = "end"
  · simp [hc]
  · have : ¬ "end" = c := fun e => hc e.symm
    simp [hc, this]

theorem start_mem_dropLast {w : List String} (h1 : w.head? = some "start")
    (h2 : w.getLast? = some "end") : "start" ∈ w.dropLast := by
  have hw : w.dropLast ++ ["end"] = w := List.dropLast_append_getLast? _ h2
  cases hq : w.dropLast with
  | nil =>
    rw [hq] at hw
    rw [← hw] at h1
    simp at h1
  | cons a q =>
    rw [hq] at hw
    rw [← hw] at h1
    simp at h1
    rw [h1]
    exact List.mem_cons_self _ _

theorem is_walk0_iff (edges : List (String × String)) (w : List String) :
    is_walk0 edges w ↔ w.head? = some "start" ∧ accepts edges [] 0 w := by
  rw [accepts_iff edges [] 0 (Nat.zero_le _)]
  unfold is_walk0 within
  have hv : ∀ q c, visits [] q c = q.count c := by
    intro q c
    simp [visits]
  simp only [hv]
  constructor
  · rintro ⟨h1, h2, h3, h4, h5⟩
    have hcnt := count_of_last h2
    have hend : "end" ∉ w.dropLast := by
      have := hcnt "end"
      rw [h4, if_pos rfl] at this
      exact List.count_eq_zero.mp (by omega)
    have hle : ∀ c, cave_big c = false → w.dropLast.count c ≤ 1 := by
      intro c hc
      by_cases hm : c ∈ w.dropLast
      · have := h5 c (List.mem_of_mem_dropLast hm) hc
        have := hcnt c
        omega
      · rw [List.count_eq_zero.mpr hm]
        omega
    refine ⟨h1, h2, h3, hend, fun c hc => ?_, fun c d hc hd e1 e2 => ?_, hle _ cave_big_start⟩
    · have := hle c hc
      omega
    · have := hle c hc
      omega
  · rintro ⟨h1, h2, h3, hend, h5, -, -⟩
    have hcnt := count_of_last h2
    refine ⟨h1, h2, h3, ?_, fun c _ hc => ?_⟩
    · rw [hcnt "end", if_pos rfl, List.count_eq_zero.mpr hend]
    · have := h5 c hc
      rw [hcnt c]
      by_cases he : c = "end"
      · rw [he, List.count_eq_zero.mpr hend, if_pos rfl]
      · rw [if_neg he]
        omega

theorem is_walk1_iff (edges : List (String × String)) (w : List String) :
    is_walk1 edges w ↔ w.head? = some "start" ∧ accepts edges [] 1 w := by
  rw [accepts_iff edges [] 1 (Nat.le_refl _)]
  unfold is_walk1 within
  have hv : ∀ q c, visits [] q c = q.count c := by
    intro q c
    simp [visits]
  simp only [hv]
  constructor
  · rintro ⟨h1, h2, h3, h4, h5, h6, h7⟩
    have hcnt := count_of_last h2
    have hend : "end" ∉ w.dropLast := by
      have := hcnt "end"
      rw [h4, if_pos rfl] at this
      exact List.count_eq_zero.mp (by omega)
    have hne : ∀ c, c ∈ w.dropLast → c ≠ "end" := fun c hc e => hend (e ▸ hc)
    have heq : ∀ c, c ∈ w.dropLast → w.count c = w.dropLast.count c := by
      intro c hc
      rw [hcnt c, if_neg (hne c hc)]
      rfl
    refine ⟨h1, h2, h3, hend, fun c hc => ?_, fun c d hc hd e1 e2 => ?_, ?_⟩
    · by_cases hm : c ∈ w.dropLast
      · rw [← heq c hm]
        have := h6 c (List.mem_of_mem_dropLast hm) hc
        omega
      · rw [List.count_eq_zero.mpr hm]
        omega
    · have hcm : c ∈ w.dropLast := List.count_pos_iff.mp (by omega)
      have hdm : d ∈ w.dropLast := List.count_pos_iff.mp (by omega)
      exact h7 c (List.mem_of_mem_dropLast hcm) d (List.mem_of_mem_dropLast hdm) hc hd
        (by rw [heq c hcm]; exact e1) (by rw [heq d hdm]; exact e2)
    · rw [← heq _ (start_mem_dropLast h1 h2), h5]
  · rintro ⟨h1, h2, h3, hend, h5, h6, h7⟩
    have hcnt := count_of_last h2
    have h0 : w.dropLast.count "end" = 0 := List.count_eq_zero.mpr hend
    have hsm := start_mem_dropLast h1 h2
    have hs1 : 0 < w.dropLast.count "start" := List.count_pos_iff.mpr hsm
    refine ⟨h1, h2, h3, ?_, ?_, fun c _ hc => ?_, fun c _ d _ hc hd e1 e2 => ?_⟩
    · rw [hcnt "end", if_pos rfl, h0]
    · rw [hcnt "start", if_neg (by decide)]
      omega
    · have := h5 c hc
      rw [hcnt c]
      by_cases he : c = "end"
      · rw [he, h0, if_pos rfl]
        omega
      · rw [if_neg he]
        omega
    · have hce : c ≠ "end" := by
        intro e
        rw [e, hcnt "end", if_pos rfl, h0] at e1
        omega
      have hde : d ≠ "end" := by
        intro e
        rw [e, hcnt "end", if_pos rfl, h0] at e2
        omega
      rw [hcnt c, if_neg hce] at e1
      rw [hcnt d, if_neg hde] at e2
      exact h6 c d hc hd e1 e2

end Day12

namespace Day12

/-! ## Cave codes of the names of the claim -/

theorem char_value_lower {c : Char} (h : is_lower_char c) : char_value c = c.toNat - 93 := by
  obtain ⟨h1, h2⟩ := h
  unfold char_value int_to_size SIZE_MOD
  rw [if_pos ⟨h1, h2⟩]
  omega

theorem char_value_upper {c : Char} (h : is_upper_char c) : char_value c = c.toNat - 35 := by
  obtain ⟨h1, h2⟩ := h
  unfold char_value int_to_size SIZE_MOD
  rw [if_neg (by omega)]
  omega

theorem value_char_lower {c : Char} (h : is_lower_char c) : value_char (char_value c) = c := by
  obtain ⟨h1, h2⟩ := h
  rw [char_value_lower ⟨h1, h2⟩]
  unfold value_char
  rw [if_pos (by omega)]
  have : c.toNat - 93 + 93 = c.toNat := by omega
  rw [this, Char.ofNat_toNat]

theorem value_char_upper {c : Char} (h : is_upper_char c) : value_char (char_value c) = c := by
  obtain ⟨h1, h2⟩ := h
  rw [char_value_upper ⟨h1, h2⟩]
  unfold value_char
  rw [if_neg (by omega)]
  have : c.toNat - 35 + 35 = c.toNat := by omega
  rw [this, Char.ofNat_toNat]

theorem letter_not_stop {c : Char} (h : is_lower_char c ∨ is_upper_char c) :
    ¬ (c.toNat = 0 ∨ c = '-') := by
  rintro (h0 | h0)
  · rcases h with ⟨h1, _⟩ | ⟨h1, _⟩ <;> omega
  · subst h0
    rcases h with ⟨h1, _⟩ | ⟨h1, _⟩
    · exact absurd h1 (by decide)
    · exact absurd h1 (by decide)

theorem loop_letters (l stop : List Char) (size code : Nat)
    (hl : ∀ c ∈ l, is_lower_char c ∨ is_upper_char c)
    (hstop : stop = [] ∨ ∃ rest, stop = '-' :: rest) :
    str_to_cave_code_loop (l ++ stop) size code =
      (size + l.length, l.foldl code_step code, stop) := by
  induction l generalizing size code with
  | nil =>
    rcases hstop with h | ⟨rest, h⟩
    · subst h
      rfl
    · subst h
      simp [str_to_cave_code_loop]
  | cons c l ih =>
    have hc := hl c (List.mem_cons_self _ _)
    have hne := letter_not_stop hc
    rw [List.cons_append, str_to_cave_code_loop, if_neg hne,
      ih _ _ (fun d hd => hl d (List.mem_cons_of_mem _ hd))]
    simp only [List.length_cons, List.foldl_cons, code_step]
    congr 1
    omega

theorem str_to_cave_code_letters (l stop : List Char)
    (hl : ∀ c ∈ l, is_lower_char c ∨ is_upper_char c)
    (hstop : stop = [] ∨ ∃ rest, stop = '-' :: rest) :
    str_to_cave_code (l ++ stop) = ((str_to_cave_code l).1, stop) := by
  have h1 := loop_letters l stop 0 0 hl hstop
  have h2 := loop_letters l [] 0 0 hl (Or.inl rfl)
  rw [List.append_nil] at h2
  unfold str_to_cave_code
  rw [h1, h2]

theorem valid_name_letters {s : String} (h : valid_name s) :
    ∀ c ∈ s.data, is_lower_char c ∨ is_upper_char c := by
  rcases h with h | h | ⟨-, h | h⟩
  · subst h
    decide
  · subst h
    decide
  · exact fun c hc => Or.inl (h c hc)
  · exact fun c hc => Or.inr (h c hc)

/-- The shape of a name of the claim, with its code and its size class. -/
theorem valid_name_cases {s : String} (h : valid_name s) :
    (s = "start" ∧ cave_code s = 1) ∨ (s = "end" ∧ cave_code s = 2) ∨
    (∃ c, s.data = [c] ∧ is_lower_char c ∧ cave_code s = (c.toNat - 93) * 56 + 3) ∨
    (∃ c, s.data = [c] ∧ is_upper_char c ∧ cave_code s = (c.toNat - 35) * 56 + 3) ∨
    (∃ c d, s.data = [c, d] ∧ is_lower_char c ∧ is_lower_char d ∧
      cave_code s = (c.toNat - 93) * 56 + (d.toNat - 93)) ∨
    (∃ c d, s.data = [c, d] ∧ is_upper_char c ∧ is_upper_char d ∧
      cave_code s = (c.toNat - 35) * 56 + (d.toNat - 35)) := by
  rcases h with h | h | ⟨hlen, hcase⟩
  · subst h
    exact Or.inl ⟨rfl, by decide⟩
  · subst h
    exact Or.inr (Or.inl ⟨rfl, by decide⟩)
  · have hcode : ∀ l : List Char, s.data = l → cave_code s = (str_to_cave_code l).1 := by
      intro l hl
      unfold cave_code
      rw [hl]
    rcases hlen with hlen | hlen
    · obtain ⟨c, hc⟩ := List.length_eq_one.mp hlen
      rcases hcase with hcase | hcase
      · have hcl := hcase c (by rw [hc]; exact List.mem_cons_self _ _)
        refine Or.inr (Or.inr (Or.inl ⟨c, hc, hcl, ?_⟩))
        rw [hcode _ hc]
        have hne := letter_not_stop (Or.inl hcl)
        have := hcl.2
        simp only [str_to_cave_code, str_to_cave_code_loop, if_neg hne, char_value_lower hcl]
        simp [add64, mul64, SIZE_MOD, ALPHABET]
        omega
      · have hcl := hcase c (by rw [hc]; exact List.mem_cons_self _ _)
        refine Or.inr (Or.inr (Or.inr (Or.inl ⟨c, hc, hcl, ?_⟩)))
        rw [hcode _ hc]
        have hne := letter_not_stop (Or.inr hcl)
        have := hcl.2
        simp only [str_to_cave_code, str_to_cave_code_loop, if_neg hne, char_value_upper hcl]
        simp [add64, mul64, SIZE_MOD, ALPHABET]
        omega
    · obtain ⟨c, d, hcd⟩ := List.length_eq_two.mp hlen
      rcases hcase with hcase | hcase
      · have hcl := hcase c (by rw [hcd]; simp)
        have hdl := hcase d (by rw [hcd]; simp)
        refine Or.inr (Or.inr (Or.inr (Or.inr (Or.inl ⟨c, d, hcd, hcl, hdl, ?_⟩))))
        rw [hcode _ hcd]
        have hnc := letter_not_stop (Or.inl hcl)
        have hnd := letter_not_stop (Or.inl hdl)
        have := hcl.2
        have := hdl.2
        simp only [str_to_cave_code, str_to_cave_code_loop, if_neg hnc, if_neg hnd,
          char_value_lower hcl, char_value_lower hdl]
        simp [add64, mul64, SIZE_MOD, ALPHABET]
        omega
      · have hcl := hcase c (by rw [hcd]; simp)
        have hdl := hcase d (by rw [hcd]; simp)
        refine Or.inr (Or.inr (Or.inr (Or.inr (Or.inr ⟨c, d, hcd, hcl, hdl, ?_⟩))))
        rw [hcode _ hcd]
        have hnc := letter_not_stop (Or.inr hcl)
        have hnd := letter_not_stop (Or.inr hdl)
        have := hcl.2
        have := hdl.2
        simp only [str_to_cave_code, str_to_cave_code_loop, if_neg hnc, if_neg hnd,
          char_value_upper hcl, char_value_upper hdl]
        simp [add64, mul64, SIZE_MOD, ALPHABET]
        omega

end Day12

namespace Day12

theorem is_big_eq (k : Nat) : is_big k = decide (1683 ≤ k) := by
  have h : (str_to_cave_code ['A']).1 = 1683 := by decide
  unfold is_big
  rw [h]

theorem value_char_of_lower {c : Char} (h : is_lower_char c) : value_char (c.toNat - 93) = c := by
  rw [← char_value_lower h]
  exact value_char_lower h

theorem value_char_of_upper {c : Char} (h : is_upper_char c) : value_char (c.toNat - 35) = c := by
  rw [← char_value_upper h]
  exact value_char_upper h

theorem code_name_cave_code {s : String} (h : valid_name s) : code_name (cave_code s) = s.data := by
  rcases valid_name_cases h with ⟨hs, hc⟩ | ⟨hs, hc⟩ | ⟨c, hd, hl, hc⟩ | ⟨c, hd, hl, hc⟩ |
    ⟨c, d, hd, hl, hl2, hc⟩ | ⟨c, d, hd, hl, hl2, hc⟩
  · rw [hc, hs]
    rfl
  · rw [hc, hs]
    rfl
  · obtain ⟨h1, h2⟩ := hl
    have e1 : ((c.toNat - 93) * 56 + 3) % 56 = 3 := by omega
    have e2 : ((c.toNat - 93) * 56 + 3) / 56 = c.toNat - 93 := by omega
    rw [hc, hd]
    unfold code_name START_CODE END_CODE ALPHABET
    rw [if_neg (by omega), if_neg (by omega), if_pos e1, e2, value_char_of_lower ⟨h1, h2⟩]
  · obtain ⟨h1, h2⟩ := hl
    have e1 : ((c.toNat - 35) * 56 + 3) % 56 = 3 := by omega
    have e2 : ((c.toNat - 35) * 56 + 3) / 56 = c.toNat - 35 := by omega
    rw [hc, hd]
    unfold code_name START_CODE END_CODE ALPHABET
    rw [if_neg (by omega), if_neg (by omega), if_pos e1, e2, value_char_of_upper ⟨h1, h2⟩]
  · obtain ⟨h1, h2⟩ := hl
    obtain ⟨h3, h4⟩ := hl2
    have e1 : ((c.toNat - 93) * 56 + (d.toNat - 93)) % 56 = d.toNat - 93 := by omega
    have e2 : ((c.toNat - 93) * 56 + (d.toNat - 93)) / 56 = c.toNat - 93 := by omega
    rw [hc, hd]
    unfold code_name START_CODE END_CODE ALPHABET
    rw [if_neg (by omega), if_neg (by omega), if_neg (by omega), e1, e2,
      value_char_of_lower ⟨h1, h2⟩, value_char_of_lower ⟨h3, h4⟩]
  · obtain ⟨h1, h2⟩ := hl
    obtain ⟨h3, h4⟩ := hl2
    have e1 : ((c.toNat - 35) * 56 + (d.toNat - 35)) % 56 = d.toNat - 35 := by omega
    have e2 : ((c.toNat - 35) * 56 + (d.toNat - 35)) / 56 = c.toNat - 35 := by omega
    rw [hc, hd]
    unfold code_name START_CODE END_CODE ALPHABET
    rw [if_neg (by omega), if_neg (by omega), if_neg (by omega), e1, e2,
      value_char_of_upper ⟨h1, h2⟩, value_char_of_upper ⟨h3, h4⟩]

theorem cave_code_inj {s t : String} (hs : valid_name s) (ht : valid_name t)
    (h : cave_code s = cave_code t) : s = t := by
  have h1 := code_name_cave_code hs
  have h2 := code_name_cave_code ht
  rw [h] at h1
  have hd : s.data = t.data := h1.symm.trans h2
  cases s
  cases t
  simp only at hd
  rw [hd]

theorem cave_code_facts {s : String} (h : valid_name s) :
    cave_code s ≠ 0 ∧ is_big (cave_code s) = cave_big s ∧
    (cave_code s = END_CODE ↔ s = "end") ∧ (cave_code s = START_CODE ↔ s = "start") := by
  have hbig1 : ∀ c, s.data = [c] → cave_big s = decide (is_upper_char c) := by
    intro c hd
    unfold cave_big
    rw [hd]
    simp
  have hbig2 : ∀ c d, s.data = [c, d] →
      cave_big s = (decide (is_upper_char c) && decide (is_upper_char d)) := by
    intro c d hd
    unfold cave_big
    rw [hd]
    simp
  have hne1 : ∀ c, s.data = [c] → s ≠ "end" ∧ s ≠ "start" := by
    intro c hd
    have hlen : s.data.length = 1 := by rw [hd]; rfl
    constructor <;>
    · intro e
      rw [e] at hlen
      exact absurd hlen (by decide)
  have hne2 : ∀ c d, s.data = [c, d] → s ≠ "end" ∧ s ≠ "start" := by
    intro c d hd
    have hlen : s.data.length = 2 := by rw [hd]; rfl
    constructor <;>
    · intro e
      rw [e] at hlen
      exact absurd hlen (by decide)
  unfold END_CODE START_CODE
  rw [is_big_eq]
  rcases valid_name_cases h with ⟨hs, hc⟩ | ⟨hs, hc⟩ | ⟨c, hd, hl, hc⟩ | ⟨c, hd, hl, hc⟩ |
    ⟨c, d, hd, hl, hl2, hc⟩ | ⟨c, d, hd, hl, hl2, hc⟩
  · rw [hc, hs]
    decide
  · rw [hc, hs]
    decide
  · obtain ⟨h1, h2⟩ := hl
    have hnu : ¬ is_upper_char c := fun hu => by have := hu.2; omega
    rw [hc, hbig1 c hd]
    refine ⟨by omega, ?_, ?_, ?_⟩
    · rw [decide_eq_false hnu, decide_eq_false (by omega)]
    · exact ⟨fun e => by omega, fun e => absurd e (hne1 c hd).1⟩
    · exact ⟨fun e => by omega, fun e => absurd e (hne1 c hd).2⟩
  · obtain ⟨h1, h2⟩ := hl
    rw [hc, hbig1 c hd]
    refine ⟨by omega, ?_, ?_, ?_⟩
    · rw [decide_eq_true (show is_upper_char c from ⟨h1, h2⟩), decide_eq_true (by omega)]
    · exact ⟨fun e => by omega, fun e => absurd e (hne1 c hd).1⟩
    · exact ⟨fun e => by omega, fun e => absurd e (hne1 c hd).2⟩
  · obtain ⟨h1, h2⟩ := hl
    obtain ⟨h3, h4⟩ := hl2
    have hnu : ¬ is_upper_char c := fun hu => by have := hu.2; omega
    rw [hc, hbig2 c d hd]
    refine ⟨by omega, ?_, ?_, ?_⟩
    · rw [decide_eq_false hnu, decide_eq_false (by omega)]
      rfl
    · exact ⟨fun e => by omega, fun e => absurd e (hne2 c d hd).1⟩
    · exact ⟨fun e => by omega, fun e => absurd e (hne2 c d hd).2⟩
  · obtain ⟨h1, h2⟩ := hl
    obtain ⟨h3, h4⟩ := hl2
    rw [hc, hbig2 c d hd]
    refine ⟨by omega, ?_, ?_, ?_⟩
    · rw [decide_eq_true (show is_upper_char c from ⟨h1, h2⟩),
        decide_eq_true (show is_upper_char d from ⟨h3, h4⟩), decide_eq_true (by omega)]
      rfl
    · exact ⟨fun e => by omega, fun e => absurd e (hne2 c d hd).1⟩
    · exact ⟨fun e => by omega, fun e => absurd e (hne2 c d hd).2⟩

end Day12

namespace Day12

/-! ## Rows of the cave map and the queue -/

theorem row_insert_append (vals : List Nat) (n value : Nat) (hv : ∀ x ∈ vals, x ≠ 0)
    (hn : vals.length < n) :
    row_insert (vals ++ List.replicate (n - vals.length) 0) value =
      (vals ++ [value]) ++ List.replicate (n - (vals.length + 1)) 0 := by
  induction vals generalizing n with
  | nil =>
    obtain ⟨m, rfl⟩ : ∃ m, n = m + 1 := ⟨n - 1, by simp at hn; omega⟩
    simp [List.replicate_succ, row_insert]
  | cons x vals ih =>
    have hx : x ≠ 0 := hv x (List.mem_cons_self _ _)
    simp only [List.length_cons] at hn
    have e1 : n - (x :: vals).length = (n - 1) - vals.length := by
      simp only [List.length_cons]; omega
    have e2 : n - ((x :: vals).length + 1) = (n - 1) - (vals.length + 1) := by
      simp only [List.length_cons]; omega
    rw [e1, e2, List.cons_append, row_insert, if_neg hx,
      ih (n - 1) (fun y hy => hv y (List.mem_cons_of_mem _ hy)) (by omega)]
    rfl

theorem row_insert_pad (vals : List Nat) (value : Nat) (hv : ∀ x ∈ vals, x ≠ 0)
    (hn : vals.length < ALPHABET * ALPHABET) :
    row_insert (pad vals) value = pad (vals ++ [value]) := by
  unfold pad
  rw [row_insert_append vals _ value hv hn, List.length_append]
  rfl

theorem traverse_loop_append_zeros (f : Nat → Option Nat) (vals : List Nat) (m sum : Nat)
    (hv : ∀ x ∈ vals, x ≠ 0) :
    traverse_loop f (vals ++ List.replicate m 0) sum = traverse_loop f vals sum := by
  induction vals generalizing sum with
  | nil =>
    cases m with
    | zero => rfl
    | succ m => simp [List.replicate_succ, traverse_loop]
  | cons x vals ih =>
    have hx : x ≠ 0 := hv x (List.mem_cons_self _ _)
    rw [List.cons_append, traverse_loop, traverse_loop, if_neg hx, if_neg hx]
    cases f x with
    | none => rfl
    | some n => exact ih _ (fun y hy => hv y (List.mem_cons_of_mem _ hy))

theorem traverse_loop_pad (f : Nat → Option Nat) (vals : List Nat) (sum : Nat)
    (hv : ∀ x ∈ vals, x ≠ 0) : traverse_loop f (pad vals) sum = traverse_loop f vals sum :=
  traverse_loop_append_zeros f vals _ sum hv

/-- The loop adds up what the calls return, modulo `2 ^ 64`. -/
theorem traverse_loop_sum (f : Nat → Option Nat) (g : String → Nat) (vs : List String)
    (sum : Nat) (hsum : sum < SIZE_MOD)
    (hf : ∀ v ∈ vs, cave_code v ≠ 0 ∧ f (cave_code v) = some (g v % SIZE_MOD)) :
    traverse_loop f (vs.map cave_code) sum = some ((sum + (vs.map g).sum) % SIZE_MOD) := by
  induction vs generalizing sum with
  | nil =>
    simp only [List.map_nil, List.sum_nil, Nat.add_zero, traverse_loop]
    rw [Nat.mod_eq_of_lt hsum]
  | cons v vs ih =>
    obtain ⟨h0, hfv⟩ := hf v (List.mem_cons_self _ _)
    rw [List.map_cons, traverse_loop, if_neg h0, hfv]
    simp only
    rw [ih _ (add64_lt _ _) (fun u hu => hf u (List.mem_cons_of_mem _ hu)), List.map_cons,
      List.sum_cons]
    congr 1
    unfold add64 SIZE_MOD
    omega

theorem queue_zero_holds : queue_holds queue_zero [] := by
  refine ⟨?_, rfl, rfl⟩
  show (List.replicate 100 0).length = 100
  rw [List.length_replicate]

theorem queue_contains_iff {queue : queue_t} {codes : List Nat} (h : queue_holds queue codes)
    (value : Nat) : queue.contains value = true ↔ value ∈ codes := by
  obtain ⟨-, -, h3⟩ := h
  unfold queue_t.contains
  rw [h3, List.any_eq_true]
  constructor
  · rintro ⟨x, hx, he⟩
    rw [decide_eq_true_eq] at he
    rw [← he]
    exact hx
  · intro hv
    exact ⟨value, hv, decide_eq_true rfl⟩

theorem take_set_succ (l : List Nat) (n v : Nat) (hn : n < l.length) :
    (l.set n v).take (n + 1) = l.take n ++ [v] := by
  induction l generalizing n with
  | nil => simp at hn
  | cons x xs ih =>
    cases n with
    | zero => simp
    | succ n =>
      simp only [List.length_cons] at hn
      simp only [List.set_cons_succ, List.take_succ_cons, List.cons_append]
      rw [ih n (by omega)]

theorem queue_push_holds {queue : queue_t} {codes : List Nat} (h : queue_holds queue codes)
    (value : Nat) (hlen : codes.length < 100) :
    queue_holds (queue.push_back value) (codes ++ [value]) := by
  obtain ⟨h1, h2, h3⟩ := h
  unfold queue_t.push_back
  refine ⟨?_, ?_, ?_⟩
  · simp only [List.length_set]
    exact h1
  · simp only [List.length_append, List.length_singleton]
    omega
  · simp only
    rw [take_set_succ _ _ _ (by omega), h3]

end Day12

namespace Day12

/-! ## The cave map built by `parse_cave_map` -/

theorem cave_code_lt {s : String} (h : valid_name s) : cave_code s < ALPHABET * ALPHABET := by
  unfold ALPHABET
  rcases valid_name_cases h with ⟨-, hc⟩ | ⟨-, hc⟩ | ⟨c, -, hl, hc⟩ | ⟨c, -, hl, hc⟩ |
    ⟨c, d, -, hl, hl2, hc⟩ | ⟨c, d, -, hl, hl2, hc⟩
  · omega
  · omega
  · obtain ⟨h1, h2⟩ := hl
    omega
  · obtain ⟨h1, h2⟩ := hl
    omega
  · obtain ⟨h1, h2⟩ := hl
    obtain ⟨h3, h4⟩ := hl2
    omega
  · obtain ⟨h1, h2⟩ := hl
    obtain ⟨h3, h4⟩ := hl2
    omega

theorem edge_line_data (e : String × String) :
    (edge_line e).data = e.1.data ++ ('-' :: e.2.data) := by
  unfold edge_line
  rw [String.data_append, String.data_append]
  show (e.1.data ++ ['-']) ++ e.2.data = _
  rw [List.append_assoc]
  rfl

theorem parse_line_edge (map : cave_map_t) (e : String × String)
    (h1 : valid_name e.1) :
    parse_line map (edge_line e) =
      (map.insert (cave_code e.1) (cave_code e.2)).insert (cave_code e.2) (cave_code e.1) := by
  have hs := str_to_cave_code_letters e.1.data ('-' :: e.2.data) (valid_name_letters h1)
    (Or.inr ⟨_, rfl⟩)
  unfold parse_line
  simp only [edge_line_data, hs, List.drop_succ_cons, List.drop_zero]
  rfl

theorem insert_array (map : cave_map_t) (key value k : Nat) :
    (map.insert key value).array k =
      if k = key then row_insert (map.array key) value else map.array k := rfl

theorem code_neighbours_append (xs ys : List (String × String)) (k : Nat) :
    code_neighbours (xs ++ ys) k = code_neighbours xs k ++ code_neighbours ys k := by
  unfold code_neighbours
  rw [List.flatMap_append]

theorem code_neighbours_single (e : String × String) (k : Nat) :
    code_neighbours [e] k =
      (if cave_code e.1 = k then [cave_code e.2] else []) ++
      (if cave_code e.2 = k then [cave_code e.1] else []) := by
  unfold code_neighbours
  rw [List.flatMap_singleton]

theorem parse_line_rows (map : cave_map_t) (done : List (String × String))
    (e : String × String) (h1 : valid_name e.1)
    (hm : ∀ k, map.array k = pad (code_neighbours done k))
    (hnz : ∀ k, ∀ x ∈ code_neighbours (done ++ [e]) k, x ≠ 0)
    (hcap : ∀ k, (code_neighbours (done ++ [e]) k).length ≤ ALPHABET * ALPHABET) (k : Nat) :
    (parse_line map (edge_line e)).array k = pad (code_neighbours (done ++ [e]) k) := by
  have hnz0 : ∀ j, ∀ x ∈ code_neighbours done j, x ≠ 0 := by
    intro j x hx
    apply hnz j x
    rw [code_neighbours_append]
    exact List.mem_append_left _ hx
  rw [parse_line_edge map e h1]
  simp only [insert_array]
  have hcapk := hcap k
  have hnzk := hnz k
  rw [code_neighbours_append, code_neighbours_single] at hcapk hnzk ⊢
  by_cases hk2 : k = cave_code e.2
  · have hk2' : cave_code e.2 = k := hk2.symm
    by_cases hk1 : k = cave_code e.1
    · have hk1' : cave_code e.1 = k := hk1.symm
      have h12 : cave_code e.2 = cave_code e.1 := hk2'.trans hk1
      rw [if_pos hk1', if_pos hk2'] at hcapk hnzk ⊢
      simp only [List.length_append, List.length_singleton] at hcapk
      rw [if_pos hk2, if_pos h12, ← hk1, hm k,
        row_insert_pad _ _ (hnz0 k) (by omega),
        row_insert_pad _ _ (fun x hx => hnzk x (by
          rcases List.mem_append.mp hx with h | h
          · exact List.mem_append_left _ h
          · exact List.mem_append_right _ (List.mem_append_left _ h)))
          (by simp only [List.length_append, List.length_singleton]; omega)]
      rw [List.append_assoc]
    · have hk1' : ¬ cave_code e.1 = k := fun h => hk1 h.symm
      have h21 : ¬ cave_code e.2 = cave_code e.1 := fun h => hk1 (hk2.trans h)
      rw [if_neg hk1', if_pos hk2'] at hcapk hnzk ⊢
      simp only [List.nil_append, List.length_append, List.length_singleton] at hcapk ⊢
      rw [if_pos hk2, if_neg h21, ← hk2, hm k, row_insert_pad _ _ (hnz0 k) (by omega)]
  · have hk2' : ¬ cave_code e.2 = k := fun h => hk2 h.symm
    rw [if_neg hk2]
    by_cases hk1 : k = cave_code e.1
    · have hk1' : cave_code e.1 = k := hk1.symm
      rw [if_pos hk1', if_neg hk2'] at hcapk hnzk ⊢
      simp only [List.append_nil, List.length_append, List.length_singleton] at hcapk ⊢
      rw [if_pos hk1, ← hk1, hm k, row_insert_pad _ _ (hnz0 k) (by omega)]
    · have hk1' : ¬ cave_code e.1 = k := fun h => hk1 h.symm
      rw [if_neg hk1', if_neg hk2']
      simp only [List.append_nil]
      rw [if_neg hk1, hm k]

theorem foldl_parse_line_rows (rest done : List (String × String)) (map : cave_map_t)
    (hv : ∀ e ∈ rest, valid_name e.1)
    (hm : ∀ k, map.array k = pad (code_neighbours done k))
    (hnz : ∀ k, ∀ x ∈ code_neighbours (done ++ rest) k, x ≠ 0)
    (hcap : ∀ k, (code_neighbours (done ++ rest) k).length ≤ ALPHABET * ALPHABET) (k : Nat) :
    (rest.foldl (fun m e => parse_line m (edge_line e)) map).array k =
      pad (code_neighbours (done ++ rest) k) := by
  induction rest generalizing done map with
  | nil =>
    rw [List.append_nil]
    exact hm k
  | cons e rest ih =>
    have happ : done ++ e :: rest = (done ++ [e]) ++ rest := by
      rw [List.append_assoc]
      rfl
    rw [happ] at hnz hcap ⊢
    rw [List.foldl_cons]
    apply ih (done ++ [e]) _ (fun f hf => hv f (List.mem_cons_of_mem _ hf)) _ hnz hcap
    intro j
    apply parse_line_rows map done e (hv e (List.mem_cons_self _ _)) hm
    · intro i x hx
      apply hnz i x
      rw [code_neighbours_append]
      exact List.mem_append_left _ hx
    · intro i
      have := hcap i
      rw [code_neighbours_append, List.length_append] at this
      omega

theorem cave_map_zero_rows (k : Nat) : cave_map_zero.array k = pad (code_neighbours [] k) := by
  unfold code_neighbours pad
  rw [List.flatMap_nil]
  rfl

end Day12

namespace Day12

/-! ## Neighbours -/

theorem mem_edge_part (e : String × String) (k v : String) :
    v ∈ (if e.1 = k then [e.2] else []) ++ (if e.2 = k then [e.1] else []) ↔
      e = (k, v) ∨ e = (v, k) := by
  obtain ⟨a, b⟩ := e
  simp only [List.mem_append, Prod.mk.injEq]
  constructor
  · rintro (h | h)
    · by_cases ha : a = k
      · rw [if_pos ha] at h
        exact Or.inl ⟨ha, (List.mem_singleton.mp h).symm⟩
      · rw [if_neg ha] at h
        exact absurd h (List.not_mem_nil _)
    · by_cases hb : b = k
      · rw [if_pos hb] at h
        exact Or.inr ⟨(List.mem_singleton.mp h).symm, hb⟩
      · rw [if_neg hb] at h
        exact absurd h (List.not_mem_nil _)
  · rintro (⟨ha, hb⟩ | ⟨ha, hb⟩)
    · left
      rw [if_pos ha, hb]
      exact List.mem_singleton_self _
    · right
      rw [if_pos hb, ha]
      exact List.mem_singleton_self _

theorem mem_neighbours (edges : List (String × String)) (k v : String) :
    v ∈ neighbours edges k ↔ adjacent edges k v := by
  unfold neighbours adjacent
  rw [List.mem_flatMap]
  constructor
  · rintro ⟨e, he, hv⟩
    rcases (mem_edge_part e k v).mp hv with h | h
    · exact Or.inl (h ▸ he)
    · exact Or.inr (h ▸ he)
  · rintro (h | h)
    · exact ⟨(k, v), h, (mem_edge_part _ k v).mpr (Or.inl rfl)⟩
    · exact ⟨(v, k), h, (mem_edge_part _ k v).mpr (Or.inr rfl)⟩

theorem neighbours_cons (e : String × String) (es : List (String × String)) (k : String) :
    neighbours (e :: es) k =
      ((if e.1 = k then [e.2] else []) ++ (if e.2 = k then [e.1] else [])) ++ neighbours es k := by
  unfold neighbours
  rw [List.flatMap_cons]

theorem neighbours_nodup (edges : List (String × String)) (hd : no_duplicate_edges edges)
    (hl : ∀ e ∈ edges, e.1 ≠ e.2) (k : String) : (neighbours edges k).Nodup := by
  induction edges with
  | nil => simp [neighbours]
  | cons e es ih =>
    obtain ⟨hd1, hd2⟩ := List.pairwise_cons.mp hd
    have hne : e.1 ≠ e.2 := hl e (List.mem_cons_self _ _)
    have ih' := ih hd2 (fun f hf => hl f (List.mem_cons_of_mem _ hf))
    rw [neighbours_cons, List.nodup_append]
    refine ⟨?_, ih', ?_⟩
    · by_cases h1 : e.1 = k
      · have h2 : ¬ e.2 = k := fun h => hne (h1.trans h.symm)
        rw [if_pos h1, if_neg h2]
        simp
      · rw [if_neg h1]
        by_cases h2 : e.2 = k
        · rw [if_pos h2]
          simp
        · rw [if_neg h2]
          simp
    · intro v hv hvn
      obtain ⟨f, hf, hfv⟩ := List.mem_flatMap.mp hvn
      have hef := hd1 f hf
      rcases (mem_edge_part e k v).mp hv with h | h <;>
        rcases (mem_edge_part f k v).mp hfv with h' | h'
      · exact hef (Or.inl (h.trans h'.symm))
      · exact hef (Or.inr (by rw [h, h']))
      · exact hef (Or.inr (by rw [h, h']))
      · exact hef (Or.inl (h.trans h'.symm))

theorem code_neighbours_eq (edges : List (String × String))
    (hv : ∀ e ∈ edges, valid_name e.1 ∧ valid_name e.2) (k : String) (hk : valid_name k) :
    code_neighbours edges (cave_code k) = (neighbours edges k).map cave_code := by
  induction edges with
  | nil => rfl
  | cons e es ih =>
    obtain ⟨h1, h2⟩ := hv e (List.mem_cons_self _ _)
    have e1 : (cave_code e.1 = cave_code k) = (e.1 = k) :=
      propext ⟨cave_code_inj h1 hk, fun h => by rw [h]⟩
    have e2 : (cave_code e.2 = cave_code k) = (e.2 = k) :=
      propext ⟨cave_code_inj h2 hk, fun h => by rw [h]⟩
    have hcons : code_neighbours (e :: es) (cave_code k) =
        ((if cave_code e.1 = cave_code k then [cave_code e.2] else []) ++
          (if cave_code e.2 = cave_code k then [cave_code e.1] else [])) ++
          code_neighbours es (cave_code k) := by
      unfold code_neighbours
      rw [List.flatMap_cons]
    rw [hcons, neighbours_cons, ih (fun f hf => hv f (List.mem_cons_of_mem _ hf)),
      List.map_append, List.map_append]
    simp only [e1, e2]
    congr 2
    · split <;> rfl
    · split <;> rfl

theorem code_neighbours_cases (edges : List (String × String))
    (hv : ∀ e ∈ edges, valid_name e.1 ∧ valid_name e.2) (k : Nat) :
    code_neighbours edges k = [] ∨
      ∃ s, valid_name s ∧ code_neighbours edges k = (neighbours edges s).map cave_code := by
  by_cases h : ∃ e ∈ edges, cave_code e.1 = k ∨ cave_code e.2 = k
  · obtain ⟨e, he, h12⟩ := h
    obtain ⟨h1, h2⟩ := hv e he
    rcases h12 with h | h
    · exact Or.inr ⟨e.1, h1, by rw [← h]; exact code_neighbours_eq edges hv e.1 h1⟩
    · exact Or.inr ⟨e.2, h2, by rw [← h]; exact code_neighbours_eq edges hv e.2 h2⟩
  · left
    unfold code_neighbours
    rw [List.flatMap_eq_nil_iff]
    intro e he
    have h1 : ¬ cave_code e.1 = k := fun h' => h ⟨e, he, Or.inl h'⟩
    have h2 : ¬ cave_code e.2 = k := fun h' => h ⟨e, he, Or.inr h'⟩
    rw [if_neg h1, if_neg h2]
    rfl

theorem neighbours_valid (edges : List (String × String))
    (hv : ∀ e ∈ edges, valid_name e.1 ∧ valid_name e.2) (k v : String)
    (h : v ∈ neighbours edges k) : valid_name v := by
  rcases (mem_neighbours edges k v).mp h with h | h
  · exact (hv _ h).2
  · exact (hv _ h).1

theorem length_le_of_nodup_lt (l : List Nat) (n : Nat) (hd : l.Nodup) (hl : ∀ x ∈ l, x < n) :
    l.length ≤ n := by
  have hsub : l ⊆ List.range n := fun x hx => List.mem_range.mpr (hl x hx)
  have := (List.subperm_of_subset hd hsub).length_le
  rwa [List.length_range] at this

theorem parse_cave_map_rows (edges : List (String × String))
    (hv : ∀ e ∈ edges, valid_name e.1 ∧ valid_name e.2) (hd : no_duplicate_edges edges)
    (hl : ∀ e ∈ edges, e.1 ≠ e.2) (k : String) (hk : valid_name k) :
    (parse_cave_map (edges.map edge_line)).array (cave_code k) =
      pad ((neighbours edges k).map cave_code) := by
  have hnz : ∀ j, ∀ x ∈ code_neighbours edges j, x ≠ 0 := by
    intro j x hx
    rcases code_neighbours_cases edges hv j with h | ⟨s, -, h⟩
    · rw [h] at hx
      exact absurd hx (List.not_mem_nil _)
    · rw [h] at hx
      obtain ⟨v, hvn, rfl⟩ := List.mem_map.mp hx
      exact (cave_code_facts (neighbours_valid edges hv s v hvn)).1
  have hcap : ∀ j, (code_neighbours edges j).length ≤ ALPHABET * ALPHABET := by
    intro j
    rcases code_neighbours_cases edges hv j with h | ⟨s, -, h⟩
    · rw [h]
      exact Nat.zero_le _
    · rw [h]
      apply length_le_of_nodup_lt
      · apply List.Nodup.map_on _ (neighbours_nodup edges hd hl s)
        intro x hx y hy hxy
        exact cave_code_inj (neighbours_valid edges hv s x hx) (neighbours_valid edges hv s y hy) hxy
      · intro x hx
        obtain ⟨v, hvn, rfl⟩ := List.mem_map.mp hx
        exact cave_code_lt (neighbours_valid edges hv s v hvn)
  unfold parse_cave_map
  rw [List.foldl_map, ← code_neighbours_eq edges hv k hk]
  have := foldl_parse_line_rows edges [] cave_map_zero (fun e he => (hv e he).1)
    cave_map_zero_rows (by simpa using hnz) (by simpa using hcap) (cave_code k)
  simpa using this

end Day12

namespace Day12

/-! ## The walks that `traverse` follows -/

theorem mem_extend (edges : List (String × String)) (k : String)
    (next : String → List (List String)) (A : List String → Prop)
    (hnext : ∀ v ∈ neighbours edges k, ∀ q, q ∈ next v ↔ q.head? = some v ∧ A q)
    (p : List String) :
    p ∈ extend edges k next ↔
      ∃ v rest, p = k :: v :: rest ∧ adjacent edges k v ∧ A (v :: rest) := by
  unfold extend
  rw [List.mem_flatMap]
  constructor
  · rintro ⟨v, hv, hp⟩
    obtain ⟨q, hq, rfl⟩ := List.mem_map.mp hp
    obtain ⟨hh, hA⟩ := (hnext v hv q).mp hq
    cases q with
    | nil => simp at hh
    | cons u rest =>
      have hu : u = v := by simpa using hh
      subst hu
      exact ⟨u, rest, rfl, (mem_neighbours edges k u).mp hv, hA⟩
  · rintro ⟨v, rest, rfl, hadj, hA⟩
    have hv := (mem_neighbours edges k v).mpr hadj
    exact ⟨v, hv, List.mem_map.mpr ⟨v :: rest, (hnext v hv _).mpr ⟨rfl, hA⟩, rfl⟩⟩

theorem head_accepts_iff (edges : List (String × String)) (k : String) (hk : k ≠ "end")
    (seen : List String) (sc : Nat) (p : List String) :
    (p.head? = some k ∧ accepts edges seen sc p) ↔
      ∃ v rest, p = k :: v :: rest ∧ adjacent edges k v ∧
        (if cave_big k = true then accepts edges seen sc (v :: rest)
         else if k ∉ seen then accepts edges (seen ++ [k]) sc (v :: rest)
         else sc = 1 ∧ k ≠ "start" ∧ accepts edges seen (sc - 1) (v :: rest)) := by
  constructor
  · rintro ⟨hh, ha⟩
    cases p with
    | nil => simp at hh
    | cons u rest =>
      have hu : u = k := by simpa using hh
      subst hu
      cases rest with
      | nil => exact absurd ha hk
      | cons v rest =>
        unfold accepts at ha
        exact ⟨v, rest, rfl, ha.2.1, ha.2.2⟩
  · rintro ⟨v, rest, rfl, hadj, hc⟩
    refine ⟨rfl, ?_⟩
    unfold accepts
    exact ⟨hk, hadj, hc⟩

theorem filter_length_lt {α : Type} (l : List α) (p q : α → Bool)
    (hqp : ∀ x ∈ l, q x = true → p x = true) (hx : ∃ x ∈ l, p x = true ∧ q x = false) :
    (l.filter q).length < (l.filter p).length := by
  induction l with
  | nil =>
    obtain ⟨x, hx, _⟩ := hx
    exact absurd hx (List.not_mem_nil _)
  | cons a l ih =>
    have hle : (l.filter q).length ≤ (l.filter p).length := by
      clear ih hx
      induction l with
      | nil => exact Nat.le_refl _
      | cons b l ih2 =>
        have ih3 := ih2 (fun x hx => hqp x (by
          rcases List.mem_cons.mp hx with h | h
          · exact h ▸ List.mem_cons_self _ _
          · exact List.mem_cons_of_mem _ (List.mem_cons_of_mem _ h)))
        have hb := hqp b (List.mem_cons_of_mem _ (List.mem_cons_self _ _))
        simp only [List.filter_cons]
        cases hq : q b
        · cases hpb : p b
          · simpa using ih3
          · simp only [Bool.false_eq_true, if_false, if_true, List.length_cons]
            omega
        · rw [hb hq]
          simpa using ih3
    obtain ⟨x, hxm, hpx, hqx⟩ := hx
    simp only [List.filter_cons]
    rcases List.mem_cons.mp hxm with h | h
    · subst h
      rw [hpx, hqx]
      simp only [Bool.false_eq_true, if_false, if_true, List.length_cons]
      omega
    · have ih' := ih (fun y hy => hqp y (List.mem_cons_of_mem _ hy)) ⟨x, h, hpx, hqx⟩
      have ha := hqp a (List.mem_cons_self _ _)
      cases hq : q a
      · cases hpa : p a
        · simpa using ih'
        · simp only [Bool.false_eq_true, if_false, if_true, List.length_cons]
          omega
      · rw [ha hq]
        simpa using ih'

theorem mem_small_caves (edges : List (String × String)) (k : String)
    (hk : in_graph edges k) (hb : cave_big k = false) : k ∈ small_caves edges := by
  unfold small_caves
  rw [List.mem_filter, List.mem_dedup]
  refine ⟨?_, by rw [hb]; rfl⟩
  rcases hk with h | ⟨e, he, h | h⟩
  · rw [h]
    exact List.mem_cons_self _ _
  · apply List.mem_cons_of_mem
    rw [List.mem_flatMap]
    exact ⟨e, he, by rw [← h]; simp⟩
  · apply List.mem_cons_of_mem
    rw [List.mem_flatMap]
    exact ⟨e, he, by rw [← h]; simp⟩

theorem unseen_lt (edges : List (String × String)) (seen : List String) (k : String)
    (hk : k ∈ small_caves edges) (hks : k ∉ seen) :
    unseen edges (seen ++ [k]) < unseen edges seen := by
  unfold unseen
  apply filter_length_lt
  · intro x _ hx
    rw [decide_eq_true_eq] at hx ⊢
    exact fun h => hx (List.mem_append_left _ h)
  · refine ⟨k, hk, decide_eq_true hks, decide_eq_false ?_⟩
    exact fun h => h (List.mem_append_right _ (List.mem_singleton_self _))

theorem neighbours_in_graph (edges : List (String × String)) (k v : String)
    (h : v ∈ neighbours edges k) : in_graph edges v := by
  rcases (mem_neighbours edges k v).mp h with h | h
  · exact Or.inr ⟨_, h, Or.inr rfl⟩
  · exact Or.inr ⟨_, h, Or.inl rfl⟩

theorem neighbours_small (edges : List (String × String))
    (hb : ∀ e ∈ edges, ¬ (cave_big e.1 = true ∧ cave_big e.2 = true)) (k v : String)
    (hk : cave_big k = true) (h : v ∈ neighbours edges k) : cave_big v = false := by
  cases hv : cave_big v
  · rfl
  · rcases (mem_neighbours edges k v).mp h with h | h
    · exact absurd ⟨hk, hv⟩ (hb _ h)
    · exact absurd ⟨hv, hk⟩ (hb _ h)

theorem depth_bound_pos (edges : List (String × String)) (k : String) (seen : List String)
    (sc : Nat) : 0 < depth_bound edges k seen sc := by
  unfold depth_bound
  split <;> omega

theorem mem_walks_from (edges : List (String × String))
    (hb : ∀ e ∈ edges, ¬ (cave_big e.1 = true ∧ cave_big e.2 = true)) (fuel : Nat) :
    ∀ (k : String) (seen : List String) (sc : Nat), in_graph edges k → sc ≤ 1 →
      depth_bound edges k seen sc ≤ fuel →
      ∀ p, p ∈ walks_from edges fuel k seen sc ↔ p.head? = some k ∧ accepts edges seen sc p := by
  induction fuel with
  | zero =>
    intro k seen sc _ _ hd
    have := depth_bound_pos edges k seen sc
    omega
  | succ n ih =>
    intro k seen sc hk hsc hd p
    unfold walks_from
    by_cases hend : k = "end"
    · subst hend
      rw [if_pos rfl, List.mem_singleton]
      constructor
      · rintro rfl
        exact ⟨rfl, rfl⟩
      · rintro ⟨hh, ha⟩
        cases p with
        | nil => simp at hh
        | cons u rest =>
          have hu : u = "end" := by simpa using hh
          subst hu
          cases rest with
          | nil => rfl
          | cons v rest =>
            unfold accepts at ha
            exact absurd rfl ha.1
    · rw [if_neg hend, head_accepts_iff edges k hend]
      unfold depth_bound at hd
      by_cases hbig : cave_big k = true
      · rw [if_pos hbig] at hd
        simp only [if_pos hbig]
        apply mem_extend
        intro v hv q
        apply ih v seen sc (neighbours_in_graph edges k v hv) hsc
        unfold depth_bound
        rw [if_neg (by rw [neighbours_small edges hb k v hbig hv]; exact Bool.false_ne_true)]
        omega
      · have hbig' : cave_big k = false := by
          cases h : cave_big k
          · rfl
          · exact absurd h hbig
        rw [if_neg hbig] at hd
        simp only [if_neg hbig]
        by_cases hseen : k ∉ seen
        · simp only [if_pos hseen]
          apply mem_extend
          intro v hv q
          apply ih v (seen ++ [k]) sc (neighbours_in_graph edges k v hv) hsc
          have := unseen_lt edges seen k (mem_small_caves edges k hk hbig') hseen
          unfold depth_bound
          split <;> omega
        · simp only [if_neg hseen]
          by_cases hsc1 : sc = 1 ∧ k ≠ "start"
          · rw [if_pos hsc1]
            have hiff : ∀ v rest, (sc = 1 ∧ k ≠ "start" ∧ accepts edges seen (sc - 1) (v :: rest)) ↔
                accepts edges seen (sc - 1) (v :: rest) :=
              fun v rest => ⟨fun h => h.2.2, fun h => ⟨hsc1.1, hsc1.2, h⟩⟩
            simp only [hiff]
            apply mem_extend
            intro v hv q
            apply ih v seen (sc - 1) (neighbours_in_graph edges k v hv) (by omega)
            unfold depth_bound
            split <;> omega
          · rw [if_neg hsc1]
            constructor
            · intro h
              exact absurd h (List.not_mem_nil _)
            · rintro ⟨v, rest, -, -, h1, h2, -⟩
              exact absurd ⟨h1, h2⟩ hsc1

end Day12

namespace Day12

theorem head_of_mem_extend (edges : List (String × String)) (k : String)
    (next : String → List (List String)) (p : List String) (h : p ∈ extend edges k next) :
    p.head? = some k := by
  unfold extend at h
  obtain ⟨v, -, hp⟩ := List.mem_flatMap.mp h
  obtain ⟨q, -, rfl⟩ := List.mem_map.mp hp
  rfl

theorem head_of_mem_walks_from (edges : List (String × String)) (fuel : Nat) (k : String)
    (seen : List String) (sc : Nat) (p : List String)
    (h : p ∈ walks_from edges fuel k seen sc) : p.head? = some k := by
  cases fuel with
  | zero => exact absurd h (List.not_mem_nil _)
  | succ n =>
    unfold walks_from at h
    split at h
    · rename_i hk
      rw [List.mem_singleton.mp h, hk]
      rfl
    · split at h
      · exact head_of_mem_extend _ _ _ _ h
      · split at h
        · exact head_of_mem_extend _ _ _ _ h
        · split at h
          · exact head_of_mem_extend _ _ _ _ h
          · exact absurd h (List.not_mem_nil _)

theorem nodup_extend (edges : List (String × String)) (k : String)
    (next : String → List (List String)) (hnb : (neighbours edges k).Nodup)
    (h1 : ∀ v, (next v).Nodup) (h2 : ∀ v p, p ∈ next v → p.head? = some v) :
    (extend edges k next).Nodup := by
  unfold extend
  rw [List.nodup_flatMap]
  constructor
  · intro v _
    exact (h1 v).map (List.cons_injective)
  · apply List.Pairwise.imp _ hnb
    intro a b hab
    show List.Disjoint _ _
    intro x hxa hxb
    obtain ⟨p, hp, rfl⟩ := List.mem_map.mp hxa
    obtain ⟨q, hq, hpq⟩ := List.mem_map.mp hxb
    have hqp : q = p := List.tail_eq_of_cons_eq hpq
    subst hqp
    have ha := h2 a q hp
    have hb := h2 b q hq
    rw [ha] at hb
    exact hab (Option.some.inj hb)

theorem walks_from_nodup (edges : List (String × String))
    (hnb : ∀ k, (neighbours edges k).Nodup) (fuel : Nat) :
    ∀ (k : String) (seen : List String) (sc : Nat), (walks_from edges fuel k seen sc).Nodup := by
  induction fuel with
  | zero => intro k seen sc; exact List.nodup_nil
  | succ n ih =>
    intro k seen sc
    unfold walks_from
    split
    · exact List.nodup_singleton _
    · split
      · exact nodup_extend _ _ _ (hnb k) (fun v => ih v _ _)
          (fun v p hp => head_of_mem_walks_from _ _ _ _ _ _ hp)
      · split
        · exact nodup_extend _ _ _ (hnb k) (fun v => ih v _ _)
            (fun v p hp => head_of_mem_walks_from _ _ _ _ _ _ hp)
        · split
          · exact nodup_extend _ _ _ (hnb k) (fun v => ih v _ _)
              (fun v p hp => head_of_mem_walks_from _ _ _ _ _ _ hp)
          · exact List.nodup_nil

theorem length_extend (edges : List (String × String)) (k : String)
    (next : String → List (List String)) :
    (extend edges k next).length = ((neighbours edges k).map (fun v => (next v).length)).sum := by
  unfold extend
  rw [List.length_flatMap]
  congr 1
  apply List.map_congr_left
  intro v _
  simp

theorem valid_name_start : valid_name "start" := Or.inl rfl

theorem small_caves_valid (edges : List (String × String))
    (hv : ∀ e ∈ edges, valid_name e.1 ∧ valid_name e.2) (s : String)
    (h : s ∈ small_caves edges) : valid_name s := by
  unfold small_caves at h
  rw [List.mem_filter, List.mem_dedup] at h
  rcases List.mem_cons.mp h.1 with h1 | h1
  · rw [h1]
    exact valid_name_start
  · obtain ⟨e, he, hs⟩ := List.mem_flatMap.mp h1
    obtain ⟨h1, h2⟩ := hv e he
    rcases List.mem_cons.mp hs with h3 | h3
    · rw [h3]; exact h1
    · rw [List.mem_singleton.mp h3]; exact h2

theorem mem_map_cave_code (seen : List String) (k : String) (hk : valid_name k)
    (hs : ∀ s ∈ seen, valid_name s) : cave_code k ∈ seen.map cave_code ↔ k ∈ seen := by
  rw [List.mem_map]
  constructor
  · rintro ⟨s, hs1, hs2⟩
    rw [← cave_code_inj (hs s hs1) hk hs2]
    exact hs1
  · intro h
    exact ⟨k, h, rfl⟩

theorem traverse_succ (fuel key : Nat) (map : cave_map_t) (queue : queue_t) (sc : Nat) :
    traverse (fuel + 1) key map queue sc =
      if key = END_CODE then some 1
      else if is_big key then
        traverse_loop (fun value => traverse fuel value map queue sc) (map.array key) 0
      else if !queue.contains key then
        traverse_loop (fun value => traverse fuel value map (queue.push_back key) sc)
          (map.array key) 0
      else if sc = 1 ∧ key ≠ START_CODE then
        traverse_loop (fun value => traverse fuel value map queue (sc - 1)) (map.array key) 0
      else some 0 := rfl

theorem traverse_children (edges : List (String × String))
    (hv : ∀ e ∈ edges, valid_name e.1 ∧ valid_name e.2) (hd : no_duplicate_edges edges)
    (hl : ∀ e ∈ edges, e.1 ≠ e.2) (n : Nat) (k : String) (hk : valid_name k)
    (seen : List String) (sc : Nat) (queue : queue_t)
    (hch : ∀ v ∈ neighbours edges k,
      traverse n (cave_code v) (parse_cave_map (edges.map edge_line)) queue sc =
        some ((walks_from edges n v seen sc).length % SIZE_MOD)) :
    traverse_loop (fun value => traverse n value (parse_cave_map (edges.map edge_line)) queue sc)
      ((parse_cave_map (edges.map edge_line)).array (cave_code k)) 0 =
      some ((extend edges k (fun v => walks_from edges n v seen sc)).length % SIZE_MOD) := by
  have hnz : ∀ x ∈ (neighbours edges k).map cave_code, x ≠ 0 := by
    intro x hx
    obtain ⟨v, hvn, rfl⟩ := List.mem_map.mp hx
    exact (cave_code_facts (neighbours_valid edges hv k v hvn)).1
  rw [parse_cave_map_rows edges hv hd hl k hk, traverse_loop_pad _ _ _ hnz,
    traverse_loop_sum _ (fun v => (walks_from edges n v seen sc).length) _ 0 SIZE_MOD_pos
      (fun v hvn => ⟨(cave_code_facts (neighbours_valid edges hv k v hvn)).1, hch v hvn⟩),
    length_extend, Nat.zero_add]

theorem traverse_eq (edges : List (String × String))
    (hv : ∀ e ∈ edges, valid_name e.1 ∧ valid_name e.2) (hd : no_duplicate_edges edges)
    (hl : ∀ e ∈ edges, e.1 ≠ e.2)
    (hb : ∀ e ∈ edges, ¬ (cave_big e.1 = true ∧ cave_big e.2 = true))
    (hs : (small_caves edges).length ≤ 100) (fuel : Nat) :
    ∀ (k : String) (seen : List String) (sc : Nat) (queue : queue_t),
      valid_name k → in_graph edges k → sc ≤ 1 → (∀ s ∈ seen, s ∈ small_caves edges) →
      seen.Nodup → queue_holds queue (seen.map cave_code) →
      depth_bound edges k seen sc ≤ fuel →
      traverse fuel (cave_code k) (parse_cave_map (edges.map edge_line)) queue sc =
        some ((walks_from edges fuel k seen sc).length % SIZE_MOD) := by
  induction fuel with
  | zero =>
    intro k seen sc _ _ _ _ _ _ _ hdb
    have := depth_bound_pos edges k seen sc
    omega
  | succ n ih =>
    intro k seen sc queue hk hg hsc hsub hnd hq hdb
    obtain ⟨-, hbig, hend, hstart⟩ := cave_code_facts hk
    have hvalid : ∀ v ∈ neighbours edges k, valid_name v :=
      fun v hvn => neighbours_valid edges hv k v hvn
    rw [traverse_succ]
    unfold walks_from
    unfold depth_bound at hdb
    by_cases hke : k = "end"
    · rw [if_pos (hend.mpr hke), if_pos hke]
      rfl
    · rw [if_neg (fun h => hke (hend.mp h)), if_neg hke, hbig]
      by_cases hkb : cave_big k = true
      · rw [if_pos hkb] at hdb
        rw [if_pos hkb, if_pos hkb]
        apply traverse_children edges hv hd hl n k hk
        intro v hvn
        apply ih v seen sc queue (hvalid v hvn) (neighbours_in_graph edges k v hvn) hsc hsub hnd hq
        unfold depth_bound
        rw [if_neg (by rw [neighbours_small edges hb k v hkb hvn]; exact Bool.false_ne_true)]
        omega
      · have hkb' : cave_big k = false := by
          cases h : cave_big k
          · rfl
          · exact absurd h hkb
        have hksm := mem_small_caves edges k hg hkb'
        have hcont := queue_contains_iff hq (cave_code k)
        rw [mem_map_cave_code seen k hk (fun s h => small_caves_valid edges hv s (hsub s h))]
          at hcont
        rw [if_neg hkb] at hdb
        rw [if_neg hkb, if_neg hkb]
        by_cases hseen : k ∉ seen
        · have hcf : queue.contains (cave_code k) = false := by
            cases h : queue.contains (cave_code k)
            · rfl
            · exact absurd (hcont.mp h) hseen
          have hsub' : ∀ s ∈ seen ++ [k], s ∈ small_caves edges := by
            intro s h
            rcases List.mem_append.mp h with h | h
            · exact hsub s h
            · rw [List.mem_singleton.mp h]; exact hksm
          have hnd' : (seen ++ [k]).Nodup := by
            rw [List.nodup_append]
            refine ⟨hnd, List.nodup_singleton _, ?_⟩
            intro x hx hxk
            rw [List.mem_singleton.mp hxk] at hx
            exact hseen hx
          have hlen : (seen ++ [k]).length ≤ 100 :=
            le_trans (List.subperm_of_subset hnd' hsub').length_le hs
          have hq' : queue_holds (queue.push_back (cave_code k)) ((seen ++ [k]).map cave_code) := by
            rw [List.map_append]
            apply queue_push_holds hq
            rw [List.length_map]
            rw [List.length_append, List.length_singleton] at hlen
            omega
          rw [hcf, Bool.not_false, if_pos rfl, if_pos hseen]
          apply traverse_children edges hv hd hl n k hk
          intro v hvn
          apply ih v (seen ++ [k]) sc _ (hvalid v hvn) (neighbours_in_graph edges k v hvn) hsc
            hsub' hnd' hq'
          have := unseen_lt edges seen k hksm hseen
          unfold depth_bound
          split <;> omega
        · have hct : queue.contains (cave_code k) = true := hcont.mpr (not_not.mp hseen)
          rw [hct, Bool.not_true, if_neg Bool.false_ne_true, if_neg hseen]
          by_cases hsc1 : sc = 1 ∧ k ≠ "start"
          · rw [if_pos ⟨hsc1.1, fun h => hsc1.2 (hstart.mp h)⟩, if_pos hsc1]
            apply traverse_children edges hv hd hl n k hk
            intro v hvn
            apply ih v seen (sc - 1) queue (hvalid v hvn) (neighbours_in_graph edges k v hvn)
              (by omega) hsub hnd hq
            unfold depth_bound
            split <;> omega
          · rw [if_neg (fun h => hsc1 ⟨h.1, fun e => h.2 (hstart.mpr e)⟩), if_neg hsc1]
            rfl

end Day12

namespace Day12

/-! ## More recursion depth does not change the result of `traverse` -/

theorem traverse_loop_mono (f g : Nat → Option Nat)
    (hfg : ∀ v r, f v = some r → g v = some r) (row : List Nat) (sum r : Nat)
    (h : traverse_loop f row sum = some r) : traverse_loop g row sum = some r := by
  induction row generalizing sum with
  | nil => exact h
  | cons v rest ih =>
    rw [traverse_loop] at h ⊢
    by_cases hv : v = 0
    · rw [if_pos hv] at h ⊢
      exact h
    · rw [if_neg hv] at h ⊢
      cases hf : f v with
      | none =>
        rw [hf] at h
        exact absurd h (by simp)
      | some n =>
        rw [hf] at h
        rw [hfg v n hf]
        exact ih _ h

theorem traverse_mono (fuel : Nat) :
    ∀ (key : Nat) (map : cave_map_t) (queue : queue_t) (sc r : Nat),
      traverse fuel key map queue sc = some r → traverse (fuel + 1) key map queue sc = some r := by
  induction fuel with
  | zero =>
    intro key map queue sc r h
    exact absurd h (by simp [traverse])
  | succ n ih =>
    intro key map queue sc r h
    rw [traverse_succ] at h ⊢
    split
    · rename_i h1
      rw [if_pos h1] at h
      exact h
    · rename_i h1
      rw [if_neg h1] at h
      split
      · rename_i h2
        rw [if_pos h2] at h
        exact traverse_loop_mono _ _ (fun v r' => ih v map queue sc r') _ _ _ h
      · rename_i h2
        rw [if_neg h2] at h
        split
        · rename_i h3
          rw [if_pos h3] at h
          exact traverse_loop_mono _ _ (fun v r' => ih v map _ sc r') _ _ _ h
        · rename_i h3
          rw [if_neg h3] at h
          split
          · rename_i h4
            rw [if_pos h4] at h
            exact traverse_loop_mono _ _ (fun v r' => ih v map queue _ r') _ _ _ h
          · rename_i h4
            rw [if_neg h4] at h
            exact h

theorem traverse_mono_le {fuel fuel' : Nat} (hle : fuel ≤ fuel') (key : Nat) (map : cave_map_t)
    (queue : queue_t) (sc r : Nat) (h : traverse fuel key map queue sc = some r) :
    traverse fuel' key map queue sc = some r := by
  induction hle with
  | refl => exact h
  | step _ ih => exact traverse_mono _ _ _ _ _ _ ih

end Day12

namespace Day12

/-! ## Cave codes of the names of one or two letters of either case -/

theorem letter_value {c : Char} (h : is_letter c) :
    4 ≤ char_value c ∧ char_value c ≤ 55 ∧ value_char (char_value c) = c := by
  rcases h with h | h
  · refine ⟨?_, ?_, value_char_lower h⟩
    · rw [char_value_lower h]
      have := h.1
      omega
    · rw [char_value_lower h]
      have := h.2
      omega
  · refine ⟨?_, ?_, value_char_upper h⟩
    · rw [char_value_upper h]
      have := h.1
      omega
    · rw [char_value_upper h]
      have := h.2
      omega

theorem letter_upper_iff {c : Char} (h : is_letter c) : is_upper_char c ↔ 30 ≤ char_value c := by
  rcases h with h | h
  · rw [char_value_lower h]
    obtain ⟨h1, h2⟩ := h
    constructor
    · intro hu
      have := hu.2
      omega
    · intro hv
      omega
  · rw [char_value_upper h]
    have h1 := h.1
    exact ⟨fun _ => by omega, fun _ => h⟩

/-- The shape of a name of one or two letters, with its code. -/
theorem letter_name_cases {s : String} (h : letter_name s) :
    (s = "start" ∧ cave_code s = 1) ∨ (s = "end" ∧ cave_code s = 2) ∨
    (∃ c, s.data = [c] ∧ is_letter c ∧ cave_code s = char_value c * 56 + 3) ∨
    (∃ c d, s.data = [c, d] ∧ is_letter c ∧ is_letter d ∧
      cave_code s = char_value c * 56 + char_value d) := by
  rcases h with h | h | ⟨hlen, hcase⟩
  · subst h
    exact Or.inl ⟨rfl, by decide⟩
  · subst h
    exact Or.inr (Or.inl ⟨rfl, by decide⟩)
  · have hcode : ∀ l : List Char, s.data = l → cave_code s = (str_to_cave_code l).1 := by
      intro l hl
      unfold cave_code
      rw [hl]
    rcases hlen with hlen | hlen
    · obtain ⟨c, hc⟩ := List.length_eq_one.mp hlen
      have hcl := hcase c (by rw [hc]; exact List.mem_cons_self _ _)
      refine Or.inr (Or.inr (Or.inl ⟨c, hc, hcl, ?_⟩))
      rw [hcode _ hc]
      have hne := letter_not_stop hcl
      obtain ⟨h1, h2, -⟩ := letter_value hcl
      simp only [str_to_cave_code, str_to_cave_code_loop, if_neg hne]
      simp [add64, mul64, SIZE_MOD, ALPHABET]
      omega
    · obtain ⟨c, d, hcd⟩ := List.length_eq_two.mp hlen
      have hcl := hcase c (by rw [hcd]; simp)
      have hdl := hcase d (by rw [hcd]; simp)
      refine Or.inr (Or.inr (Or.inr ⟨c, d, hcd, hcl, hdl, ?_⟩))
      rw [hcode _ hcd]
      have hnc := letter_not_stop hcl
      have hnd := letter_not_stop hdl
      obtain ⟨h1, h2, -⟩ := letter_value hcl
      obtain ⟨h3, h4, -⟩ := letter_value hdl
      simp only [str_to_cave_code, str_to_cave_code_loop, if_neg hnc, if_neg hnd]
      simp [add64, mul64, SIZE_MOD, ALPHABET]
      omega

theorem code_name_letter_name {s : String} (h : letter_name s) :
    code_name (cave_code s) = s.data := by
  rcases letter_name_cases h with ⟨hs, hc⟩ | ⟨hs, hc⟩ | ⟨c, hd, hl, hc⟩ | ⟨c, d, hd, hl, hl2, hc⟩
  · rw [hc, hs]
    rfl
  · rw [hc, hs]
    rfl
  · obtain ⟨h1, h2, h3⟩ := letter_value hl
    have e1 : (char_value c * 56 + 3) % 56 = 3 := by omega
    have e2 : (char_value c * 56 + 3) / 56 = char_value c := by omega
    rw [hc, hd]
    unfold code_name START_CODE END_CODE ALPHABET
    rw [if_neg (by omega), if_neg (by omega), if_pos e1, e2, h3]
  · obtain ⟨h1, h2, h3⟩ := letter_value hl
    obtain ⟨h4, h5, h6⟩ := letter_value hl2
    have e1 : (char_value c * 56 + char_value d) % 56 = char_value d := by omega
    have e2 : (char_value c * 56 + char_value d) / 56 = char_value c := by omega
    rw [hc, hd]
    unfold code_name START_CODE END_CODE ALPHABET
    rw [if_neg (by omega), if_neg (by omega), if_neg (by omega), e1, e2, h3, h6]

theorem letter_name_length {s : String} (h : s.data.length = 1 ∨ s.data.length = 2) :
    s ≠ "start" ∧ s ≠ "end" := by
  constructor <;>
  · intro e
    rw [e] at h
    exact absurd h (by decide)

end Day12

namespace Day12

/-! ## Termination of `traverse` on any cave map -/

theorem row_codes_cons (value : Nat) (rest : List Nat) (h : value ≠ 0) :
    row_codes (value :: rest) = value :: row_codes rest := by
  unfold row_codes
  rw [List.takeWhile_cons, if_pos (by simpa using h)]

theorem mem_row_codes {row : List Nat} {v : Nat} (h : v ∈ row_codes row) : v ≠ 0 ∧ v ∈ row := by
  induction row with
  | nil => exact absurd h (List.not_mem_nil _)
  | cons value rest ih =>
    by_cases h0 : value = 0
    · unfold row_codes at h
      rw [List.takeWhile_cons, if_neg (by simpa using h0)] at h
      exact absurd h (List.not_mem_nil _)
    · rw [row_codes_cons value rest h0] at h
      rcases List.mem_cons.mp h with h | h
      · rw [h]
        exact ⟨h0, List.mem_cons_self _ _⟩
      · exact ⟨(ih h).1, List.mem_cons_of_mem _ (ih h).2⟩

theorem row_codes_pad (vals : List Nat) (hv : ∀ x ∈ vals, x ≠ 0) : row_codes (pad vals) = vals := by
  unfold pad
  induction vals with
  | nil =>
    unfold row_codes
    cases h : ALPHABET * ALPHABET - ([] : List Nat).length with
    | zero => rfl
    | succ m => simp [List.replicate_succ]
  | cons x rest ih =>
    have hx := hv x (List.mem_cons_self _ _)
    rw [List.cons_append, row_codes_cons _ _ hx]
    have h := ih (fun y hy => hv y (List.mem_cons_of_mem _ hy))
    have hz : ∀ m, row_codes (rest ++ List.replicate m 0) = rest := by
      intro m
      clear h ih
      induction rest with
      | nil =>
        unfold row_codes
        cases m with
        | zero => rfl
        | succ m => simp [List.replicate_succ]
      | cons y rest ih2 =>
        have hy := hv y (List.mem_cons_of_mem _ (List.mem_cons_self _ _))
        rw [List.cons_append, row_codes_cons _ _ hy,
          ih2 (fun z hz => by
            rcases List.mem_cons.mp hz with hz | hz
            · rw [hz]
              exact hx
            · exact hv z (List.mem_cons_of_mem _ (List.mem_cons_of_mem _ hz)))]
    rw [hz]

theorem traverse_checked_succ (fuel key : Nat) (map : cave_map_t) (queue : queue_t) (sc : Nat) :
    traverse_checked (fuel + 1) key map queue sc =
      if key = END_CODE then some (outcome_t.returned 1 [queue])
      else if is_big key then
        add_queues [queue]
          (traverse_loop_checked (fun value => traverse_checked fuel value map queue sc)
            (map.array key) 0)
      else if !queue.contains key then
        if queue.size < queue.array.length then
          add_queues [queue, queue.push_back key]
            (traverse_loop_checked
              (fun value => traverse_checked fuel value map (queue.push_back key) sc)
              (map.array key) 0)
        else some outcome_t.undefined
      else if sc = 1 ∧ key ≠ START_CODE then
        add_queues [queue]
          (traverse_loop_checked (fun value => traverse_checked fuel value map queue (sc - 1))
            (map.array key) 0)
      else some (outcome_t.returned 0 [queue]) := rfl

end Day12

namespace Day12

/-! ## The chain of 102 small caves and the map of four lines -/

theorem mem_pad {vals : List Nat} {v : Nat} (h : v ∈ pad vals) (h0 : v ≠ 0) : v ∈ vals := by
  unfold pad at h
  rcases List.mem_append.mp h with h | h
  · exact h
  · exact absurd (List.eq_of_mem_replicate h) h0

theorem chain_code_small (j : Nat) (hj : j ≤ 102) : is_big (chain_code j) = false := by
  rw [is_big_eq]
  unfold chain_code ALPHABET
  rw [decide_eq_false]
  omega

theorem mem_chain_row {k v : Nat} (h : v ∈ chain_row k) : ∃ j, j ≤ 102 ∧ v = chain_code j := by
  unfold chain_row at h
  rw [List.mem_flatMap] at h
  obtain ⟨j, hj, hv⟩ := h
  rw [List.mem_range] at hj
  split_ifs at hv with h1 h2 h3 h3
  · simp at hv
  · simp at hv
    exact ⟨j + 1, by omega, hv⟩
  · simp at hv
    exact ⟨j - 1, by omega, hv⟩
  · simp at hv
    rcases hv with hv | hv
    · exact ⟨j - 1, by omega, hv⟩
    · exact ⟨j + 1, by omega, hv⟩
  · simp at hv

theorem chain_no_big_adjacent : no_big_adjacent chain_map := by
  intro key v _ hv
  obtain ⟨h0, hm⟩ := mem_row_codes hv
  obtain ⟨j, hj, rfl⟩ := mem_chain_row (mem_pad hm h0)
  exact chain_code_small j hj

/-- On the chain of 102 small caves, with the first 100 of them in the queue,
the call at the next cave reaches `push_back` with the queue full: the run is
not defined by the source. -/
theorem chain_reaches_undefined (fuel sc : Nat) :
    traverse_checked (fuel + 1) (chain_code 100) chain_map chain_queue sc =
      some outcome_t.undefined := by
  have hc : chain_queue.contains (chain_code 100) = false := by decide
  rw [traverse_checked_succ, if_neg (by decide), if_neg (by decide), hc, Bool.not_false,
    if_pos rfl, if_neg (by decide)]

end Day12

namespace Day11

/-! ## Reading and writing the grid -/

theorem grid_get_set (size : Nat) (grid : grid_t) (hok : grid_ok size grid) (i j v a b : Nat)
    (hi : i < size) (hj : j < size) :
    grid_get (grid_set grid i j v) a b = if a = i ∧ b = j then v else grid_get grid a b := by
  obtain ⟨hlen, hrows⟩ := hok
  have hil : i < grid.length := by omega
  have hrow : (grid.getD i []).length = size := by
    rw [List.getD_eq_getElem _ _ hil]
    exact hrows _ (List.getElem_mem _)
  unfold grid_get grid_set
  by_cases ha : a = i
  · subst ha
    have e1 : (grid.set a ((grid.getD a []).set j v)).getD a [] = (grid.getD a []).set j v := by
      rw [List.getD_eq_getElem _ _ (by rw [List.length_set]; exact hil)]
      simp
    rw [e1]
    by_cases hb : b = j
    · subst hb
      rw [if_pos ⟨rfl, rfl⟩, List.getD_eq_getElem _ _ (by rw [List.length_set, hrow]; exact hj)]
      simp
    · rw [if_neg (fun h => hb h.2)]
      simp only [List.getD_eq_getElem?_getD, List.getElem?_set]
      have : ¬ j = b := fun h => hb h.symm
      simp [this]
  · rw [if_neg (fun h => ha h.1)]
    have : ¬ i = a := fun h => ha h.symm
    simp only [List.getD_eq_getElem?_getD, List.getElem?_set]
    simp [this]

theorem grid_ok_set (size : Nat) (grid : grid_t) (hok : grid_ok size grid) (i j v : Nat) :
    grid_ok size (grid_set grid i j v) := by
  obtain ⟨hlen, hrows⟩ := hok
  unfold grid_set
  refine ⟨by rw [List.length_set]; exact hlen, fun row hrow => ?_⟩
  by_cases hi : i < grid.length
  · rcases List.mem_or_eq_of_mem_set hrow with h | h
    · exact hrows row h
    · rw [h, List.length_set, List.getD_eq_getElem _ _ hi]
      exact hrows _ (List.getElem_mem _)
  · rw [List.set_eq_of_length_le (Nat.le_of_not_lt hi)] at hrow
    exact hrows row hrow

theorem val_set (size : Nat) (grid : grid_t) (hok : grid_ok size grid) (c e : Nat × Nat)
    (v : Nat) (hc : in_grid size c) :
    val (grid_set grid c.1 c.2 v) e = if e = c then v else val grid e := by
  unfold val
  rw [grid_get_set size grid hok c.1 c.2 v e.1 e.2 hc.1 hc.2]
  by_cases h : e = c
  · subst h
    rw [if_pos ⟨rfl, rfl⟩, if_pos rfl]
  · rw [if_neg h, if_neg]
    rintro ⟨h1, h2⟩
    exact h (Prod.ext h1 h2)

theorem mem_cells (size : Nat) (c : Nat × Nat) : c ∈ cells size ↔ in_grid size c := by
  unfold cells in_grid
  simp only [List.mem_flatMap, List.mem_range, List.mem_map]
  constructor
  · rintro ⟨i, hi, j, hj, rfl⟩
    exact ⟨hi, hj⟩
  · rintro ⟨h1, h2⟩
    exact ⟨c.1, h1, c.2, h2, rfl⟩

theorem nodup_cells (size : Nat) : (cells size).Nodup := by
  unfold cells
  rw [List.nodup_flatMap]
  refine ⟨fun i _ => ?_, ?_⟩
  · exact List.Nodup.map (fun a b h => by simpa using h) (List.nodup_range _)
  · refine List.Pairwise.imp_of_mem ?_ (List.nodup_range size)
    intro a b _ _ hab
    simp only [Function.onFun, List.disjoint_left, List.mem_map, List.mem_range]
    rintro c ⟨j, _, rfl⟩ ⟨k, _, h⟩
    simp only [Prod.mk.injEq] at h
    exact hab h.1.symm

theorem adj_symm {c d : Nat × Nat} (h : adj c d) : adj d c := by
  obtain ⟨h1, h2, h3, h4, h5⟩ := h
  exact ⟨fun e => h1 e.symm, h3, h2, h5, h4⟩

theorem adj_comm (c d : Nat × Nat) : adj c d ↔ adj d c := ⟨adj_symm, adj_symm⟩

theorem adj_irrefl (c : Nat × Nat) : ¬ adj c c := fun h => h.1 rfl

end Day11

namespace Day11

/-! ## The cells reached by the double loop of `spread_recursive` -/

theorem mem_offsets (xy : Int × Int) :
    xy ∈ offsets ↔ (-1 ≤ xy.1 ∧ xy.1 ≤ 1) ∧ (-1 ≤ xy.2 ∧ xy.2 ≤ 1) := by
  obtain ⟨x, y⟩ := xy
  constructor
  · intro h
    simp only [offsets, List.mem_cons, Prod.mk.injEq, List.mem_singleton, List.not_mem_nil,
      or_false] at h
    omega
  · rintro ⟨⟨h1, h2⟩, h3, h4⟩
    simp only at h1 h2 h3 h4
    interval_cases x <;> interval_cases y <;> simp [offsets]

theorem skip_eq_false (size i j : Nat) (x y : Int) :
    skip size i j x y = false ↔
      ¬ (x = -1 ∧ i = 0) ∧ ¬ (y = -1 ∧ j = 0) ∧ ¬ (x = 1 ∧ i = sub64 size 1) ∧
        ¬ (y = 1 ∧ j = sub64 size 1) ∧ ¬ (x = 0 ∧ y = 0) := by
  unfold skip
  simp only [Bool.or_eq_false_iff, Bool.and_eq_false_iff, beq_eq_false_iff_ne, ne_eq,
    not_and_or, and_assoc]

theorem sub64_one {size : Nat} (h0 : 0 < size) (hs : size < SIZE_MOD) : sub64 size 1 = size - 1 := by
  unfold sub64
  unfold SIZE_MOD at *
  omega

/-- A cell reached by the loop is a neighbour in the grid, and every neighbour
in the grid is reached. -/
theorem mem_targets (size i j : Nat) (hs : size < SIZE_MOD) (hi : i < size) (hj : j < size)
    (d : Nat × Nat) : d ∈ targets size i j ↔ in_grid size d ∧ adj (i, j) d := by
  have hsub := sub64_one (Nat.lt_of_le_of_lt (Nat.zero_le _) hi) hs
  obtain ⟨a, b⟩ := d
  unfold targets
  simp only [List.mem_map, List.mem_filter, mem_offsets, Bool.not_eq_true', skip_eq_false, hsub,
    in_grid, adj, ne_eq, Prod.mk.injEq, Prod.exists]
  unfold SIZE_MOD at hs
  constructor
  · rintro ⟨x, y, ⟨⟨⟨h1, h2⟩, h3, h4⟩, h5, h6, h7, h8, h9⟩, h10, h11⟩
    unfold offset int_to_size SIZE_MOD at h10 h11
    omega
  · rintro ⟨⟨h1, h2⟩, h3, h4, h5, h6, h7⟩
    refine ⟨(a : Int) - i, (b : Int) - j, ⟨⟨by omega, by omega⟩, by omega⟩, ?_, ?_⟩
    · unfold offset int_to_size SIZE_MOD
      omega
    · unfold offset int_to_size SIZE_MOD
      omega

theorem nodup_targets (size i j : Nat) (hs : size < SIZE_MOD) (hi : i < size) :
    (targets size i j).Nodup := by
  have hsub := sub64_one (Nat.lt_of_le_of_lt (Nat.zero_le _) hi) hs
  unfold targets
  refine List.Nodup.map_on ?_ (List.Nodup.filter _ (by decide))
  rintro ⟨x, y⟩ hx ⟨u, v⟩ hu h
  simp only [List.mem_filter, mem_offsets, Bool.not_eq_true', skip_eq_false, hsub] at hx hu
  simp only [Prod.mk.injEq] at h ⊢
  unfold SIZE_MOD at hs
  unfold offset int_to_size SIZE_MOD at h
  omega

theorem length_targets (size i j : Nat) : (targets size i j).length ≤ 8 := by
  have hsplit : offsets = [(-1, -1), (-1, 0), (-1, 1), (0, -1)] ++
      ((0, 0) :: [(0, 1), (1, -1), (1, 0), (1, 1)]) := rfl
  unfold targets
  have hcons : List.filter (fun xy : Int × Int => !skip size i j xy.1 xy.2)
      ((0, 0) :: [(0, 1), (1, -1), (1, 0), (1, 1)]) =
      List.filter (fun xy : Int × Int => !skip size i j xy.1 xy.2)
        [(0, 1), (1, -1), (1, 0), (1, 1)] :=
    List.filter_cons_of_neg (by simp [skip])
  rw [List.length_map, hsplit, List.filter_append, hcons, List.length_append]
  have h1 := List.length_filter_le (fun xy : Int × Int => !skip size i j xy.1 xy.2)
    [(-1, -1), (-1, 0), (-1, 1), (0, -1)]
  have h2 := List.length_filter_le (fun xy : Int × Int => !skip size i j xy.1 xy.2)
    [(0, 1), (1, -1), (1, 0), (1, 1)]
  simp only [List.length_cons, List.length_nil] at h1 h2
  omega

theorem spread_loop_log_eq (f : grid_t → Nat → Nat → Option (grid_t × List (Nat × Nat)))
    (size i j : Nat) (l : List (Int × Int)) (grid : grid_t) :
    spread_loop_log f size i j l grid =
      targets_loop f ((l.filter (fun xy => !skip size i j xy.1 xy.2)).map
        (fun xy => (offset i xy.1, offset j xy.2))) grid := by
  induction l generalizing grid with
  | nil => rfl
  | cons xy rest ih =>
    obtain ⟨x, y⟩ := xy
    rw [spread_loop_log]
    by_cases hsk : skip size i j x y = true
    · rw [if_pos hsk, List.filter_cons_of_neg (by simp [hsk]), ih]
    · rw [if_neg hsk, List.filter_cons_of_pos (by simp [hsk]), List.map_cons, targets_loop]
      simp only [val]
      by_cases hv : grid_get grid (offset i x) (offset j y) ≤ 9
      · rw [if_pos hv, if_pos hv]
        cases f (grid_set grid (offset i x) (offset j y)
          (add64 (grid_get grid (offset i x) (offset j y)) 1)) (offset i x) (offset j y) with
        | none => rfl
        | some r1 =>
          simp only []
          rw [ih]
      · rw [if_neg hv, if_neg hv, ih]

/-- The number of cells of a list without repetition that touch a cell of the
grid is at most 8. -/
theorem nb_count_le (size : Nat) (hs : size < SIZE_MOD) (cs : List (Nat × Nat)) (hn : cs.Nodup)
    (hin : ∀ d ∈ cs, in_grid size d) (e : Nat × Nat) (he : in_grid size e) :
    nb_count cs e ≤ 8 := by
  unfold nb_count
  rw [List.countP_eq_length_filter]
  have hsub : cs.filter (fun d => decide (adj e d)) ⊆ targets size e.1 e.2 := by
    intro d hd
    rw [List.mem_filter] at hd
    rw [mem_targets size e.1 e.2 hs he.1 he.2]
    exact ⟨hin d hd.1, of_decide_eq_true hd.2⟩
  have h1 := (List.Nodup.subperm (List.Nodup.filter _ hn) hsub).length_le
  have h2 := length_targets size e.1 e.2
  omega

end Day11

namespace Day11

/-! ## Counting the cells that touch a cell -/

theorem nb_count_append (cs ds : List (Nat × Nat)) (e : Nat × Nat) :
    nb_count (cs ++ ds) e = nb_count cs e + nb_count ds e := by
  unfold nb_count
  exact List.countP_append _ _ _

theorem nb_count_nil (e : Nat × Nat) : nb_count [] e = 0 := rfl

theorem nb_count_cons (d : Nat × Nat) (cs : List (Nat × Nat)) (e : Nat × Nat) :
    nb_count (d :: cs) e = nb_count cs e + (if adj e d then 1 else 0) := by
  unfold nb_count
  rw [List.countP_cons]
  simp

theorem justified_mono (w w2 : Nat × Nat → Nat) (cs : List (Nat × Nat)) :
    ∀ s s2 : List (Nat × Nat),
      (∀ d ∈ cs, w d + nb_count s d ≤ w2 d + nb_count s2 d) →
      justified w s cs → justified w2 s2 cs := by
  induction cs with
  | nil =>
    intro _ _ _ _
    trivial
  | cons d rest ih =>
    intro s s2 h hj
    obtain ⟨h1, h2⟩ := hj
    have hd := h d (List.mem_cons_self _ _)
    refine ⟨by omega, ih (s ++ [d]) (s2 ++ [d]) (fun x hx => ?_) h2⟩
    have := h x (List.mem_cons_of_mem _ hx)
    rw [nb_count_append, nb_count_append]
    omega

theorem justified_append (w : Nat × Nat → Nat) (cs ds : List (Nat × Nat)) :
    ∀ s : List (Nat × Nat),
      justified w s (cs ++ ds) ↔ justified w s cs ∧ justified w (s ++ cs) ds := by
  induction cs with
  | nil =>
    intro s
    simp [justified]
  | cons d rest ih =>
    intro s
    have h := ih (s ++ [d])
    rw [List.append_assoc, List.singleton_append] at h
    show (10 ≤ w d + nb_count s d ∧ justified w (s ++ [d]) (rest ++ ds)) ↔
      (10 ≤ w d + nb_count s d ∧ justified w (s ++ [d]) rest) ∧ justified w (s ++ d :: rest) ds
    rw [h, and_assoc]

/-! ## The number of cells that are at most 9 -/

theorem unflashed_le (size : Nat) (g h : grid_t)
    (hmono : ∀ x, in_grid size x → val h x ≤ 9 → val g x ≤ 9) :
    unflashed size h ≤ unflashed size g := by
  unfold unflashed
  apply Finset.card_le_card
  intro x hx
  simp only [Finset.mem_filter, Finset.mem_product, Finset.mem_range] at hx ⊢
  exact ⟨hx.1, hmono x hx.1 hx.2⟩

theorem unflashed_lt (size : Nat) (g h : grid_t) (e : Nat × Nat) (he : in_grid size e)
    (hg : val g e ≤ 9) (hh : ¬ val h e ≤ 9)
    (hmono : ∀ x, in_grid size x → val h x ≤ 9 → val g x ≤ 9) :
    unflashed size h + 1 ≤ unflashed size g := by
  unfold unflashed
  apply Finset.card_lt_card
  rw [Finset.ssubset_iff_of_subset]
  · refine ⟨e, ?_, ?_⟩
    · simp only [Finset.mem_filter, Finset.mem_product, Finset.mem_range]
      exact ⟨he, hg⟩
    · simp only [Finset.mem_filter, Finset.mem_product, Finset.mem_range]
      exact fun h1 => hh h1.2
  · intro x hx
    simp only [Finset.mem_filter, Finset.mem_product, Finset.mem_range] at hx ⊢
    exact ⟨hx.1, hmono x hx.1 hx.2⟩

theorem unflashed_pos (size : Nat) (g : grid_t) (e : Nat × Nat) (he : in_grid size e)
    (hg : val g e ≤ 9) : 1 ≤ unflashed size g := by
  unfold unflashed
  apply Finset.card_pos.mpr
  refine ⟨e, ?_⟩
  simp only [Finset.mem_filter, Finset.mem_product, Finset.mem_range]
  exact ⟨he, hg⟩

theorem unflashed_le_sq (size : Nat) (g : grid_t) : unflashed size g ≤ size * size := by
  unfold unflashed
  refine Nat.le_trans (Finset.card_filter_le _ _) ?_
  rw [Finset.card_product, Finset.card_range]

/-- With one more cell above 9, the cells at most 9 are fewer than the cells of
the grid. -/
theorem unflashed_lt_sq (size : Nat) (g : grid_t) (e : Nat × Nat) (he : in_grid size e)
    (hg : ¬ val g e ≤ 9) : unflashed size g + 1 ≤ size * size := by
  unfold unflashed
  have hlt : (Finset.filter (fun c => val g c ≤ 9) (Finset.range size ×ˢ Finset.range size)).card <
      (Finset.range size ×ˢ Finset.range size).card := by
    apply Finset.card_lt_card
    rw [Finset.ssubset_iff_of_subset (Finset.filter_subset _ _)]
    refine ⟨e, ?_, ?_⟩
    · simp only [Finset.mem_product, Finset.mem_range]
      exact he
    · simp only [Finset.mem_filter, Finset.mem_product, Finset.mem_range]
      exact fun h1 => hg h1.2
  rw [Finset.card_product, Finset.card_range] at hlt
  exact hlt

end Day11

namespace Day11

/-! ## The double loop of `spread_recursive` -/

theorem le_of_bump {a b : Nat} {x e : Nat × Nat} {u : Nat × Nat → Nat}
    (h : a = if x = e then u e + 1 else b) (hb : b = u x) : b ≤ a := by
  by_cases hxe : x = e
  · rw [if_pos hxe] at h
    rw [hxe] at hb
    omega
  · rw [if_neg hxe] at h
    omega

theorem loop_post_nil (size : Nat) (h0 : grid_t) (hok : grid_ok size h0) :
    loop_post size h0 [] (h0, []) := by
  refine ⟨hok, List.nodup_nil, fun d hd => absurd hd (List.not_mem_nil _),
    fun e _ _ => ⟨fun _ => rfl, fun h => ⟨?_, h⟩⟩, trivial⟩
  simp [nb_count_nil]

theorem loop_post_skip (size : Nat) (h0 : grid_t) (e : Nat × Nat) (rest : List (Nat × Nat))
    (r2 : grid_t × List (Nat × Nat)) (hv : ¬ val h0 e ≤ 9) (hp2 : loop_post size h0 rest r2) :
    loop_post size h0 (e :: rest) r2 := by
  obtain ⟨h1, h2, h3, h4, h5⟩ := hp2
  refine ⟨h1, h2, h3, fun x hx hxn => ⟨(h4 x hx hxn).1, fun hx9 => ?_⟩, ?_⟩
  · have hxe : x ≠ e := fun e1 => hv (e1 ▸ hx9)
    have h := (h4 x hx hxn).2 hx9
    have hm : (x ∈ e :: rest) ↔ x ∈ rest := by simp [hxe]
    simp only [hm]
    exact h
  · refine justified_mono _ _ _ [] [] (fun d _ => ?_) h5
    beta_reduce
    by_cases hm : d ∈ rest
    · rw [if_pos hm, if_pos (List.mem_cons_of_mem _ hm)]
    · rw [if_neg hm]
      split_ifs <;> omega

theorem loop_post_step (size : Nat) (h0 : grid_t) (e : Nat × Nat) (rest : List (Nat × Nat))
    (r1 r2 : grid_t × List (Nat × Nat)) (hok : grid_ok size h0) (he : in_grid size e)
    (hne : e ∉ rest) (hv : val h0 e ≤ 9)
    (hp1 : call_post size (grid_set h0 e.1 e.2 (val h0 e + 1)) e r1)
    (hp2 : loop_post size r1.1 rest r2) :
    loop_post size h0 (e :: rest) (r2.1, r1.2 ++ r2.2) := by
  have hval : ∀ x, val (grid_set h0 e.1 e.2 (val h0 e + 1)) x =
      if x = e then val h0 e + 1 else val h0 x := fun x => val_set size h0 hok e x _ he
  obtain ⟨-, a2, a3, a4, a5, a6⟩ := hp1
  obtain ⟨b1, b2, b3, b4, b5⟩ := hp2
  generalize grid_set h0 e.1 e.2 (val h0 e + 1) = h1 at hval a3 a4 a5 a6
  have hdisj : ∀ d, d ∈ r1.2 → d ∉ r2.2 := by
    intro d hd1 hd2
    have c1 := (a3 d hd1).2.2.1
    have c2 := (b3 d hd2).2.1
    omega
  have hlow : ∀ x, in_grid size x → x ∉ r1.2 → val r1.1 x ≤ 9 →
      val h1 x ≤ 9 ∧ val r1.1 x = val h1 x + nb_count r1.2 x := by
    intro x hx hxn h9
    have h := a5 x hx hxn
    by_cases hc : val h1 x ≤ 9
    · exact ⟨hc, (h.2 hc).1⟩
    · have := h.1 (by omega)
      omega
  refine ⟨b1, ?_, ?_, ?_, ?_⟩
  · exact List.Nodup.append a2 b2 (fun d hd1 hd2 => hdisj d hd1 hd2)
  · intro d hd
    rcases List.mem_append.mp hd with hd1 | hd2
    · obtain ⟨c1, c2, c3, c4⟩ := a3 d hd1
      refine ⟨c1, ?_, ?_⟩
      · have hv1 := hval d
        by_cases hde : d = e
        · rw [hde]
          exact hv
        · rw [if_neg hde] at hv1
          have : val h1 d ≠ 10 := fun h10 => hde (c4 h10)
          omega
      · have := (b4 d c1 (hdisj d hd1)).1 (by omega)
        show val r2.1 d = 11
        omega
    · obtain ⟨c1, c2, c3⟩ := b3 d hd2
      have hdn : d ∉ r1.2 := fun h => hdisj d h hd2
      have hl := hlow d c1 hdn c2
      refine ⟨c1, ?_, c3⟩
      have hv1 := le_of_bump (hval d) rfl
      omega
  · intro x hx hxn
    rw [List.mem_append, not_or] at hxn
    obtain ⟨hx1, hx2⟩ := hxn
    have hb := b4 x hx hx2
    refine ⟨fun h10 => ?_, fun h9 => ?_⟩
    · have hxe : x ≠ e := fun h => by
        rw [h] at h10
        omega
      have hv1 := hval x
      rw [if_neg hxe] at hv1
      have c1 := (a5 x hx hx1).1 (by omega)
      have c2 := hb.1 (by omega)
      show val r2.1 x = val h0 x
      omega
    · show val r2.1 x = val h0 x + nb_count (r1.2 ++ r2.2) x + _ ∧ val r2.1 x ≤ 9
      rw [nb_count_append]
      have hv1 := hval x
      by_cases hxe : x = e
      · subst hxe
        rw [if_pos rfl] at hv1
        have hn10 : val h1 x ≠ 10 := fun h => hx1 (a4 h)
        have c1 := (a5 x hx hx1).2 (by omega)
        have c2 := hb.2 (by omega)
        rw [if_neg hne] at c2
        rw [if_pos (List.mem_cons_self _ _)]
        omega
      · rw [if_neg hxe] at hv1
        have c1 := (a5 x hx hx1).2 (by omega)
        have c2 := hb.2 (by omega)
        have hm : (x ∈ e :: rest) ↔ x ∈ rest := by simp [hxe]
        simp only [hm]
        omega
  · show justified _ [] (r1.2 ++ r2.2)
    rw [justified_append]
    constructor
    · refine justified_mono _ _ _ [] [] (fun d _ => ?_) a6
      beta_reduce
      have hv1 := hval d
      by_cases hde : d = e
      · subst hde
        rw [if_pos rfl] at hv1
        rw [if_pos (List.mem_cons_self _ _)]
        omega
      · rw [if_neg hde] at hv1
        split_ifs <;> omega
    · rw [List.nil_append]
      refine justified_mono _ _ _ [] r1.2 (fun d hd => ?_) b5
      beta_reduce
      obtain ⟨c1, c2, c3⟩ := b3 d hd
      have hdn : d ∉ r1.2 := fun h => hdisj d h hd
      have hl := hlow d c1 hdn c2
      have hv1 := hval d
      rw [nb_count_nil]
      by_cases hde : d = e
      · subst hde
        rw [if_pos rfl] at hv1
        rw [if_neg hne, if_pos (List.mem_cons_self _ _)]
        omega
      · rw [if_neg hde] at hv1
        have hm : (d ∈ e :: rest) ↔ d ∈ rest := by simp [hde]
        simp only [hm]
        omega

/-- A call at a cell with a value of at most 10 leaves no cell at most 9 that
was above 9. -/
theorem call_post_mono (size : Nat) (g : grid_t) (c : Nat × Nat)
    (r : grid_t × List (Nat × Nat)) (hp : call_post size g c r) :
    ∀ x, in_grid size x → val r.1 x ≤ 9 → val g x ≤ 9 := by
  intro x hx h9
  obtain ⟨-, -, a3, -, a5, -⟩ := hp
  by_cases hm : x ∈ r.2
  · have := (a3 x hm).2.2.1
    omega
  · by_cases hc : val g x ≤ 9
    · exact hc
    · have := (a5 x hx hm).1 (by omega)
      omega

/-- The double loop over cells of the grid, none listed twice, returns when the
calls it makes return. -/
theorem targets_loop_spec (size n : Nat)
    (f : grid_t → Nat → Nat → Option (grid_t × List (Nat × Nat)))
    (hf : ∀ g e, grid_ok size g → in_grid size e → val g e ≤ 10 → depth_needed size g e ≤ n →
      ∃ r, f g e.1 e.2 = some r ∧ call_post size g e r)
    (ns : List (Nat × Nat)) (hns : ns.Nodup) (hin : ∀ e ∈ ns, in_grid size e) :
    ∀ h0, grid_ok size h0 → unflashed size h0 ≤ n →
      ∃ r, targets_loop f ns h0 = some r ∧ loop_post size h0 ns r := by
  induction ns with
  | nil =>
    intro h0 hok _
    exact ⟨(h0, []), rfl, loop_post_nil size h0 hok⟩
  | cons e rest ih =>
    intro h0 hok hu
    have he := hin e (List.mem_cons_self _ _)
    have hnd := List.nodup_cons.mp hns
    have ih1 := ih hnd.2 (fun x hx => hin x (List.mem_cons_of_mem _ hx))
    rw [targets_loop]
    by_cases hv : val h0 e ≤ 9
    · rw [if_pos hv]
      have hadd : add64 (val h0 e) 1 = val h0 e + 1 :=
        add64_of_lt (by unfold SIZE_MOD; omega)
      rw [hadd]
      have hok1 := grid_ok_set size h0 hok e.1 e.2 (val h0 e + 1)
      have hval : ∀ x, val (grid_set h0 e.1 e.2 (val h0 e + 1)) x =
          if x = e then val h0 e + 1 else val h0 x := fun x => val_set size h0 hok e x _ he
      have hve := hval e
      rw [if_pos rfl] at hve
      have hdepth : depth_needed size (grid_set h0 e.1 e.2 (val h0 e + 1)) e ≤ n := by
        unfold depth_needed
        by_cases h9 : val (grid_set h0 e.1 e.2 (val h0 e + 1)) e ≤ 9
        · rw [if_pos h9]
          exact Nat.le_trans (unflashed_pos size h0 e he hv) hu
        · rw [if_neg h9]
          refine Nat.le_trans (unflashed_lt size h0 _ e he hv h9 (fun x _ hx => ?_)) hu
          have := le_of_bump (hval x) rfl
          omega
      obtain ⟨r1, hr1, hp1⟩ := hf _ e hok1 he (by omega) hdepth
      rw [hr1]
      have hmono := call_post_mono size _ e r1 hp1
      have hu1 : unflashed size r1.1 ≤ n := by
        refine Nat.le_trans (unflashed_le size h0 r1.1 (fun x hx hx9 => ?_)) hu
        have h1 := hmono x hx hx9
        have := le_of_bump (hval x) rfl
        omega
      obtain ⟨r2, hr2, hp2⟩ := ih1 r1.1 hp1.1 hu1
      simp only []
      rw [hr2]
      exact ⟨_, rfl, loop_post_step size h0 e rest r1 r2 hok he hnd.1 hv hp1 hp2⟩
    · rw [if_neg hv]
      obtain ⟨r2, hr2, hp2⟩ := ih1 h0 hok hu
      exact ⟨r2, hr2, loop_post_skip size h0 e rest r2 hv hp2⟩

end Day11

namespace Day11

/-! ## One call of `spread_recursive` -/

theorem call_post_trivial (size : Nat) (g : grid_t) (c : Nat × Nat) (hok : grid_ok size g)
    (hv : val g c ≤ 9) : call_post size g c (g, []) := by
  refine ⟨hok, List.nodup_nil, fun d hd => absurd hd (List.not_mem_nil _), fun h => ?_,
    fun e _ _ => ⟨fun _ => rfl, fun h => ⟨?_, h⟩⟩, trivial⟩
  · omega
  · simp [nb_count_nil]

theorem call_post_of_loop (size : Nat) (g : grid_t) (c : Nat × Nat)
    (r : grid_t × List (Nat × Nat)) (hs : size < SIZE_MOD) (hok : grid_ok size g)
    (hc : in_grid size c) (hv : val g c = 10)
    (hp : loop_post size (grid_set g c.1 c.2 11) (targets size c.1 c.2) r) :
    call_post size g c (r.1, c :: r.2) := by
  have hval : ∀ x, val (grid_set g c.1 c.2 11) x = if x = c then 11 else val g x :=
    fun x => val_set size g hok c x _ hc
  obtain ⟨b1, b2, b3, b4, b5⟩ := hp
  generalize grid_set g c.1 c.2 11 = h0 at hval b3 b4 b5
  have hvc := hval c
  rw [if_pos rfl] at hvc
  have hcn : c ∉ r.2 := by
    intro h
    have := (b3 c h).2.1
    omega
  have hmem : ∀ x, x ∈ targets size c.1 c.2 ↔ in_grid size x ∧ adj c x :=
    fun x => mem_targets size c.1 c.2 hs hc.1 hc.2 x
  refine ⟨b1, List.nodup_cons.mpr ⟨hcn, b2⟩, ?_, fun _ => List.mem_cons_self _ _, ?_, ?_⟩
  · intro d hd
    rcases List.mem_cons.mp hd with hd | hd
    · subst hd
      refine ⟨hc, by omega, ?_, fun _ => rfl⟩
      have := (b4 d hc hcn).1 (by omega)
      show val r.1 d = 11
      omega
    · obtain ⟨c1, c2, c3⟩ := b3 d hd
      have hdc : d ≠ c := fun h => hcn (h ▸ hd)
      have hv1 := hval d
      rw [if_neg hdc] at hv1
      exact ⟨c1, by omega, c3, fun h10 => by omega⟩
  · intro x hx hxn
    rw [List.mem_cons, not_or] at hxn
    obtain ⟨hxc, hx2⟩ := hxn
    have hv1 := hval x
    rw [if_neg hxc] at hv1
    have hb := b4 x hx hx2
    refine ⟨fun h10 => ?_, fun h9 => ?_⟩
    · have := hb.1 (by omega)
      show val r.1 x = val g x
      omega
    · have h2 := hb.2 (by omega)
      show val r.1 x = val g x + nb_count (c :: r.2) x ∧ val r.1 x ≤ 9
      rw [nb_count_cons]
      have hiff : (x ∈ targets size c.1 c.2) ↔ adj x c := by
        rw [hmem x, adj_comm]
        exact ⟨fun h => h.2, fun h => ⟨hx, h⟩⟩
      simp only [hiff] at h2
      omega
  · show justified (val g) [] (c :: r.2)
    refine ⟨by rw [nb_count_nil]; omega, ?_⟩
    rw [List.nil_append]
    refine justified_mono _ _ _ [] [c] (fun d hd => ?_) b5
    beta_reduce
    have hdc : d ≠ c := fun h => hcn (h ▸ hd)
    have hv1 := hval d
    rw [if_neg hdc] at hv1
    rw [nb_count_nil, nb_count_cons, nb_count_nil]
    by_cases hm : d ∈ targets size c.1 c.2
    · rw [if_pos hm, if_pos (adj_symm ((hmem d).mp hm).2)]
      omega
    · rw [if_neg hm]
      omega

/-- A call at a cell of the grid with a value of at most 10 returns when the
bound on the depth is above the number of cells that are at most 9. -/
theorem spread_recursive_log_spec (size : Nat) (hs : size < SIZE_MOD) (fuel : Nat) :
    ∀ g e, grid_ok size g → in_grid size e → val g e ≤ 10 → depth_needed size g e ≤ fuel →
      ∃ r, spread_recursive_log size fuel g e.1 e.2 = some r ∧ call_post size g e r := by
  induction fuel with
  | zero =>
    intro g e _ _ _ hd
    unfold depth_needed at hd
    split_ifs at hd <;> omega
  | succ n ih =>
    intro g e hok he h10 hd
    rw [spread_recursive_log]
    change ∃ r, (if val g e ≤ 9 then some (g, []) else
      match spread_loop_log (spread_recursive_log size n) size e.1 e.2 offsets
          (grid_set g e.1 e.2 (add64 (val g e) 1)) with
      | none => none
      | some r => some (r.1, (e.1, e.2) :: r.2)) = some r ∧ call_post size g e r
    by_cases hv : val g e ≤ 9
    · rw [if_pos hv]
      exact ⟨_, rfl, call_post_trivial size g e hok hv⟩
    · rw [if_neg hv]
      have hv10 : val g e = 10 := by omega
      have hadd : add64 (val g e) 1 = 11 := by
        rw [hv10]
        rfl
      rw [hadd, spread_loop_log_eq]
      change ∃ r, (match targets_loop (spread_recursive_log size n) (targets size e.1 e.2)
          (grid_set g e.1 e.2 11) with
        | none => none
        | some r => some (r.1, (e.1, e.2) :: r.2)) = some r ∧ call_post size g e r
      have hval : ∀ x, val (grid_set g e.1 e.2 11) x = if x = e then 11 else val g x :=
        fun x => val_set size g hok e x _ he
      have hu : unflashed size (grid_set g e.1 e.2 11) ≤ n := by
        unfold depth_needed at hd
        rw [if_neg hv] at hd
        refine Nat.le_trans (unflashed_le size g _ (fun x _ hx => ?_)) (by omega)
        have hv1 := hval x
        by_cases hxe : x = e
        · rw [if_pos hxe] at hv1
          omega
        · rw [if_neg hxe] at hv1
          omega
      obtain ⟨r, hr, hp⟩ := targets_loop_spec size n (spread_recursive_log size n) ih
        (targets size e.1 e.2) (nodup_targets size e.1 e.2 hs he.1)
        (fun x hx => ((mem_targets size e.1 e.2 hs he.1 he.2 x).mp hx).1)
        (grid_set g e.1 e.2 11) (grid_ok_set size g hok _ _ _) hu
      rw [hr]
      exact ⟨_, rfl, call_post_of_loop size g e r hs hok he hv10 hp⟩

end Day11

namespace Day11

/-! ## A call at any cell, and the double loop of `spread` -/

theorem justified_mem (w : Nat × Nat → Nat) (cs : List (Nat × Nat)) :
    ∀ s, justified w s cs → ∀ d ∈ cs, ∃ l1 l2, cs = l1 ++ d :: l2 ∧
      10 ≤ w d + nb_count (s ++ l1) d := by
  induction cs with
  | nil =>
    intro _ _ d hd
    exact absurd hd (List.not_mem_nil _)
  | cons d0 rest ih =>
    intro s hj d hd
    obtain ⟨h1, h2⟩ := hj
    rcases List.mem_cons.mp hd with hd | hd
    · subst hd
      exact ⟨[], rest, rfl, by rw [List.append_nil]; exact h1⟩
    · obtain ⟨l1, l2, e, h⟩ := ih (s ++ [d0]) h2 d hd
      refine ⟨d0 :: l1, l2, by rw [e]; rfl, ?_⟩
      rw [List.append_assoc, List.singleton_append] at h
      exact h

theorem length_cells (size : Nat) : (cells size).length = size * size := by
  unfold cells
  rw [List.length_flatMap]
  have h : (List.length ∘ fun i : Nat => List.map (fun j => (i, j)) (List.range size)) =
      fun _ => size := by
    funext i
    simp
  rw [h, List.map_const', List.sum_replicate, List.length_range]
  rfl

theorem length_le_sq (size : Nat) (cs : List (Nat × Nat)) (hn : cs.Nodup)
    (hin : ∀ d ∈ cs, in_grid size d) : cs.length ≤ size * size := by
  have hsub : cs ⊆ cells size := fun d hd => (mem_cells size d).mpr (hin d hd)
  have := (List.Nodup.subperm hn hsub).length_le
  rw [length_cells] at this
  exact this

/-- A call at any cell of the grid returns within the depth `size * size`, or
`size * size + 1` when the value of the cell wraps around to 0, and no cell
passes the guard twice. -/
theorem spread_recursive_log_any (size : Nat) (hs : size < SIZE_MOD) (fuel : Nat) (g : grid_t)
    (c : Nat × Nat) (hok : grid_ok size g) (hc : in_grid size c) (hlt : val g c < SIZE_MOD)
    (hfuel : (if val g c = SIZE_MAX then size * size + 1 else size * size) ≤ fuel) :
    ∃ r, spread_recursive_log size fuel g c.1 c.2 = some r ∧ grid_ok size r.1 ∧ r.2.Nodup ∧
      ∀ d ∈ r.2, in_grid size d := by
  have hpos : 1 ≤ size * size := by
    have := hc.1
    exact Nat.mul_pos (by omega) (by omega)
  have hf1 : 1 ≤ fuel := by
    split_ifs at hfuel <;> omega
  obtain ⟨n, rfl⟩ : ∃ n, fuel = n + 1 := ⟨fuel - 1, by omega⟩
  rw [spread_recursive_log]
  change ∃ r, (if val g c ≤ 9 then some (g, []) else
    match spread_loop_log (spread_recursive_log size n) size c.1 c.2 offsets
        (grid_set g c.1 c.2 (add64 (val g c) 1)) with
    | none => none
    | some r => some (r.1, (c.1, c.2) :: r.2)) = some r ∧ grid_ok size r.1 ∧ r.2.Nodup ∧
      ∀ d ∈ r.2, in_grid size d
  by_cases hv : val g c ≤ 9
  · rw [if_pos hv]
    exact ⟨_, rfl, hok, List.nodup_nil, fun d hd => absurd hd (List.not_mem_nil _)⟩
  · rw [if_neg hv, spread_loop_log_eq]
    change ∃ r, (match targets_loop (spread_recursive_log size n) (targets size c.1 c.2)
        (grid_set g c.1 c.2 (add64 (val g c) 1)) with
      | none => none
      | some r => some (r.1, (c.1, c.2) :: r.2)) = some r ∧ grid_ok size r.1 ∧ r.2.Nodup ∧
        ∀ d ∈ r.2, in_grid size d
    have hval : ∀ x, val (grid_set g c.1 c.2 (add64 (val g c) 1)) x =
        if x = c then add64 (val g c) 1 else val g x := fun x => val_set size g hok c x _ hc
    have hmem : ∀ x, x ∈ targets size c.1 c.2 ↔ in_grid size x ∧ adj c x :=
      fun x => mem_targets size c.1 c.2 hs hc.1 hc.2 x
    obtain ⟨r, hr, hp⟩ := targets_loop_spec size n (spread_recursive_log size n)
      (spread_recursive_log_spec size hs n)
      (targets size c.1 c.2) (nodup_targets size c.1 c.2 hs hc.1)
      (fun x hx => ((hmem x).mp hx).1)
      (grid_set g c.1 c.2 (add64 (val g c) 1)) (grid_ok_set size g hok _ _ _)
      (by
        by_cases hmax : val g c = SIZE_MAX
        · rw [if_pos hmax] at hfuel
          have := unflashed_le_sq size (grid_set g c.1 c.2 (add64 (val g c) 1))
          omega
        · rw [if_neg hmax] at hfuel
          have hvc := hval c
          rw [if_pos rfl] at hvc
          have h9 : ¬ val (grid_set g c.1 c.2 (add64 (val g c) 1)) c ≤ 9 := by
            rw [hvc]
            unfold add64
            unfold SIZE_MOD at hlt ⊢
            unfold SIZE_MAX at hmax
            omega
          have := unflashed_lt_sq size _ c hc h9
          omega)
    rw [hr]
    obtain ⟨b1, b2, b3, -, b5⟩ := hp
    refine ⟨_, rfl, b1, List.nodup_cons.mpr ⟨fun hcr => ?_, b2⟩, fun d hd => ?_⟩
    · have h9 := (b3 c hcr).2.1
      have hvc := hval c
      rw [if_pos rfl] at hvc
      have h0 : val (grid_set g c.1 c.2 (add64 (val g c) 1)) c = 0 := by
        rw [hvc] at h9 ⊢
        unfold add64 at h9 ⊢
        unfold SIZE_MOD at hlt h9 ⊢
        omega
      obtain ⟨l1, l2, e, hj⟩ := justified_mem _ _ [] b5 c hcr
      rw [h0, if_neg (fun h => adj_irrefl c ((hmem c).mp h).2), List.nil_append] at hj
      have hn1 : l1.Nodup := by
        rw [e] at b2
        exact (List.nodup_append.mp b2).1
      have hin1 : ∀ d ∈ l1, in_grid size d := fun d hd =>
        (b3 d (by rw [e]; exact List.mem_append_left _ hd)).1
      have := nb_count_le size hs l1 hn1 hin1 c hc
      omega
    · rcases List.mem_cons.mp hd with hd | hd
      · rw [hd]
        exact hc
      · exact (b3 d hd).1

/-! ## The functions without the list of cells -/

theorem spread_loop_log_fst (f : grid_t → Nat → Nat → Option grid_t)
    (fl : grid_t → Nat → Nat → Option (grid_t × List (Nat × Nat)))
    (hf : ∀ g i j, (fl g i j).map Prod.fst = f g i j) (size i j : Nat) (l : List (Int × Int)) :
    ∀ grid, (spread_loop_log fl size i j l grid).map Prod.fst = spread_loop f size i j l grid := by
  induction l with
  | nil =>
    intro grid
    rfl
  | cons xy rest ih =>
    intro grid
    obtain ⟨x, y⟩ := xy
    rw [spread_loop_log, spread_loop]
    by_cases hsk : skip size i j x y = true
    · rw [if_pos hsk, if_pos hsk, ih]
    · rw [if_neg hsk, if_neg hsk]
      by_cases hv : grid_get grid (offset i x) (offset j y) ≤ 9
      · rw [if_pos hv, if_pos hv, ← hf]
        cases fl (grid_set grid (offset i x) (offset j y)
          (add64 (grid_get grid (offset i x) (offset j y)) 1)) (offset i x) (offset j y) with
        | none => rfl
        | some r1 =>
          simp only [Option.map_some']
          rw [← ih]
          cases spread_loop_log fl size i j rest r1.1 with
          | none => rfl
          | some r2 => rfl
      · rw [if_neg hv, if_neg hv, ih]

theorem spread_recursive_log_fst (size fuel : Nat) :
    ∀ grid i j, (spread_recursive_log size fuel grid i j).map Prod.fst =
      spread_recursive size fuel grid i j := by
  induction fuel with
  | zero =>
    intro grid i j
    rfl
  | succ n ih =>
    intro grid i j
    rw [spread_recursive_log, spread_recursive]
    by_cases hv : grid_get grid i j ≤ 9
    · rw [if_pos hv, if_pos hv]
      rfl
    · rw [if_neg hv, if_neg hv, ← spread_loop_log_fst _ _ ih]
      cases spread_loop_log (spread_recursive_log size n) size i j offsets
        (grid_set grid i j (add64 (grid_get grid i j) 1)) with
      | none => rfl
      | some r => rfl

theorem spread_cells_log_fst (size fuel : Nat) (cs : List (Nat × Nat)) :
    ∀ grid, (spread_cells_log size fuel cs grid).map Prod.fst =
      spread_cells size fuel cs grid := by
  induction cs with
  | nil =>
    intro grid
    rfl
  | cons c rest ih =>
    intro grid
    obtain ⟨i, j⟩ := c
    rw [spread_cells_log, spread_cells]
    by_cases hv : grid_get grid i j = 10
    · rw [if_pos hv, if_pos hv, ← spread_recursive_log_fst]
      cases spread_recursive_log size fuel grid i j with
      | none => rfl
      | some r1 =>
        simp only [Option.map_some']
        rw [← ih]
        cases spread_cells_log size fuel rest r1.1 with
        | none => rfl
        | some r2 => rfl
    · rw [if_neg hv, if_neg hv, ih]

theorem spread_log_fst (size fuel : Nat) (grid : grid_t) :
    (spread_log size fuel grid).map Prod.fst = spread size fuel grid :=
  spread_cells_log_fst size fuel (cells size) grid

end Day11

namespace Day11

/-! ## The double loop of `spread` -/

theorem cells_post_nil (size : Nat) (g0 : grid_t) (hok : grid_ok size g0) :
    cells_post size g0 [] (g0, []) := by
  refine ⟨hok, List.nodup_nil, fun d hd => absurd hd (List.not_mem_nil _),
    fun e he => absurd he (List.not_mem_nil _),
    fun e _ _ => ⟨fun _ => rfl, fun h => ⟨?_, h⟩⟩, trivial⟩
  simp [nb_count_nil]

theorem cells_post_skip (size : Nat) (g0 : grid_t) (c : Nat × Nat) (rest : List (Nat × Nat))
    (r2 : grid_t × List (Nat × Nat)) (hv : ¬ val g0 c = 10) (hp2 : cells_post size g0 rest r2) :
    cells_post size g0 (c :: rest) r2 := by
  obtain ⟨h1, h2, h3, h4, h5, h6⟩ := hp2
  refine ⟨h1, h2, h3, fun e he h10 => ?_, h5, h6⟩
  rcases List.mem_cons.mp he with he | he
  · rw [he] at h10
    exact absurd h10 hv
  · exact h4 e he h10

theorem cells_post_step (size : Nat) (g0 : grid_t) (c : Nat × Nat) (rest : List (Nat × Nat))
    (r1 r2 : grid_t × List (Nat × Nat)) (hin : ∀ e ∈ rest, in_grid size e)
    (hv : val g0 c = 10) (hp1 : call_post size g0 c r1) (hp2 : cells_post size r1.1 rest r2) :
    cells_post size g0 (c :: rest) (r2.1, r1.2 ++ r2.2) := by
  obtain ⟨-, a2, a3, a4, a5, a6⟩ := hp1
  obtain ⟨b1, b2, b3, b4, b5, b6⟩ := hp2
  have hdisj : ∀ d, d ∈ r1.2 → d ∉ r2.2 := by
    intro d hd1 hd2
    have c1 := (a3 d hd1).2.2.1
    have c2 := (b3 d hd2).2.1
    omega
  have hkeep : ∀ x, in_grid size x → x ∉ r1.2 →
      (10 ≤ val g0 x ∧ val r1.1 x = val g0 x) ∨
      (val g0 x ≤ 9 ∧ val r1.1 x = val g0 x + nb_count r1.2 x ∧ val r1.1 x ≤ 9) := by
    intro x hx hxn
    by_cases h9 : val g0 x ≤ 9
    · exact Or.inr ⟨h9, (a5 x hx hxn).2 h9⟩
    · exact Or.inl ⟨by omega, (a5 x hx hxn).1 (by omega)⟩
  refine ⟨b1, ?_, ?_, ?_, ?_, ?_⟩
  · exact List.Nodup.append a2 b2 (fun d hd1 hd2 => hdisj d hd1 hd2)
  · intro d hd
    rcases List.mem_append.mp hd with hd1 | hd2
    · obtain ⟨c1, c2, c3, -⟩ := a3 d hd1
      refine ⟨c1, c2, ?_⟩
      have := (b5 d c1 (hdisj d hd1)).1 (by omega)
      show val r2.1 d = 11
      omega
    · obtain ⟨c1, c2, c3⟩ := b3 d hd2
      have hdn : d ∉ r1.2 := fun h => hdisj d h hd2
      refine ⟨c1, ?_, c3⟩
      rcases hkeep d c1 hdn with h | h <;> omega
  · intro e he h10
    rcases List.mem_cons.mp he with he | he
    · rw [he]
      exact List.mem_append_left _ (a4 hv)
    · by_cases hm : e ∈ r1.2
      · exact List.mem_append_left _ hm
      · have hk := (a5 e (hin e he) hm).1 (by omega)
        exact List.mem_append_right _ (b4 e he (by omega))
  · intro x hx hxn
    rw [List.mem_append, not_or] at hxn
    obtain ⟨hx1, hx2⟩ := hxn
    have hb := b5 x hx hx2
    refine ⟨fun h10 => ?_, fun h9 => ?_⟩
    · have c1 := (a5 x hx hx1).1 h10
      have c2 := hb.1 (by omega)
      show val r2.1 x = val g0 x
      omega
    · have c1 := (a5 x hx hx1).2 h9
      have c2 := hb.2 c1.2
      show val r2.1 x = val g0 x + nb_count (r1.2 ++ r2.2) x ∧ val r2.1 x ≤ 9
      rw [nb_count_append]
      omega
  · show justified (val g0) [] (r1.2 ++ r2.2)
    rw [justified_append]
    refine ⟨a6, ?_⟩
    rw [List.nil_append]
    refine justified_mono _ _ _ [] r1.2 (fun d hd => ?_) b6
    obtain ⟨c1, c2, c3⟩ := b3 d hd
    have hdn : d ∉ r1.2 := fun h => hdisj d h hd
    rw [nb_count_nil]
    rcases hkeep d c1 hdn with h | h <;> omega

/-- The double loop of `spread` returns within the depth `size * size`. -/
theorem spread_cells_log_spec (size : Nat) (hs : size < SIZE_MOD) (fuel : Nat)
    (hfuel : size * size ≤ fuel) (cs : List (Nat × Nat)) (hin : ∀ c ∈ cs, in_grid size c) :
    ∀ g0, grid_ok size g0 →
      ∃ r, spread_cells_log size fuel cs g0 = some r ∧ cells_post size g0 cs r := by
  induction cs with
  | nil =>
    intro g0 hok
    exact ⟨(g0, []), rfl, cells_post_nil size g0 hok⟩
  | cons c rest ih =>
    intro g0 hok
    have hc := hin c (List.mem_cons_self _ _)
    have hin1 : ∀ e ∈ rest, in_grid size e := fun e he => hin e (List.mem_cons_of_mem _ he)
    have ih1 := ih hin1
    rw [show c = (c.1, c.2) from rfl, spread_cells_log]
    change ∃ r, (if val g0 c = 10 then
      match spread_recursive_log size fuel g0 c.1 c.2 with
      | none => none
      | some r1 =>
        match spread_cells_log size fuel rest r1.1 with
        | none => none
        | some r2 => some (r2.1, r1.2 ++ r2.2)
      else spread_cells_log size fuel rest g0) = some r ∧ cells_post size g0 (c :: rest) r
    by_cases hv : val g0 c = 10
    · rw [if_pos hv]
      have hd : depth_needed size g0 c ≤ fuel := by
        unfold depth_needed
        have := unflashed_lt_sq size g0 c hc (by omega)
        split_ifs <;> omega
      obtain ⟨r1, hr1, hp1⟩ := spread_recursive_log_spec size hs fuel g0 c hok hc (by omega) hd
      rw [hr1]
      obtain ⟨r2, hr2, hp2⟩ := ih1 r1.1 hp1.1
      simp only []
      rw [hr2]
      exact ⟨_, rfl, cells_post_step size g0 c rest r1 r2 hin1 hv hp1 hp2⟩
    · rw [if_neg hv]
      obtain ⟨r2, hr2, hp2⟩ := ih1 g0 hok
      exact ⟨r2, hr2, cells_post_skip size g0 c rest r2 hv hp2⟩

end Day11

namespace Day11

/-! ## The functions `increment` and `flash` -/

theorem list_eq_map_range (l : List Nat) :
    l = (List.range l.length).map (fun i => l.getD i 0) := by
  apply List.ext_getElem
  · simp
  · intro n h1 h2
    rw [List.getElem_map, List.getElem_range, List.getD_eq_getElem _ _ h1]

theorem val_map (size : Nat) (g : grid_t) (hok : grid_ok size g) (f : Nat → Nat)
    (c : Nat × Nat) (hc : in_grid size c) :
    val (g.map (fun row => row.map f)) c = f (val g c) := by
  obtain ⟨hlen, hrows⟩ := hok
  have hil : c.1 < g.length := by
    rw [hlen]
    exact hc.1
  have hrow : (g.getD c.1 []).length = size := by
    rw [List.getD_eq_getElem _ _ hil]
    exact hrows _ (List.getElem_mem _)
  unfold val grid_get
  have e1 : (g.map (fun row => row.map f)).getD c.1 [] = (g.getD c.1 []).map f := by
    have := List.getD_map (l := g) (n := c.1) (d := []) (fun row => List.map f row)
    simpa using this
  have hj : c.2 < (g.getD c.1 []).length := by
    rw [hrow]
    exact hc.2
  rw [e1, List.getD_eq_getElem _ _ (by rw [List.length_map]; exact hj), List.getElem_map]
  congr 1
  exact (List.getD_eq_getElem _ _ hj).symm

theorem grid_ok_map (size : Nat) (g : grid_t) (hok : grid_ok size g) (f : Nat → Nat) :
    grid_ok size (g.map (fun row => row.map f)) := by
  obtain ⟨hlen, hrows⟩ := hok
  refine ⟨by rw [List.length_map]; exact hlen, fun row hrow => ?_⟩
  obtain ⟨r0, hr0, rfl⟩ := List.mem_map.mp hrow
  rw [List.length_map]
  exact hrows r0 hr0

theorem flash_row_fst (row : List Nat) :
    ∀ sum, (flash_row row sum).1 = row.map (fun v => if v > 9 then 0 else v) := by
  induction row with
  | nil =>
    intro sum
    rfl
  | cons v rest ih =>
    intro sum
    rw [flash_row]
    by_cases hv : v > 9
    · rw [if_pos hv, List.map_cons, if_pos hv, ih]
    · rw [if_neg hv, List.map_cons, if_neg hv, ih]

theorem flash_row_snd (row : List Nat) :
    ∀ sum, sum + row.length < SIZE_MOD →
      (flash_row row sum).2 = sum + row.countP (fun v => decide (v > 9)) := by
  induction row with
  | nil =>
    intro sum _
    rfl
  | cons v rest ih =>
    intro sum hsum
    rw [List.length_cons] at hsum
    rw [flash_row, List.countP_cons]
    by_cases hv : v > 9
    · rw [if_pos hv, add64_of_lt (by omega), ih _ (by omega)]
      simp only [decide_eq_true hv, if_true]
      omega
    · rw [if_neg hv, ih _ (by omega)]
      simp only [decide_eq_false hv]
      simp

theorem flash_rows_fst (rows : List (List Nat)) :
    ∀ sum, (flash_rows rows sum).1 =
      rows.map (fun row => row.map (fun v => if v > 9 then 0 else v)) := by
  induction rows with
  | nil =>
    intro sum
    rfl
  | cons row rest ih =>
    intro sum
    rw [flash_rows, List.map_cons, flash_row_fst, ih]

theorem flash_rows_snd (rows : List (List Nat)) :
    ∀ sum, sum + (rows.map List.length).sum < SIZE_MOD →
      (flash_rows rows sum).2 =
        sum + (rows.map (fun row => row.countP (fun v => decide (v > 9)))).sum := by
  induction rows with
  | nil =>
    intro sum _
    rfl
  | cons row rest ih =>
    intro sum hsum
    rw [List.map_cons, List.sum_cons] at hsum
    have hle := List.countP_le_length (fun v => decide (v > 9)) (l := row)
    rw [flash_rows, List.map_cons, List.sum_cons, flash_row_snd row sum (by omega),
      ih _ (by omega)]
    omega

theorem sum_lengths (size : Nat) (g : grid_t) (hok : grid_ok size g) :
    (g.map List.length).sum = size * size := by
  obtain ⟨hlen, hrows⟩ := hok
  have h : g.map List.length = List.replicate g.length size := by
    apply List.eq_replicate_iff.mpr
    refine ⟨by rw [List.length_map], fun b hb => ?_⟩
    obtain ⟨row, hrow, rfl⟩ := List.mem_map.mp hb
    exact hrows row hrow
  rw [h, List.sum_replicate, hlen]
  rfl

/-- The number of values of the rows that satisfy `p` is the number of cells of
the grid whose value satisfies `p`. -/
theorem count_rows (size : Nat) (g : grid_t) (hok : grid_ok size g) (p : Nat → Bool) :
    (g.map (fun row => row.countP p)).sum = (cells size).countP (fun c => p (val g c)) := by
  obtain ⟨hlen, hrows⟩ := hok
  have h1 : g.map (fun row => row.countP p) =
      (List.range size).map (fun i => (List.range size).countP (fun j => p (grid_get g i j))) := by
    apply List.ext_getElem
    · simp [hlen]
    · intro n hn1 hn2
      rw [List.length_map] at hn1
      rw [List.getElem_map, List.getElem_map, List.getElem_range]
      have hr : g[n].length = size := hrows _ (List.getElem_mem _)
      have e := list_eq_map_range g[n]
      rw [hr] at e
      conv_lhs => rw [e]
      rw [List.countP_map]
      congr 1
      funext j
      simp only [Function.comp, grid_get, List.getD_eq_getElem g [] hn1]
  rw [h1]
  unfold cells
  rw [List.flatMap_def, List.countP_flatten, List.map_map]
  congr 1
  apply List.map_congr_left
  intro i _
  simp only [Function.comp, List.countP_map]
  rfl

end Day11

namespace Day11

/-! ## The set of flashing cells of one step -/

theorem neighbours_in_eq_nb_count (size : Nat) (cs : List (Nat × Nat)) (hn : cs.Nodup)
    (hin : ∀ d ∈ cs, in_grid size d) (F : Nat × Nat → Bool)
    (hF : ∀ x, in_grid size x → (F x = true ↔ x ∈ cs)) (e : Nat × Nat) :
    neighbours_in size F e = nb_count cs e := by
  unfold neighbours_in neighbours nb_count
  rw [List.countP_eq_length_filter]
  apply List.Perm.length_eq
  rw [List.perm_ext_iff_of_nodup
    (List.Nodup.filter _ (List.Nodup.filter _ (nodup_cells size))) (List.Nodup.filter _ hn)]
  intro x
  simp only [List.mem_filter, mem_cells, decide_eq_true_eq]
  constructor
  · rintro ⟨⟨h1, h2⟩, h3⟩
    exact ⟨(hF x h1).mp h3, h2⟩
  · rintro ⟨h1, h2⟩
    exact ⟨⟨hin x h1, h2⟩, (hF x (hin x h1)).mpr h1⟩

theorem neighbours_in_congr (size : Nat) (F G : Nat × Nat → Bool)
    (h : ∀ x, in_grid size x → F x = G x) (e : Nat × Nat) :
    neighbours_in size F e = neighbours_in size G e := by
  unfold neighbours_in
  congr 1
  apply List.filter_congr
  intro x hx
  unfold neighbours at hx
  exact h x ((mem_cells size x).mp (List.mem_filter.mp hx).1)

theorem card_in_congr (size : Nat) (F G : Nat × Nat → Bool)
    (h : ∀ x, in_grid size x → F x = G x) : card_in size F = card_in size G := by
  unfold card_in
  congr 1
  apply List.filter_congr
  intro x hx
  exact h x ((mem_cells size x).mp hx)

/-- Every cell of a justified list is in every set closed under the flash
rule. -/
theorem justified_subset (size : Nat) (w : Nat × Nat → Nat) (G : Nat × Nat → Bool)
    (hclosed : ∀ c, in_grid size c → 10 ≤ w c + neighbours_in size G c → G c = true)
    (cs : List (Nat × Nat)) :
    ∀ s, justified w s cs → (s ++ cs).Nodup → (∀ d ∈ s ++ cs, in_grid size d) →
      (∀ d ∈ s, G d = true) → ∀ d ∈ cs, G d = true := by
  induction cs with
  | nil =>
    intro _ _ _ _ _ d hd
    exact absurd hd (List.not_mem_nil _)
  | cons d0 rest ih =>
    intro s hj hn hin hs d hd
    obtain ⟨h1, h2⟩ := hj
    have hd0 : G d0 = true := by
      apply hclosed d0 (hin d0 (List.mem_append_right _ (List.mem_cons_self _ _)))
      have hle : nb_count s d0 ≤ neighbours_in size G d0 := by
        unfold nb_count neighbours_in neighbours
        rw [List.countP_eq_length_filter]
        apply List.Subperm.length_le
        apply List.Nodup.subperm (List.Nodup.filter _ (List.nodup_append.mp hn).1)
        intro x hx
        rw [List.mem_filter] at hx
        simp only [List.mem_filter, mem_cells]
        exact ⟨⟨hin x (List.mem_append_left _ hx.1), hx.2⟩, hs x hx.1⟩
      omega
    rcases List.mem_cons.mp hd with hd | hd
    · rw [hd]
      exact hd0
    · refine ih (s ++ [d0]) h2 (by rw [List.append_assoc]; exact hn)
        (by rw [List.append_assoc]; exact hin) (fun x hx => ?_) d hd
      rcases List.mem_append.mp hx with hx | hx
      · exact hs x hx
      · rw [List.mem_singleton.mp hx]
        exact hd0

theorem grid_ext (size : Nat) (g h : grid_t) (hg : grid_ok size g) (hh : grid_ok size h)
    (hv : ∀ c, in_grid size c → val g c = val h c) : g = h := by
  obtain ⟨g1, g2⟩ := hg
  obtain ⟨h1, h2⟩ := hh
  apply List.ext_getElem (by rw [g1, h1])
  intro i hi1 hi2
  have hr1 : g[i].length = size := g2 _ (List.getElem_mem _)
  have hr2 : h[i].length = size := h2 _ (List.getElem_mem _)
  apply List.ext_getElem (by rw [hr1, hr2])
  intro j hj1 hj2
  have := hv (i, j) ⟨by omega, by omega⟩
  unfold val grid_get at this
  simp only at this
  rw [List.getD_eq_getElem g [] hi1, List.getD_eq_getElem h [] hi2,
    List.getD_eq_getElem _ _ hj1, List.getD_eq_getElem _ _ hj2] at this
  exact this

/-- The outcome of a step is determined by the values of the grid. -/
theorem step_outcome_unique (size : Nat) (v : Nat × Nat → Nat) (r1 r2 : grid_t × Nat)
    (h1 : step_outcome size v r1) (h2 : step_outcome size v r2) : r1 = r2 := by
  obtain ⟨a1, ⟨a2, a3⟩, a4, a5⟩ := h1
  obtain ⟨b1, ⟨b2, b3⟩, b4, b5⟩ := h2
  have hclosed : ∀ (F : Nat × Nat → Bool), flash_fixed size v F → flash_closed size v F :=
    fun F hF c hc h => (hF c hc).mpr h
  have hagree : ∀ x, in_grid size x →
      (fun c => decide (val r1.1 c = 0)) x = (fun c => decide (val r2.1 c = 0)) x :=
    fun x hx => Bool.eq_iff_iff.mpr
      ⟨fun h => a3 _ (hclosed _ b2) x hx h, fun h => b3 _ (hclosed _ a2) x hx h⟩
  have hgrid : r1.1 = r2.1 := by
    apply grid_ext size _ _ a1 b1
    intro c hc
    have hc1 := hagree c hc
    beta_reduce at hc1
    by_cases h0 : val r1.1 c = 0
    · rw [decide_eq_true h0] at hc1
      rw [h0]
      exact (of_decide_eq_true hc1.symm).symm
    · rw [decide_eq_false h0] at hc1
      have h0b : val r2.1 c ≠ 0 := of_decide_eq_false hc1.symm
      rw [(a4 c hc h0).1, (b4 c hc h0b).1, neighbours_in_congr size _ _ hagree c]
  have hcount : r1.2 = r2.2 := by
    rw [a5, b5]
    exact card_in_congr size _ _ hagree
  exact Prod.ext hgrid hcount

end Day11

namespace Day11

/-- One step on a grid with cells in `0..9` returns the outcome described by
the least set closed under the flash rule. -/
theorem day_step_spec (size : Nat) (grid : grid_t) (fuel : Nat) (hs : size * size < SIZE_MOD)
    (hok : grid_ok size grid) (hcells : ∀ c, in_grid size c → val grid c ≤ 9)
    (hfuel : size * size ≤ fuel) :
    ∃ r, day_step size fuel grid = some r ∧ step_outcome size (val grid) r := by
  have hs1 : size < SIZE_MOD := lt_of_le_of_lt (Nat.le_mul_self size) hs
  have hok0 : grid_ok size (increment grid) := grid_ok_map size grid hok _
  have hv0 : ∀ c, in_grid size c → val (increment grid) c = val grid c + 1 := by
    intro c hc
    unfold increment
    rw [val_map size grid hok _ c hc, add64_of_lt]
    have := hcells c hc
    unfold SIZE_MOD
    omega
  obtain ⟨r, hr, hp⟩ := spread_cells_log_spec size hs1 fuel hfuel (cells size)
    (fun c hc => (mem_cells size c).mp hc) (increment grid) hok0
  have hspread : spread size fuel (increment grid) = some r.1 := by
    rw [← spread_log_fst]
    unfold spread_log
    rw [hr]
    rfl
  refine ⟨flash r.1, ?_, ?_⟩
  · unfold day_step
    rw [hspread]
    rfl
  obtain ⟨p1, p2, p3, p4, p5, p6⟩ := hp
  generalize increment grid = g0 at hv0 p3 p4 p5 p6
  have hfin : ∀ c, in_grid size c →
      val (flash r.1).1 c = if val r.1 c > 9 then 0 else val r.1 c := by
    intro c hc
    unfold flash
    rw [flash_rows_fst, val_map size r.1 p1 _ c hc]
  have hnL : ∀ c, in_grid size c → c ∉ r.2 →
      val r.1 c = val grid c + 1 + nb_count r.2 c ∧ val r.1 c ≤ 9 := by
    intro c hc hcn
    have h1 := hv0 c hc
    have h2 := hcells c hc
    have h9 : val g0 c ≤ 9 := by
      by_contra h
      exact hcn (p4 c ((mem_cells size c).mpr hc) (by omega))
    have := (p5 c hc hcn).2 h9
    rw [h1] at this
    exact this
  have hF : ∀ x, in_grid size x →
      ((fun c => decide (val (flash r.1).1 c = 0)) x = true ↔ x ∈ r.2) := by
    intro x hx
    beta_reduce
    rw [decide_eq_true_eq, hfin x hx]
    constructor
    · intro h
      by_contra hxn
      obtain ⟨e1, e2⟩ := hnL x hx hxn
      rw [if_neg (by omega)] at h
      omega
    · intro h
      rw [(p3 x h).2.2]
      rfl
  have hcount : ∀ e, neighbours_in size (fun c => decide (val (flash r.1).1 c = 0)) e =
      nb_count r.2 e :=
    neighbours_in_eq_nb_count size r.2 p2 (fun d hd => (p3 d hd).1) _ hF
  have hokf : grid_ok size (flash r.1).1 := by
    unfold flash
    rw [flash_rows_fst]
    exact grid_ok_map size r.1 p1 _
  refine ⟨hokf, ⟨?_, ?_⟩, ?_, ?_⟩
  · intro c hc
    rw [hF c hc, hcount c]
    constructor
    · intro hm
      obtain ⟨l1, l2, e, hj⟩ := justified_mem _ _ [] p6 c hm
      rw [List.nil_append, hv0 c hc] at hj
      have : nb_count l1 c ≤ nb_count r.2 c := by
        rw [e, nb_count_append]
        omega
      omega
    · intro h
      by_contra hcn
      have := hnL c hc hcn
      omega
  · intro G hG c hc hFc
    have hm := (hF c hc).mp hFc
    refine justified_subset size (val g0) G (fun d hd h => hG d hd ?_) r.2 [] p6
      (by rw [List.nil_append]; exact p2)
      (fun d hd => by rw [List.nil_append] at hd; exact (p3 d hd).1)
      (fun d hd => absurd hd (List.not_mem_nil _)) c hm
    rw [hv0 d hd] at h
    omega
  · intro c hc h0
    have hcn : c ∉ r.2 := fun hm => h0 (of_decide_eq_true ((hF c hc).mpr hm))
    obtain ⟨e1, e2⟩ := hnL c hc hcn
    rw [hfin c hc, if_neg (by omega), hcount c]
    exact ⟨e1, e2⟩
  · show (flash r.1).2 = card_in size (fun c => decide (val (flash r.1).1 c = 0))
    have hsum : 0 + (r.1.map List.length).sum < SIZE_MOD := by
      rw [sum_lengths size r.1 p1]
      omega
    unfold flash
    rw [flash_rows_snd r.1 0 hsum, Nat.zero_add,
      count_rows size r.1 p1 (fun v => decide (v > 9))]
    unfold card_in
    rw [← List.countP_eq_length_filter]
    apply List.countP_congr
    intro x hx
    have hxg := (mem_cells size x).mp hx
    have h1 := hF x hxg
    unfold flash at h1
    rw [h1, decide_eq_true_eq]
    constructor
    · intro h
      by_contra hxn
      have := hnL x hxg hxn
      omega
    · intro h
      rw [(p3 x h).2.2]
      omega

end Day11

namespace Day06

/-! ## Reading the timers -/

theorem digit_toNat {t : Nat} (ht : t ≤ 6) : (digit t).toNat = 48 + t := by
  interval_cases t <;> rfl

theorem str_to_int_digit (t : Nat) (ht : t ≤ 6) (rest : List Char)
    (hrest : rest = [] ∨ ∃ r, rest = ',' :: r) :
    str_to_int (digit t :: rest) = (t, rest) := by
  have hd := digit_toNat ht
  have hv : add64 (mul64 0 10) (int_to_size (((digit t).toNat : Int) - 48)) = t := by
    rw [hd]
    unfold add64 mul64 int_to_size SIZE_MOD
    omega
  unfold str_to_int
  rw [str_to_int_loop, if_pos (by omega), hv]
  rcases hrest with h | ⟨r, h⟩
  · subst h
    rfl
  · subst h
    rw [str_to_int_loop, if_neg (by decide)]

theorem digit_not_nul (t : Nat) (ht : t ≤ 6) (rest : List Char) :
    ¬ (cstr_at (digit t :: rest) 0).toNat = 0 := by
  have hd := digit_toNat ht
  show ¬ (digit t).toNat = 0
  omega

theorem timers_str_shape (timers : List Nat) :
    timers_str timers = [] ∨ ∃ t rest, timers_str timers = digit t :: rest := by
  cases timers with
  | nil => exact Or.inl rfl
  | cons t rest =>
    cases rest with
    | nil => exact Or.inr ⟨t, [], rfl⟩
    | cons u rest => exact Or.inr ⟨t, _, rfl⟩

/-- The first loop of `simulate` on a comma-separated list of timers in `0..6`
adds one to the entry of every timer. -/
theorem read_timers_str (timers : List Nat) :
    ∀ fuel lanternfish, (∀ t ∈ timers, t ≤ 6) → timers.length + 1 ≤ fuel →
      read_timers fuel (timers_str timers) lanternfish =
        some (timers.foldl (fun a t => add_at a t 1) lanternfish) := by
  induction timers with
  | nil =>
    intro fuel lanternfish _ hf
    obtain ⟨n, rfl⟩ : ∃ n, fuel = n + 1 := ⟨fuel - 1, by simp at hf; omega⟩
    rfl
  | cons t rest ih =>
    intro fuel lanternfish ht hf
    rw [List.length_cons] at hf
    obtain ⟨n, rfl⟩ : ∃ n, fuel = n + 1 := ⟨fuel - 1, by omega⟩
    have ht6 := ht t (List.mem_cons_self _ _)
    have hrest : ∀ u ∈ rest, u ≤ 6 := fun u hu => ht u (List.mem_cons_of_mem _ hu)
    cases rest with
    | nil =>
      rw [timers_str, read_timers, if_neg (digit_not_nul t ht6 []),
        str_to_int_digit t ht6 [] (Or.inl rfl)]
      have h := ih n (add_at lanternfish t 1) hrest (by simp at hf ⊢; omega)
      rw [timers_str] at h
      dsimp only
      rw [if_neg (show ¬ cstr_at ([] : List Char) 0 = ',' by decide)]
      exact h
    | cons u rest =>
      rw [timers_str, read_timers, if_neg (digit_not_nul t ht6 _),
        str_to_int_digit t ht6 _ (Or.inr ⟨_, rfl⟩)]
      have h := ih n (add_at lanternfish t 1) hrest (by omega)
      dsimp only
      rw [if_pos (show cstr_at (',' :: timers_str (u :: rest)) 0 = ',' from rfl)]
      exact h

theorem read_fold_length (timers : List Nat) :
    ∀ a : List Nat, (timers.foldl (fun a t => add_at a t 1) a).length = a.length := by
  induction timers with
  | nil =>
    intro a
    rfl
  | cons t rest ih =>
    intro a
    rw [List.foldl_cons, ih, length_add_at]

theorem read_fold_count (timers : List Nat) :
    ∀ (a : List Nat) (k : Nat), (∀ t ∈ timers, t < a.length) →
      zget (timers.foldl (fun a t => add_at a t 1) a) k = zget a k + (timers.count k : Nat) := by
  induction timers with
  | nil =>
    intro a k _
    simp
  | cons t rest ih =>
    intro a k ht
    rw [List.foldl_cons, ih _ k (fun u hu => by
      rw [length_add_at]
      exact ht u (List.mem_cons_of_mem _ hu)),
      zget_add_at a t 1 k (ht t (List.mem_cons_self _ _)), List.count_cons]
    by_cases hk : k = t
    · subst hk
      simp only [beq_self_eq_true, if_true]
      push_cast
      ring
    · have hne : (t == k) = false := by
        rw [beq_eq_false_iff_ne]
        exact fun h => hk h.symm
      simp only [if_neg hk, hne]
      push_cast
      ring

/-! ## The naive process -/

theorem naive_day_le (fish : List Nat) (h : ∀ x ∈ fish, x ≤ 8) : ∀ x ∈ naive_day fish, x ≤ 8 := by
  intro x hx
  unfold naive_day at hx
  rw [List.mem_flatMap] at hx
  obtain ⟨t, ht, hxt⟩ := hx
  have := h t ht
  split_ifs at hxt with h0
  · simp at hxt
    omega
  · simp at hxt
    omega

theorem naive_day_cons (x : Nat) (fish : List Nat) :
    naive_day (x :: fish) = (if x = 0 then [6, 8] else [x - 1]) ++ naive_day fish := by
  unfold naive_day
  rw [List.flatMap_cons]

/-- The number of fish with each timer after one day of the naive process. -/
theorem naive_day_count (fish : List Nat) (h : ∀ x ∈ fish, x ≤ 8) :
    (∀ t, t < 6 → (naive_day fish).count t = fish.count (t + 1)) ∧
    (naive_day fish).count 6 = fish.count 0 + fish.count 7 ∧
    (naive_day fish).count 7 = fish.count 8 ∧
    (naive_day fish).count 8 = fish.count 0 := by
  induction fish with
  | nil =>
    refine ⟨fun t _ => ?_, ?_, ?_, ?_⟩ <;> rfl
  | cons x rest ih =>
    obtain ⟨i1, i2, i3, i4⟩ := ih (fun y hy => h y (List.mem_cons_of_mem _ hy))
    have hx := h x (List.mem_cons_self _ _)
    rw [naive_day_cons]
    refine ⟨fun t ht => ?_, ?_, ?_, ?_⟩
    · rw [List.count_append, i1 t ht, List.count_cons]
      interval_cases x <;> interval_cases t <;> simp <;> omega
    · rw [List.count_append, i2, List.count_cons, List.count_cons]
      interval_cases x <;> simp <;> omega
    · rw [List.count_append, i3, List.count_cons]
      interval_cases x <;> first | (simp; done) | (simp; omega)
    · rw [List.count_append, i4, List.count_cons]
      interval_cases x <;> first | (simp; done) | (simp; omega)

theorem length_eq_counts (fish : List Nat) (h : ∀ x ∈ fish, x ≤ 8) :
    fish.length = fish.count 0 + fish.count 1 + fish.count 2 + fish.count 3 + fish.count 4 +
      fish.count 5 + fish.count 6 + fish.count 7 + fish.count 8 := by
  induction fish with
  | nil => rfl
  | cons x rest ih =>
    have hx := h x (List.mem_cons_self _ _)
    have := ih (fun y hy => h y (List.mem_cons_of_mem _ hy))
    simp only [List.length_cons, List.count_cons]
    interval_cases x <;> simp <;> omega

end Day06

namespace Day06

/-! ## The ring buffer against the naive process -/

theorem list_length_two {l : List Nat} (h : l.length = 2) : ∃ b0 b1, l = [b0, b1] := by
  rcases l with _ | ⟨b0, _ | ⟨b1, _ | ⟨b2, l⟩⟩⟩
  · simp at h
  · simp at h
  · exact ⟨b0, b1, rfl⟩
  · simp at h

theorem list_length_seven {l : List Nat} (h : l.length = 7) :
    ∃ a0 a1 a2 a3 a4 a5 a6, l = [a0, a1, a2, a3, a4, a5, a6] := by
  rcases l with _ | ⟨a0, _ | ⟨a1, _ | ⟨a2, _ | ⟨a3, _ | ⟨a4, _ | ⟨a5, _ | ⟨a6, _ | ⟨a7, l⟩⟩⟩⟩⟩⟩⟩⟩
  all_goals first
    | exact ⟨a0, a1, a2, a3, a4, a5, a6, rfl⟩
    | (simp at h)

/-- The state of the ring buffer is well formed: seven ring entries, two queue
entries and an offset below 7. -/
theorem day_shape (s : ring_t) (h7 : s.lanternfish.length = 7)
    (h2 : s.newlanternfish.length = 2) :
    (day s).lanternfish.length = 7 ∧ (day s).newlanternfish.length = 2 ∧ (day s).offset < 7 := by
  unfold day
  refine ⟨?_, ?_, ?_⟩
  · rw [length_add_at]
    exact h7
  · rw [List.length_set, List.length_set]
    exact h2
  · exact Nat.mod_lt _ (by decide)

/-- One day of the ring buffer moves the counts as one day of the naive process
does. -/
theorem day_count (s : ring_t) (h7 : s.lanternfish.length = 7)
    (h2 : s.newlanternfish.length = 2) (ho : s.offset < 7) :
    (∀ t, t < 6 → ring_count (day s) t = ring_count s (t + 1)) ∧
    ((ring_count (day s) 6 : Nat) : ZMod SIZE_MOD) = ring_count s 0 + ring_count s 7 ∧
    ring_count (day s) 7 = ring_count s 8 ∧
    ring_count (day s) 8 = ring_count s 0 := by
  obtain ⟨fish, new, offset⟩ := s
  simp only at h7 h2 ho
  obtain ⟨a0, a1, a2, a3, a4, a5, a6, rfl⟩ := list_length_seven h7
  obtain ⟨b0, b1, rfl⟩ := list_length_two h2
  refine ⟨fun t ht => ?_, ?_, ?_, ?_⟩
  · interval_cases offset <;> interval_cases t <;>
      simp [day, ring_count, add_at, add64, SIZE_MOD]
  · interval_cases offset <;> simp [day, ring_count, add_at] <;> exact cast_add64 _ _
  · interval_cases offset <;> simp [day, ring_count]
  · interval_cases offset <;> simp [day, ring_count, add64, SIZE_MOD]

/-- The value returned by `simulate` for a state of the ring buffer is the sum
of its nine counts, modulo `2 ^ 64`. -/
theorem total_count (s : ring_t) (h7 : s.lanternfish.length = 7)
    (h2 : s.newlanternfish.length = 2) (ho : s.offset < 7) :
    ((total s : Nat) : ZMod SIZE_MOD) =
      ring_count s 0 + ring_count s 1 + ring_count s 2 + ring_count s 3 + ring_count s 4 +
        ring_count s 5 + ring_count s 6 + ring_count s 7 + ring_count s 8 ∧
    total s < SIZE_MOD := by
  obtain ⟨fish, new, offset⟩ := s
  simp only at h7 h2 ho
  obtain ⟨a0, a1, a2, a3, a4, a5, a6, rfl⟩ := list_length_seven h7
  obtain ⟨b0, b1, rfl⟩ := list_length_two h2
  constructor
  · simp only [total, List.foldl_cons, List.foldl_nil, cast_add64]
    interval_cases offset <;> simp [ring_count] <;> ring
  · simp only [total, List.foldl_cons, List.foldl_nil]
    exact add64_lt _ _

end Day06

namespace Day06

/-- After any number of days the value of `simulate` is the number of fish of
the naive process, modulo `2 ^ 64`. -/
theorem days_count (n : Nat) :
    ∀ (s : ring_t) (fish : List Nat), s.lanternfish.length = 7 → s.newlanternfish.length = 2 →
      s.offset < 7 → (∀ x ∈ fish, x ≤ 8) →
      (∀ t, t ≤ 8 → ((ring_count s t : Nat) : ZMod SIZE_MOD) = ((fish.count t : Nat) : ZMod SIZE_MOD)) →
      ((total (days n s) : Nat) : ZMod SIZE_MOD) = (((naive n fish).length : Nat) : ZMod SIZE_MOD) ∧
        total (days n s) < SIZE_MOD := by
  induction n with
  | zero =>
    intro s fish h7 h2 ho hf hc
    obtain ⟨e, hlt⟩ := total_count s h7 h2 ho
    refine ⟨?_, hlt⟩
    show ((total s : Nat) : ZMod SIZE_MOD) = ((fish.length : Nat) : ZMod SIZE_MOD)
    rw [e, length_eq_counts fish hf, hc 0 (by omega), hc 1 (by omega), hc 2 (by omega),
      hc 3 (by omega), hc 4 (by omega), hc 5 (by omega), hc 6 (by omega), hc 7 (by omega),
      hc 8 (by omega)]
    push_cast
    rfl
  | succ n ih =>
    intro s fish h7 h2 ho hf hc
    obtain ⟨s7, s2, so⟩ := day_shape s h7 h2
    obtain ⟨d1, d2, d3, d4⟩ := day_count s h7 h2 ho
    obtain ⟨c1, c2, c3, c4⟩ := naive_day_count fish hf
    refine ih (day s) (naive_day fish) s7 s2 so (naive_day_le fish hf) (fun t ht => ?_)
    by_cases h6 : t < 6
    · rw [d1 t h6, c1 t h6]
      exact hc (t + 1) (by omega)
    · have ht3 : t = 6 ∨ t = 7 ∨ t = 8 := by omega
      rcases ht3 with rfl | rfl | rfl
      · rw [d2, c2, hc 0 (by omega), hc 7 (by omega)]
        push_cast
        rfl
      · rw [d3, c3]
        exact hc 8 (by omega)
      · rw [d4, c4]
        exact hc 0 (by omega)

/-- The counts of the ring buffer after the timers are read. -/
theorem read_count (timers : List Nat) (ht : ∀ t ∈ timers, t ≤ 6) (t : Nat) (h8 : t ≤ 8) :
    ((ring_count
      { lanternfish := timers.foldl (fun a t => add_at a t 1) (List.replicate 7 0),
        newlanternfish := List.replicate 2 0, offset := 0 } t : Nat) : ZMod SIZE_MOD) =
      ((timers.count t : Nat) : ZMod SIZE_MOD) := by
  unfold ring_count
  by_cases h7 : t < 7
  · rw [if_pos h7]
    have hm : (0 + t) % 7 = t := by omega
    simp only [hm]
    have h := read_fold_count timers (List.replicate 7 0) t (fun u hu => by
      rw [List.length_replicate]
      have := ht u hu
      omega)
    unfold zget at h
    rw [h]
    have h0 : (List.replicate 7 0).getD t 0 = 0 := by
      interval_cases t <;> rfl
    rw [h0]
    simp
  · rw [if_neg h7]
    have h0 : (List.replicate 2 0).getD (t - 7) 0 = 0 := by
      have : t = 7 ∨ t = 8 := by omega
      rcases this with rfl | rfl <;> rfl
    have hc : timers.count t = 0 := by
      apply List.count_eq_zero.mpr
      intro hm
      have := ht t hm
      omega
    simp only [h0, hc]

end Day06

/-! ## Day 14: the properties of the specification -/

namespace Day14

/-- C1 (end-to-end example): for the template `"NNCB"` with the 16 rules of
`input_example`, `run` with 10 generations returns 1588 and `run` with 40
generations returns 2188189693529. -/
theorem run_input_example :
    run 10 input_example = 1588 ∧ run 40 input_example = 2188189693529 := by
  rw [run_example_untbl, run_example_untbl]
  decide!

/-- C4, as the code behaves: for every model and every rule list whose inserted
symbols are codes below `ALPHABET`, if the sum of the single counts plus the
pre-step pair counts of the rules' keys is below `2 ^ 64`, then the single
counts of `search_and_replace` sum to the single counts of the model plus the
sum, over the rules, of the pre-step pair count of each rule's key. -/
theorem ones_sum_step (polymer : polymer_t) (rules : List rule_t)
    (hlen : polymer.ones.length = ALPHABET) (hr : ∀ r ∈ rules, r.result < ALPHABET)
    (hs : polymer.ones.sum +
      (rules.map (fun r => polymer.twos.getD (pair_index r.left r.right) 0)).sum < SIZE_MOD) :
    (search_and_replace polymer rules).ones.sum =
      polymer.ones.sum +
        (rules.map (fun r => polymer.twos.getD (pair_index r.left r.right) 0)).sum :=
  foldl_apply_rule_ones_sum polymer polymer rules hlen hr hs

/-- Witness of C4: the model of `"NNCB"` and the rules of the
example. -/
theorem ones_sum_step_witness :
    (parse_polymer input_example).ones.length = ALPHABET ∧
    (∀ r ∈ parse_rules input_example, r.result < ALPHABET) ∧
    (parse_polymer input_example).ones.sum +
      ((parse_rules input_example).map (fun r =>
        (parse_polymer input_example).twos.getD (pair_index r.left r.right) 0)).sum < SIZE_MOD ∧
    (search_and_replace (parse_polymer input_example) (parse_rules input_example)).ones.sum =
      (parse_polymer input_example).ones.sum +
        ((parse_rules input_example).map (fun r =>
          (parse_polymer input_example).twos.getD (pair_index r.left r.right) 0)).sum :=
  ⟨by decide, by decide, by decide!,
   ones_sum_step (parse_polymer input_example) (parse_rules input_example)
     (by decide) (by decide) (by decide!)⟩

/-- Counterexample to C4 as stated: on the model reached from the template
`"AB"` after 63 generations of the rules `AB -> B` and `BB -> B`, one more
generation wraps the single count of `B` around to `0`; the single counts then
sum to `1`, not to the sum before plus the counts of the rules' keys. -/
theorem ones_sum_step_wraps :
    (steps [rule_t.mk 1 2 2, rule_t.mk 2 2 2] 63 (parse_polymer_str "AB".data)).ones.sum =
      9223372036854775809 ∧
    ([rule_t.mk 1 2 2, rule_t.mk 2 2 2].map (fun r =>
      (steps [rule_t.mk 1 2 2, rule_t.mk 2 2 2] 63 (parse_polymer_str "AB".data)).twos.getD
        (pair_index r.left r.right) 0)).sum = 9223372036854775808 ∧
    (search_and_replace
      (steps [rule_t.mk 1 2 2, rule_t.mk 2 2 2] 63 (parse_polymer_str "AB".data))
      [rule_t.mk 1 2 2, rule_t.mk 2 2 2]).ones.sum = 1 := by
  decide!

/-- C5 (order-independence): for every model, every rule list and every
permutation of that rule list, `search_and_replace` returns the same model
(pair counts and single counts) for the permuted list as for the original
list. -/
theorem search_and_replace_perm (polymer : polymer_t) (rules rules' : List rule_t)
    (h : rules.Perm rules') :
    search_and_replace polymer rules = search_and_replace polymer rules' :=
  List.Perm.foldl_eq' h (fun x _ y _ z => apply_rule_comm polymer z x y) polymer

/-- Witness of C5: the model of `"NNCB"` with two rules of the example that
both fire, listed in either order. -/
theorem search_and_replace_perm_witness :
    List.Perm [rule_t.mk 14 14 3, rule_t.mk 14 3 2] [rule_t.mk 14 3 2, rule_t.mk 14 14 3] ∧
    search_and_replace (parse_polymer input_example) [rule_t.mk 14 14 3, rule_t.mk 14 3 2] =
      search_and_replace (parse_polymer input_example) [rule_t.mk 14 3 2, rule_t.mk 14 14 3] :=
  ⟨List.Perm.swap _ _ _,
   search_and_replace_perm (parse_polymer input_example) _ _ (List.Perm.swap _ _ _)⟩

/-- C6 (score): for every model whose single counts are `std::size_t` values
and with at least one non-zero single count, `calculate` returns the largest
single count minus the smallest non-zero single count (zero counts, the
sentinel slot included, are ignored); in particular it returns 0 when all
non-zero counts are equal. -/
theorem calculate_max_minus_min (polymer : polymer_t)
    (hb : ∀ x ∈ polymer.ones, x < SIZE_MOD) (hne : ∃ x ∈ polymer.ones, x ≠ 0) :
    ∃ hi ∈ polymer.ones, ∃ lo ∈ polymer.ones, lo ≠ 0 ∧
      (∀ x ∈ polymer.ones, x ≤ hi) ∧ (∀ x ∈ polymer.ones, x ≠ 0 → lo ≤ x) ∧
      calculate polymer = hi - lo ∧
      ((∀ x ∈ polymer.ones, ∀ y ∈ polymer.ones, x ≠ 0 → y ≠ 0 → x = y) →
        calculate polymer = 0) := by
  obtain ⟨w, hw, hw0⟩ := hne
  obtain ⟨-, h2, h3, h4, h5, h6⟩ := calculate_fold_spec polymer.ones 0 SIZE_MAX
  have hwhi : w ≤ (polymer.ones.foldl calculate_step (0, SIZE_MAX)).1 := h2 w hw
  have hlow : (polymer.ones.foldl calculate_step (0, SIZE_MAX)).2 ≤ w := h5 w hw hw0
  have hhi : (polymer.ones.foldl calculate_step (0, SIZE_MAX)).1 ∈ polymer.ones := by
    rcases h3 with h | h
    · omega
    · exact h
  have hlo : (polymer.ones.foldl calculate_step (0, SIZE_MAX)).2 ∈ polymer.ones ∧
      (polymer.ones.foldl calculate_step (0, SIZE_MAX)).2 ≠ 0 := by
    rcases h6 with h | h
    · have hwb : w < SIZE_MOD := hb w hw
      have hweq : w = (polymer.ones.foldl calculate_step (0, SIZE_MAX)).2 := by
        rw [h] at hlow ⊢
        unfold SIZE_MAX at *
        unfold SIZE_MOD at hwb
        omega
      rw [← hweq]
      exact ⟨hw, hw0⟩
    · exact h
  have hcalc : calculate polymer = (polymer.ones.foldl calculate_step (0, SIZE_MAX)).1 -
      (polymer.ones.foldl calculate_step (0, SIZE_MAX)).2 :=
    sub64_of_le (le_trans hlow hwhi) (hb _ hhi)
  refine ⟨_, hhi, _, hlo.1, hlo.2, h2, h5, hcalc, ?_⟩
  intro hall
  rw [hcalc, hall _ hhi _ hlo.1 (by omega) hlo.2]
  exact Nat.sub_self _

/-- Witness of C6: the model of the template `"NNCB"`. -/
theorem calculate_max_minus_min_witness :
    (∀ x ∈ (parse_polymer input_example).ones, x < SIZE_MOD) ∧
    (∃ x ∈ (parse_polymer input_example).ones, x ≠ 0) ∧
    ∃ hi ∈ (parse_polymer input_example).ones, ∃ lo ∈ (parse_polymer input_example).ones,
      lo ≠ 0 ∧
      (∀ x ∈ (parse_polymer input_example).ones, x ≤ hi) ∧
      (∀ x ∈ (parse_polymer input_example).ones, x ≠ 0 → lo ≤ x) ∧
      calculate (parse_polymer input_example) = hi - lo ∧
      ((∀ x ∈ (parse_polymer input_example).ones, ∀ y ∈ (parse_polymer input_example).ones,
          x ≠ 0 → y ≠ 0 → x = y) →
        calculate (parse_polymer input_example) = 0) :=
  ⟨by decide, by decide,
   calculate_max_minus_min (parse_polymer input_example) (by decide) (by decide)⟩

/-- C7, as the code behaves: for every model in which no symbol has a non-zero
single count, `calculate` raises no error; it returns `0 - SIZE_MAX` reduced
modulo `2 ^ 64`, which is `1`. -/
theorem calculate_empty_model (polymer : polymer_t) (h : ∀ x ∈ polymer.ones, x = 0) :
    calculate polymer = 1 := by
  unfold calculate
  rw [calculate_fold_zero polymer.ones h]
  decide

/-- Witness of C7: the value-initialised model. -/
theorem calculate_empty_model_witness :
    (∀ x ∈ polymer_zero.ones, x = 0) ∧ calculate polymer_zero = 1 :=
  ⟨by decide, calculate_empty_model polymer_zero (by decide)⟩

/-- Counterexample to C7 as stated: on the value-initialised model, in which no
symbol has a non-zero single count, `calculate` returns the number `1`. -/
theorem calculate_empty_model_returns :
    (∀ k, polymer_zero.ones.getD k 0 = 0) ∧ ∃ n : Nat, calculate polymer_zero = n ∧ n = 1 := by
  refine ⟨?_, 1, by decide, rfl⟩
  intro k
  have hmem : ∀ x ∈ polymer_zero.ones, x = 0 := by decide
  by_cases hk : k < polymer_zero.ones.length
  · rw [List.getD_eq_getElem _ _ hk]
    exact hmem _ (List.getElem_mem _)
  · exact List.getD_eq_default _ _ (Nat.le_of_not_lt hk)

/-- C8, as the code behaves: `parse_rule` checks neither the separator nor the
characters.  For every line of at least seven characters it returns the rule
whose fields are `char_to_int` of the characters at positions 0, 1 and 6,
whatever stands at positions 2 to 5, and `parse_rules` returns one rule for
every line after the first two; no error is surfaced. -/
theorem parse_rule_any_line (a b c : Char) (mid tail : List Char) (hmid : mid.length = 4)
    (input : List String) :
    parse_rule (a :: b :: (mid ++ c :: tail)) =
      { left := char_to_int a, right := char_to_int b, result := char_to_int c } ∧
    (parse_rules input).length = input.length - 2 := by
  constructor
  · match mid, hmid with
    | [_, _, _, _], _ => rfl
  · simp [parse_rules]

/-- Witness of C8: the line `"CH -> B"` of the example. -/
theorem parse_rule_any_line_witness :
    [' ', '-', '>', ' '].length = 4 ∧
    parse_rule ('C' :: 'H' :: ([' ', '-', '>', ' '] ++ 'B' :: [])) =
      { left := char_to_int 'C', right := char_to_int 'H', result := char_to_int 'B' } ∧
    (parse_rules input_example).length = input_example.length - 2 :=
  ⟨rfl, parse_rule_any_line 'C' 'H' 'B' [' ', '-', '>', ' '] [] rfl input_example⟩

/-- Counterexample to C8 as stated: a line without the `->` separator and a
line with a lowercase letter in a pair position and a digit in the insert
position both produce a rule. -/
theorem parse_rule_accepts_malformed :
    parse_rule "CH xx B".data = { left := 3, right := 8, result := 2 } ∧
    parse_rule "cH -> 7".data = { left := 35, right := 8, result := 18446744073709551607 } ∧
    parse_rules ["NNCB", "", "CH xx B", "cH -> 7"] =
      [{ left := 3, right := 8, result := 2 },
       { left := 35, right := 8, result := 18446744073709551607 }] := by
  decide

theorem getD_replicate_zero (n k : Nat) : (List.replicate n 0).getD k 0 = 0 := by
  by_cases hk : k < (List.replicate n 0).length
  · rw [List.getD_eq_getElem _ _ hk]
    simp
  · exact List.getD_eq_default _ _ (Nat.le_of_not_lt hk)

/-- C9 (boundary): for every one-letter uppercase template, `parse_polymer`
yields every pair count 0, single count 1 for that letter and 0 for every
other symbol; `search_and_replace` with an empty rule list returns the model
unchanged, and so does any number of generations with no rules. -/
theorem single_letter_and_no_rules (c : Char) (hc : is_upper c) (rest : List String) :
    (parse_polymer (String.mk [c] :: rest)).twos = List.replicate (ALPHABET * ALPHABET) 0 ∧
    (parse_polymer (String.mk [c] :: rest)).ones.length = ALPHABET ∧
    (∀ k, (parse_polymer (String.mk [c] :: rest)).ones.getD k 0 =
      if k = char_to_int c then 1 else 0) ∧
    (∀ polymer : polymer_t, search_and_replace polymer [] = polymer) ∧
    (∀ (n : Nat) (polymer : polymer_t), steps [] n polymer = polymer) := by
  have hr := char_to_int_range hc
  refine ⟨rfl, ?_, ?_, fun _ => rfl, steps_nil⟩
  · show (add_at polymer_zero.ones (char_to_int c) 1).length = ALPHABET
    rw [length_add_at]
    rfl
  · intro k
    show (add_at polymer_zero.ones (char_to_int c) 1).getD k 0 = _
    have hlen : polymer_zero.ones.length = 27 := rfl
    rw [getD_add_at, hlen]
    have hz : ∀ j, polymer_zero.ones.getD j 0 = 0 := getD_replicate_zero _
    rw [hz, hz]
    by_cases hk : k = char_to_int c
    · rw [if_pos ⟨hk, by omega⟩, if_pos hk]
      rfl
    · rw [if_neg (fun h => hk h.1), if_neg hk]

/-- Witness of C9: the one-letter template `"N"`. -/
theorem single_letter_and_no_rules_witness :
    is_upper 'N' ∧
    (parse_polymer (String.mk ['N'] :: [])).twos = List.replicate (ALPHABET * ALPHABET) 0 ∧
    (parse_polymer (String.mk ['N'] :: [])).ones.length = ALPHABET ∧
    (∀ k, (parse_polymer (String.mk ['N'] :: [])).ones.getD k 0 =
      if k = char_to_int 'N' then 1 else 0) ∧
    (∀ polymer : polymer_t, search_and_replace polymer [] = polymer) ∧
    (∀ (n : Nat) (polymer : polymer_t), steps [] n polymer = polymer) :=
  ⟨by decide, single_letter_and_no_rules 'N' (by decide) []⟩

end Day14

namespace Day14

/-- Counterexample to C14 as stated: after 63 steps on the template `AB` with
the rules `AA -> A` and `AB -> A` the pair `AA` has the count `2 ^ 63 - 1`.  In
the next step the two `+=` statements of the rule `AA -> A` wrap the entry of
`AA` around, and the `-=` statement is applied to an entry smaller than the
value it subtracts. -/
theorem search_and_replace_underflows :
    (∀ r ∈ parse_rules input_doubling, rule_upper r) ∧
    distinct_keys (parse_rules input_doubling) ∧
    key_value (steps (parse_rules input_doubling) 63 (parse_polymer input_doubling))
      { left := 1, right := 1, result := 1 } = 2 ^ 63 - 1 ∧
    ¬ no_underflow (steps (parse_rules input_doubling) 63 (parse_polymer input_doubling))
      (steps (parse_rules input_doubling) 63 (parse_polymer input_doubling))
      (parse_rules input_doubling) := by
  have hp : parse_polymer input_doubling = untbl_polymer ([(29, 1)], [(1, 1), (2, 1)]) := by
    decide!
  rw [hp, steps_untbl _ (by decide)]
  refine ⟨by decide, by decide, by decide!, fun h => ?_⟩
  have h1 : sub_in_range
      (untbl_polymer (steps_tbl (parse_rules input_doubling) 63 ([(29, 1)], [(1, 1), (2, 1)])))
      (untbl_polymer (steps_tbl (parse_rules input_doubling) 63 ([(29, 1)], [(1, 1), (2, 1)])))
      { left := 1, right := 1, result := 1 } := h.1
  exact absurd h1 (by decide!)

/-- C14 (no underflow), with the bound it needs: for every model and every rule
list over codes `1..26` whose keys are pairwise distinct, in whatever order the
rules are listed, if the pair counts of the model and twice the counts of the
rule keys add up to less than `2 ^ 64`, then each subtraction
`new_polymer.twos[pattern] -= value` of `search_and_replace` is applied to an
entry that is at least `value`, and every pair count of the result is the count
of the model plus the inserted and minus the split occurrences, as natural
numbers. -/
theorem search_and_replace_no_underflow (polymer : polymer_t) (rules : List rule_t)
    (hlen : polymer.twos.length = 729) (hr : ∀ r ∈ rules, rule_upper r)
    (hd : distinct_keys rules)
    (hsum : polymer.twos.sum + 2 * (rules.map (key_value polymer)).sum < SIZE_MOD) :
    no_underflow polymer polymer rules ∧
    ∀ k, (search_and_replace polymer rules).twos.getD k 0 + pairs_removed polymer rules k =
      polymer.twos.getD k 0 + pairs_added polymer rules k :=
  no_underflow_fold polymer rules polymer hlen hr hd (fun _ _ => Nat.le_refl _)
    (fun j => by
      have := getD_le_sum polymer.twos j
      omega)

/-- Witness of C14: the example input. -/
theorem search_and_replace_no_underflow_witness :
    ((parse_polymer input_example).twos.length = 729 ∧
      (∀ r ∈ parse_rules input_example, rule_upper r) ∧
      distinct_keys (parse_rules input_example) ∧
      (parse_polymer input_example).twos.sum +
        2 * ((parse_rules input_example).map (key_value (parse_polymer input_example))).sum <
          SIZE_MOD) ∧
    (no_underflow (parse_polymer input_example) (parse_polymer input_example)
        (parse_rules input_example) ∧
      ∀ k, (search_and_replace (parse_polymer input_example)
            (parse_rules input_example)).twos.getD k 0 +
          pairs_removed (parse_polymer input_example) (parse_rules input_example) k =
        (parse_polymer input_example).twos.getD k 0 +
          pairs_added (parse_polymer input_example) (parse_rules input_example) k) :=
  ⟨⟨by decide!, by decide, by decide, by decide!⟩,
    search_and_replace_no_underflow (parse_polymer input_example) (parse_rules input_example)
      (by decide!) (by decide) (by decide) (by decide!)⟩

/-- C15 (alphabet codec): for every uppercase letter `c`, `char_to_int c` is in
`1..26`, so it is never the sentinel `0` and it is below `ALPHABET = 27`, and
distinct letters get distinct codes; for uppercase letters the pair index
`left * ALPHABET + right` is below `ALPHABET * ALPHABET`, distinct ordered pairs
get distinct indices, and the indices used by `parse_polymer` and
`search_and_replace` are inside the arrays `ones` and `twos`. -/
theorem alphabet_codec (c d e f : Char) (hc : is_upper c) (hd : is_upper d) (he : is_upper e)
    (hf : is_upper f) :
    (1 ≤ char_to_int c ∧ char_to_int c ≤ 26 ∧ char_to_int c ≠ 0 ∧ char_to_int c < ALPHABET ∧
      ALPHABET = 27) ∧
    (char_to_int c = char_to_int d → c = d) ∧
    pair_index (char_to_int c) (char_to_int d) < ALPHABET * ALPHABET ∧
    pair_index (char_to_int c) (char_to_int d) = char_to_int c * ALPHABET + char_to_int d ∧
    (pair_index (char_to_int c) (char_to_int d) = pair_index (char_to_int e) (char_to_int f) →
      c = e ∧ d = f) ∧
    char_to_int c < polymer_zero.ones.length ∧
    pair_index (char_to_int c) (char_to_int d) < polymer_zero.twos.length := by
  obtain ⟨c1, c2⟩ := char_to_int_range hc
  obtain ⟨d1, d2⟩ := char_to_int_range hd
  obtain ⟨e1, e2⟩ := char_to_int_range he
  obtain ⟨f1, f2⟩ := char_to_int_range hf
  have hlt := pair_index_lt c2 d2
  refine ⟨⟨c1, c2, by omega, ?_, rfl⟩, char_to_int_inj hc hd, ?_, ?_, ?_, ?_, ?_⟩
  · unfold ALPHABET
    omega
  · exact hlt
  · exact pair_index_eq c2 d2
  · intro h
    have := pair_index_inj c2 d2 e2 f2 h
    exact ⟨char_to_int_inj hc he this.1, char_to_int_inj hd hf this.2⟩
  · rw [polymer_zero_ones_length]
    omega
  · rw [polymer_zero_twos_length]
    exact hlt

/-- Witness of C15: the letters `N`, `C`, `B` and `H`. -/
theorem alphabet_codec_witness :
    (is_upper 'N' ∧ is_upper 'C' ∧ is_upper 'B' ∧ is_upper 'H') ∧
    ((1 ≤ char_to_int 'N' ∧ char_to_int 'N' ≤ 26 ∧ char_to_int 'N' ≠ 0 ∧
        char_to_int 'N' < ALPHABET ∧ ALPHABET = 27) ∧
      (char_to_int 'N' = char_to_int 'C' → 'N' = 'C') ∧
      pair_index (char_to_int 'N') (char_to_int 'C') < ALPHABET * ALPHABET ∧
      pair_index (char_to_int 'N') (char_to_int 'C') =
        char_to_int 'N' * ALPHABET + char_to_int 'C' ∧
      (pair_index (char_to_int 'N') (char_to_int 'C') =
          pair_index (char_to_int 'B') (char_to_int 'H') → 'N' = 'B' ∧ 'C' = 'H') ∧
      char_to_int 'N' < polymer_zero.ones.length ∧
      pair_index (char_to_int 'N') (char_to_int 'C') < polymer_zero.twos.length) :=
  ⟨by decide, alphabet_codec 'N' 'C' 'B' 'H' (by decide) (by decide) (by decide) (by decide)⟩

end Day14

/-! ## Day 12: the properties of the specification -/

namespace Day12

theorem cave_code_start : cave_code "start" = START_CODE := by decide

theorem walks_from_card (edges : List (String × String))
    (hd : no_duplicate_edges edges) (hl : ∀ e ∈ edges, e.1 ≠ e.2)
    (hb : ∀ e ∈ edges, ¬ (cave_big e.1 = true ∧ cave_big e.2 = true))
    (sc : Nat) (hsc : sc ≤ 1) (fuel fuel' : Nat)
    (h1 : depth_bound edges "start" [] sc ≤ fuel) (h2 : depth_bound edges "start" [] sc ≤ fuel') :
    (walks_from edges fuel' "start" [] sc).length =
      (walks_from edges fuel "start" [] sc).toFinset.card := by
  have hnb := neighbours_nodup edges hd hl
  rw [← List.toFinset_card_of_nodup (walks_from_nodup edges hnb fuel' "start" [] sc)]
  congr 1
  ext w
  rw [List.mem_toFinset, List.mem_toFinset,
    mem_walks_from edges hb fuel' "start" [] sc (Or.inl rfl) hsc h2,
    mem_walks_from edges hb fuel "start" [] sc (Or.inl rfl) hsc h1]

theorem depth_bound_mono (edges : List (String × String)) :
    depth_bound edges "start" [] 0 ≤ depth_bound edges "start" [] 1 := by
  unfold depth_bound
  split <;> omega

/-- C10, as the code behaves: for every edge list without duplicated edges and
without an edge from a cave to itself, over cave names of one or two same-case
letters plus `"start"` and `"end"`, in which no edge joins two big caves and
there are at most 100 small caves, `how_many_paths<0>` returns, for every
sufficient bound on the recursion depth, the number of walks from start to end
that end at the first visit of end and visit every small cave at most once,
and `how_many_paths<1>` the number of such walks in which at most one small
cave other than start and end is visited twice; both numbers are returned as
`std::size_t`, that is modulo `2 ^ 64`. -/
theorem how_many_paths_counts_walks (edges : List (String × String))
    (hv : ∀ e ∈ edges, valid_name e.1 ∧ valid_name e.2)
    (hd : no_duplicate_edges edges) (hl : ∀ e ∈ edges, e.1 ≠ e.2)
    (hb : ∀ e ∈ edges, ¬ (cave_big e.1 = true ∧ cave_big e.2 = true))
    (hs : (small_caves edges).length ≤ 100) :
    ∃ S0 S1 : Finset (List String),
      (∀ w, w ∈ S0 ↔ is_walk0 edges w) ∧ (∀ w, w ∈ S1 ↔ is_walk1 edges w) ∧
      ∃ N : Nat, ∀ fuel : Nat, N ≤ fuel →
        how_many_paths 0 fuel (edges.map edge_line) = some (S0.card % SIZE_MOD) ∧
        how_many_paths 1 fuel (edges.map edge_line) = some (S1.card % SIZE_MOD) := by
  have h01 := depth_bound_mono edges
  refine ⟨(walks_from edges (depth_bound edges "start" [] 1) "start" [] 0).toFinset,
    (walks_from edges (depth_bound edges "start" [] 1) "start" [] 1).toFinset, ?_, ?_,
    depth_bound edges "start" [] 1, ?_⟩
  · intro w
    rw [List.mem_toFinset, is_walk0_iff,
      mem_walks_from edges hb _ "start" [] 0 (Or.inl rfl) (Nat.zero_le _) h01]
  · intro w
    rw [List.mem_toFinset, is_walk1_iff,
      mem_walks_from edges hb _ "start" [] 1 (Or.inl rfl) (Nat.le_refl _) (Nat.le_refl _)]
  · intro fuel hfuel
    unfold how_many_paths
    rw [← cave_code_start]
    constructor
    · rw [traverse_eq edges hv hd hl hb hs fuel "start" [] 0 queue_zero valid_name_start
        (Or.inl rfl) (Nat.zero_le _) (fun s h => absurd h (List.not_mem_nil _)) List.nodup_nil
        queue_zero_holds (le_trans h01 hfuel),
        walks_from_card edges hd hl hb 0 (Nat.zero_le _) _ fuel h01 (le_trans h01 hfuel)]
    · rw [traverse_eq edges hv hd hl hb hs fuel "start" [] 1 queue_zero valid_name_start
        (Or.inl rfl) (Nat.le_refl _) (fun s h => absurd h (List.not_mem_nil _)) List.nodup_nil
        queue_zero_holds hfuel,
        walks_from_card edges hd hl hb 1 (Nat.le_refl _) _ fuel (Nat.le_refl _) hfuel]

/-- Witness of C10: the edges of `input_example_0`. -/
theorem how_many_paths_counts_walks_witness :
    (∀ e ∈ [("start", "A"), ("start", "b"), ("A", "c"), ("A", "b"), ("b", "d"), ("A", "end"),
        ("b", "end")], valid_name e.1 ∧ valid_name e.2) ∧
    no_duplicate_edges [("start", "A"), ("start", "b"), ("A", "c"), ("A", "b"), ("b", "d"),
      ("A", "end"), ("b", "end")] ∧
    (∀ e ∈ [("start", "A"), ("start", "b"), ("A", "c"), ("A", "b"), ("b", "d"), ("A", "end"),
        ("b", "end")], e.1 ≠ e.2) ∧
    (∀ e ∈ [("start", "A"), ("start", "b"), ("A", "c"), ("A", "b"), ("b", "d"), ("A", "end"),
        ("b", "end")], ¬ (cave_big e.1 = true ∧ cave_big e.2 = true)) ∧
    (small_caves [("start", "A"), ("start", "b"), ("A", "c"), ("A", "b"), ("b", "d"),
      ("A", "end"), ("b", "end")]).length ≤ 100 ∧
    ∃ S0 S1 : Finset (List String),
      (∀ w, w ∈ S0 ↔ is_walk0 [("start", "A"), ("start", "b"), ("A", "c"), ("A", "b"),
        ("b", "d"), ("A", "end"), ("b", "end")] w) ∧
      (∀ w, w ∈ S1 ↔ is_walk1 [("start", "A"), ("start", "b"), ("A", "c"), ("A", "b"),
        ("b", "d"), ("A", "end"), ("b", "end")] w) ∧
      ∃ N : Nat, ∀ fuel : Nat, N ≤ fuel →
        how_many_paths 0 fuel ([("start", "A"), ("start", "b"), ("A", "c"), ("A", "b"),
          ("b", "d"), ("A", "end"), ("b", "end")].map edge_line) = some (S0.card % SIZE_MOD) ∧
        how_many_paths 1 fuel ([("start", "A"), ("start", "b"), ("A", "c"), ("A", "b"),
          ("b", "d"), ("A", "end"), ("b", "end")].map edge_line) = some (S1.card % SIZE_MOD) :=
  ⟨by decide, by decide, by decide, by decide, by decide,
   how_many_paths_counts_walks _ (by decide) (by decide) (by decide) (by decide) (by decide)⟩

/-- Counterexample to C10 as stated: with the edges `start-a`, `a-a`, `a-end`
(no duplicated edge, no big cave, three small caves) there are two walks for
`how_many_paths<1>`, `start,a,end` and `start,a,a,end`, and the code returns 3:
the self-loop stands twice in the row of `a`. -/
theorem how_many_paths_self_loop :
    (∀ e ∈ [("start", "a"), ("a", "a"), ("a", "end")], valid_name e.1 ∧ valid_name e.2) ∧
    no_duplicate_edges [("start", "a"), ("a", "a"), ("a", "end")] ∧
    (∀ e ∈ [("start", "a"), ("a", "a"), ("a", "end")],
      ¬ (cave_big e.1 = true ∧ cave_big e.2 = true)) ∧
    (small_caves [("start", "a"), ("a", "a"), ("a", "end")]).length ≤ 100 ∧
    [("start", "a"), ("a", "a"), ("a", "end")].map edge_line = ["start-a", "a-a", "a-end"] ∧
    how_many_paths 1 9 ["start-a", "a-a", "a-end"] = some 3 ∧
    how_many_paths 1 100 ["start-a", "a-a", "a-end"] = some 3 ∧
    ∃ S : Finset (List String),
      (∀ w, w ∈ S ↔ is_walk1 [("start", "a"), ("a", "a"), ("a", "end")] w) ∧ S.card = 2 := by
  refine ⟨by decide, by decide, by decide, by decide, by decide, by decide!, by decide!,
    (walks_from [("start", "a"), ("a", "a"), ("a", "end")] 9 "start" [] 1).toFinset, ?_, ?_⟩
  · intro w
    rw [List.mem_toFinset, is_walk1_iff,
      mem_walks_from _ (by decide) 9 "start" [] 1 (Or.inl rfl) (Nat.le_refl _) (by decide)]
  · decide!

end Day12

namespace Day12

/-- C11 (published examples): for every bound of at least 20 on the recursion
depth, `how_many_paths<0>` and `how_many_paths<1>` return 10 and 36 on
`input_example_0`, 19 and 103 on `input_example_1`, and 226 and 3509 on
`input_example_2`. -/
theorem how_many_paths_examples (fuel : Nat) (h : 20 ≤ fuel) :
    how_many_paths 0 fuel input_example_0 = some 10 ∧
    how_many_paths 1 fuel input_example_0 = some 36 ∧
    how_many_paths 0 fuel input_example_1 = some 19 ∧
    how_many_paths 1 fuel input_example_1 = some 103 ∧
    how_many_paths 0 fuel input_example_2 = some 226 ∧
    how_many_paths 1 fuel input_example_2 = some 3509 := by
  have h1 : how_many_paths 0 20 input_example_0 = some 10 := by decide!
  have h2 : how_many_paths 1 20 input_example_0 = some 36 := by decide!
  have h3 : how_many_paths 0 20 input_example_1 = some 19 := by decide!
  have h4 : how_many_paths 1 20 input_example_1 = some 103 := by decide!
  have h5 : how_many_paths 0 20 input_example_2 = some 226 := by decide!
  have h6 : how_many_paths 1 20 input_example_2 = some 3509 := by decide!
  exact ⟨traverse_mono_le h _ _ _ _ _ h1, traverse_mono_le h _ _ _ _ _ h2,
    traverse_mono_le h _ _ _ _ _ h3, traverse_mono_le h _ _ _ _ _ h4,
    traverse_mono_le h _ _ _ _ _ h5, traverse_mono_le h _ _ _ _ _ h6⟩

/-- Witness of C11: the bound 20. -/
theorem how_many_paths_examples_witness :
    20 ≤ 20 ∧
    how_many_paths 0 20 input_example_0 = some 10 ∧
    how_many_paths 1 20 input_example_0 = some 36 ∧
    how_many_paths 0 20 input_example_1 = some 19 ∧
    how_many_paths 1 20 input_example_1 = some 103 ∧
    how_many_paths 0 20 input_example_2 = some 226 ∧
    how_many_paths 1 20 input_example_2 = some 3509 :=
  ⟨Nat.le_refl _, how_many_paths_examples 20 (Nat.le_refl _)⟩

end Day12

namespace Day12

/-- C16 (big-cave test): for every name of one or two letters of the same
case, `is_big` of its cave code is true exactly when the letters are uppercase;
`is_big` is false for the start code and for the end code. -/
theorem is_big_iff_uppercase (s : String)
    (hlen : s.data.length = 1 ∨ s.data.length = 2)
    (hcase : (∀ c ∈ s.data, is_lower_char c) ∨ (∀ c ∈ s.data, is_upper_char c)) :
    (is_big (str_to_cave_code s.data).1 = true ↔ ∀ c ∈ s.data, is_upper_char c) ∧
    is_big START_CODE = false ∧ is_big END_CODE = false := by
  have hv : valid_name s := Or.inr (Or.inr ⟨hlen, hcase⟩)
  have h := (cave_code_facts hv).2.1
  unfold cave_code at h
  refine ⟨?_, by decide, by decide⟩
  rw [h]
  unfold cave_big
  rw [List.all_eq_true]
  exact ⟨fun hall c hc => of_decide_eq_true (hall c hc), fun hall c hc => decide_eq_true (hall c hc)⟩

/-- Witness of C16: the big cave `HN`. -/
theorem is_big_iff_uppercase_witness :
    (("HN".data.length = 1 ∨ "HN".data.length = 2) ∧
      ((∀ c ∈ "HN".data, is_lower_char c) ∨ (∀ c ∈ "HN".data, is_upper_char c))) ∧
    ((is_big (str_to_cave_code "HN".data).1 = true ↔ ∀ c ∈ "HN".data, is_upper_char c) ∧
      is_big START_CODE = false ∧ is_big END_CODE = false) :=
  ⟨⟨by decide, by decide⟩, is_big_iff_uppercase "HN" (by decide) (by decide)⟩

/-- C17 (cave codes): over the names `start`, `end` and all names of one or two
letters, `str_to_cave_code` is injective, never returns the sentinel 0, returns
1 only for `start` and 2 only for `end`, and every code is below
`ALPHABET * ALPHABET = 3136`. -/
theorem str_to_cave_code_injective (s t : String) (hs : letter_name s) (ht : letter_name t) :
    ((str_to_cave_code s.data).1 = (str_to_cave_code t.data).1 → s = t) ∧
    (str_to_cave_code s.data).1 ≠ 0 ∧
    ((str_to_cave_code s.data).1 = 1 ↔ s = "start") ∧
    ((str_to_cave_code s.data).1 = 2 ↔ s = "end") ∧
    (str_to_cave_code s.data).1 < ALPHABET * ALPHABET ∧ ALPHABET * ALPHABET = 3136 := by
  have hinj : cave_code s = cave_code t → s = t := by
    intro h
    have h1 := code_name_letter_name hs
    have h2 := code_name_letter_name ht
    rw [h] at h1
    have hd : s.data = t.data := h1.symm.trans h2
    cases s
    cases t
    simp only at hd
    rw [hd]
  have hfacts : cave_code s ≠ 0 ∧ (cave_code s = 1 ↔ s = "start") ∧
      (cave_code s = 2 ↔ s = "end") ∧ cave_code s < 3136 := by
    rcases letter_name_cases hs with ⟨hn, hc⟩ | ⟨hn, hc⟩ | ⟨c, hd, hl, hc⟩ |
      ⟨c, d, hd, hl, hl2, hc⟩
    · rw [hc, hn]
      decide
    · rw [hc, hn]
      decide
    · obtain ⟨h1, h2, -⟩ := letter_value hl
      have hne := letter_name_length (s := s) (Or.inl (by rw [hd]; rfl))
      rw [hc]
      exact ⟨by omega, ⟨fun e => by omega, fun e => absurd e hne.1⟩,
        ⟨fun e => by omega, fun e => absurd e hne.2⟩, by omega⟩
    · obtain ⟨h1, h2, -⟩ := letter_value hl
      obtain ⟨h3, h4, -⟩ := letter_value hl2
      have hne := letter_name_length (s := s) (Or.inr (by rw [hd]; rfl))
      rw [hc]
      exact ⟨by omega, ⟨fun e => by omega, fun e => absurd e hne.1⟩,
        ⟨fun e => by omega, fun e => absurd e hne.2⟩, by omega⟩
  exact ⟨hinj, hfacts.1, hfacts.2.1, hfacts.2.2.1, hfacts.2.2.2, by decide⟩

/-- Witness of C17: the names `aB` and `Ab`, of mixed case. -/
theorem str_to_cave_code_injective_witness :
    (letter_name "aB" ∧ letter_name "Ab") ∧
    (((str_to_cave_code "aB".data).1 = (str_to_cave_code "Ab".data).1 → "aB" = "Ab") ∧
      (str_to_cave_code "aB".data).1 ≠ 0 ∧
      ((str_to_cave_code "aB".data).1 = 1 ↔ "aB" = "start") ∧
      ((str_to_cave_code "aB".data).1 = 2 ↔ "aB" = "end") ∧
      (str_to_cave_code "aB".data).1 < ALPHABET * ALPHABET ∧ ALPHABET * ALPHABET = 3136) :=
  ⟨⟨by decide, by decide⟩, str_to_cave_code_injective "aB" "Ab" (by decide) (by decide)⟩

/-- C18 (longer names): for every cave name of exactly three letters
`str_to_cave_code` returns `END_CODE` and for every name of exactly five
letters it returns `START_CODE`; such a name is never classified as big, and
`abc` has the code of `end`. -/
theorem three_and_five_letter_names (l : List Char) (hl : ∀ c ∈ l, is_letter c) :
    (l.length = 3 → (str_to_cave_code l).1 = END_CODE ∧ is_big (str_to_cave_code l).1 = false) ∧
    (l.length = 5 →
      (str_to_cave_code l).1 = START_CODE ∧ is_big (str_to_cave_code l).1 = false) ∧
    (str_to_cave_code "abc".data).1 = (str_to_cave_code "end".data).1 ∧
    is_big (str_to_cave_code "ABC".data).1 = false := by
  have h := loop_letters l [] 0 0 hl (Or.inl rfl)
  rw [List.append_nil, Nat.zero_add] at h
  refine ⟨fun h3 => ?_, fun h5 => ?_, by decide, by decide⟩
  · have e : (str_to_cave_code l).1 = END_CODE := by
      unfold str_to_cave_code
      rw [h, h3]
      rfl
    rw [e]
    exact ⟨rfl, by decide⟩
  · have e : (str_to_cave_code l).1 = START_CODE := by
      unfold str_to_cave_code
      rw [h, h5]
      rfl
    rw [e]
    exact ⟨rfl, by decide⟩

/-- Witness of C18: the uppercase name `XYZ`. -/
theorem three_and_five_letter_names_witness :
    (∀ c ∈ "XYZ".data, is_letter c) ∧
    (("XYZ".data.length = 3 → (str_to_cave_code "XYZ".data).1 = END_CODE ∧
        is_big (str_to_cave_code "XYZ".data).1 = false) ∧
      ("XYZ".data.length = 5 → (str_to_cave_code "XYZ".data).1 = START_CODE ∧
        is_big (str_to_cave_code "XYZ".data).1 = false) ∧
      (str_to_cave_code "abc".data).1 = (str_to_cave_code "end".data).1 ∧
      is_big (str_to_cave_code "ABC".data).1 = false) :=
  ⟨by decide, three_and_five_letter_names "XYZ".data (by decide)⟩

end Day12

namespace Day12

end Day12

namespace Day11

/-- Counterexample to C19 as stated: on the 2 by 2 grid with the largest
`std::size_t` value at the start cell and 9 elsewhere, `grid[0][0] += 1` wraps
the start cell around to 0.  The three other cells pass the guard one inside
the other, and the last of them increments the start cell and calls
`spread_recursive` on it once more: five calls are nested, one more than
`size * size`, so the bound 4 on the depth is reached and the bound 5 is
not. -/
theorem spread_recursive_depth_exceeds :
    grid_ok 2 [[SIZE_MAX, 9], [9, 9]] ∧
    (∀ row ∈ [[SIZE_MAX, 9], [9, 9]], ∀ v ∈ row, v < SIZE_MOD) ∧
    spread_recursive 2 (2 * 2) [[SIZE_MAX, 9], [9, 9]] 0 0 = none ∧
    spread_recursive 2 (2 * 2 + 1) [[SIZE_MAX, 9], [9, 9]] 0 0 = some [[3, 11], [11, 11]] ∧
    spread_recursive_log 2 (2 * 2 + 1) [[SIZE_MAX, 9], [9, 9]] 0 0 =
      some ([[3, 11], [11, 11]], [(0, 0), (0, 1), (1, 0), (1, 1)]) := by
  decide

/-- C19 (bounded recursion), with the depth that holds: for every `size` by
`size` grid of `std::size_t` values and every start cell, `spread_recursive`
returns when the depth of the recursion is bounded by `size * size + 1`, and by
`size * size` when the start cell does not hold the largest `std::size_t`
value; `spread` returns with the bound `size * size`.  In a call and in a whole
`spread` no cell passes the guard `grid[i][j] > 9` in more than one call, so the
number of calls that pass the guard is at most `size * size`. -/
theorem spread_recursive_bounded (size : Nat) (grid : grid_t) (i j fuel : Nat)
    (hs : size < SIZE_MOD) (hok : grid_ok size grid)
    (hlt : ∀ row ∈ grid, ∀ v ∈ row, v < SIZE_MOD) (hi : i < size) (hj : j < size)
    (hfuel : size * size ≤ fuel) :
    (∃ r, spread_recursive_log size (fuel + 1) grid i j = some r ∧
      spread_recursive size (fuel + 1) grid i j = some r.1 ∧
      r.2.Nodup ∧ r.2.length ≤ size * size) ∧
    (grid_get grid i j ≠ SIZE_MAX →
      ∃ r, spread_recursive_log size fuel grid i j = some r ∧
        spread_recursive size fuel grid i j = some r.1 ∧
        r.2.Nodup ∧ r.2.length ≤ size * size) ∧
    (∃ r, spread_log size fuel grid = some r ∧ spread size fuel grid = some r.1 ∧
      r.2.Nodup ∧ r.2.length ≤ size * size) := by
  have hc : in_grid size (i, j) := ⟨hi, hj⟩
  have hv : val grid (i, j) < SIZE_MOD := by
    obtain ⟨hlen, hrows⟩ := hok
    have hil : i < grid.length := by omega
    have hrow : (grid.getD i []).length = size := by
      rw [List.getD_eq_getElem _ _ hil]
      exact hrows _ (List.getElem_mem _)
    unfold val grid_get
    rw [List.getD_eq_getElem _ _ (by rw [hrow]; exact hj)]
    refine hlt (grid.getD i []) ?_ _ (List.getElem_mem _)
    rw [List.getD_eq_getElem _ _ hil]
    exact List.getElem_mem _
  refine ⟨?_, fun hmax => ?_, ?_⟩
  · obtain ⟨r, hr, -, h2, h3⟩ := spread_recursive_log_any size hs (fuel + 1) grid (i, j) hok hc hv
      (by split_ifs <;> omega)
    refine ⟨r, hr, ?_, h2, length_le_sq size r.2 h2 h3⟩
    rw [← spread_recursive_log_fst, hr]
    rfl
  · obtain ⟨r, hr, -, h2, h3⟩ := spread_recursive_log_any size hs fuel grid (i, j) hok hc hv
      (by rw [if_neg (show ¬ val grid (i, j) = SIZE_MAX from hmax)]; exact hfuel)
    refine ⟨r, hr, ?_, h2, length_le_sq size r.2 h2 h3⟩
    rw [← spread_recursive_log_fst, hr]
    rfl
  · obtain ⟨r, hr, hp⟩ := spread_cells_log_spec size hs fuel hfuel (cells size)
      (fun c hc => (mem_cells size c).mp hc) grid hok
    refine ⟨r, hr, ?_, hp.2.1, length_le_sq size r.2 hp.2.1 (fun d hd => (hp.2.2.1 d hd).1)⟩
    rw [← spread_log_fst]
    unfold spread_log
    rw [hr]
    rfl

/-- Witness of C19: the 2 by 2 grid with 10 at the start cell, where the call
and `spread` make the three other cells pass the guard or gain one. -/
theorem spread_recursive_bounded_witness :
    (2 < SIZE_MOD ∧ grid_ok 2 [[10, 9], [9, 8]] ∧
      (∀ row ∈ [[10, 9], [9, 8]], ∀ v ∈ row, v < SIZE_MOD) ∧ 0 < 2 ∧ 0 < 2 ∧ 2 * 2 ≤ 4) ∧
    grid_get [[10, 9], [9, 8]] 0 0 ≠ SIZE_MAX ∧
    ((∃ r, spread_recursive_log 2 (4 + 1) [[10, 9], [9, 8]] 0 0 = some r ∧
        spread_recursive 2 (4 + 1) [[10, 9], [9, 8]] 0 0 = some r.1 ∧
        r.2.Nodup ∧ r.2.length ≤ 2 * 2) ∧
      (grid_get [[10, 9], [9, 8]] 0 0 ≠ SIZE_MAX →
        ∃ r, spread_recursive_log 2 4 [[10, 9], [9, 8]] 0 0 = some r ∧
          spread_recursive 2 4 [[10, 9], [9, 8]] 0 0 = some r.1 ∧
          r.2.Nodup ∧ r.2.length ≤ 2 * 2) ∧
      (∃ r, spread_log 2 4 [[10, 9], [9, 8]] = some r ∧
        spread 2 4 [[10, 9], [9, 8]] = some r.1 ∧
        r.2.Nodup ∧ r.2.length ≤ 2 * 2)) :=
  ⟨⟨by decide, by decide, by decide, by decide, by decide, by decide⟩, by decide,
    spread_recursive_bounded 2 [[10, 9], [9, 8]] 0 0 4 (by decide) (by decide) (by decide)
      (by decide) (by decide) (by decide)⟩

end Day11

namespace Day11

/-- C13 (chain-reaction fixed point): for every `size` by `size` grid whose
cells are all in `0..9`, one step (`increment`, `spread`, `flash`) returns, it
resets to 0 exactly the cells of the least set `F` such that a cell `c` is in
`F` iff `v(c) + 1 +` (the number of its neighbours in `F`) `> 9`, every cell
outside `F` ends at `v(c) + 1 +` (the number of its neighbours in `F`), which is
at most 9, and `flash` returns the number of cells of `F`.  The grid and the
count are determined by this description, whatever the order of the
traversal that computes `F`. -/
theorem day_step_least_fixed_point (size : Nat) (grid : grid_t) (fuel : Nat)
    (hs : size * size < SIZE_MOD) (hok : grid_ok size grid)
    (hcells : ∀ row ∈ grid, ∀ v ∈ row, v ≤ 9) (hfuel : size * size ≤ fuel) :
    ∃ r, day_step size fuel grid = some r ∧ step_outcome size (val grid) r ∧
      ∀ r2, step_outcome size (val grid) r2 → r2 = r := by
  have hv : ∀ c, in_grid size c → val grid c ≤ 9 := by
    intro c hc
    obtain ⟨hlen, hrows⟩ := hok
    have hil : c.1 < grid.length := by
      rw [hlen]
      exact hc.1
    have hrow : (grid.getD c.1 []).length = size := by
      rw [List.getD_eq_getElem _ _ hil]
      exact hrows _ (List.getElem_mem _)
    unfold val grid_get
    rw [List.getD_eq_getElem _ _ (by rw [hrow]; exact hc.2)]
    refine hcells (grid.getD c.1 []) ?_ _ (List.getElem_mem _)
    rw [List.getD_eq_getElem _ _ hil]
    exact List.getElem_mem _
  obtain ⟨r, hr, hp⟩ := day_step_spec size grid fuel hs hok hv hfuel
  exact ⟨r, hr, hp, fun r2 h2 => step_outcome_unique size (val grid) r2 r h2 hp⟩

/-- Witness of C13: the 5 by 5 grid with a ring of cells at 9. -/
theorem day_step_least_fixed_point_witness :
    (5 * 5 < SIZE_MOD ∧
      grid_ok 5 [[1, 1, 1, 1, 1], [1, 9, 9, 9, 1], [1, 9, 1, 9, 1], [1, 9, 9, 9, 1],
        [1, 1, 1, 1, 1]] ∧
      (∀ row ∈ [[1, 1, 1, 1, 1], [1, 9, 9, 9, 1], [1, 9, 1, 9, 1], [1, 9, 9, 9, 1],
        [1, 1, 1, 1, 1]], ∀ v ∈ row, v ≤ 9) ∧ 5 * 5 ≤ 25) ∧
    (∃ r, day_step 5 25 [[1, 1, 1, 1, 1], [1, 9, 9, 9, 1], [1, 9, 1, 9, 1], [1, 9, 9, 9, 1],
        [1, 1, 1, 1, 1]] = some r ∧
      step_outcome 5 (val [[1, 1, 1, 1, 1], [1, 9, 9, 9, 1], [1, 9, 1, 9, 1], [1, 9, 9, 9, 1],
        [1, 1, 1, 1, 1]]) r ∧
      ∀ r2, step_outcome 5 (val [[1, 1, 1, 1, 1], [1, 9, 9, 9, 1], [1, 9, 1, 9, 1],
        [1, 9, 9, 9, 1], [1, 1, 1, 1, 1]]) r2 → r2 = r) :=
  ⟨⟨by decide, by decide, by decide, by decide⟩,
    day_step_least_fixed_point 5 [[1, 1, 1, 1, 1], [1, 9, 9, 9, 1], [1, 9, 1, 9, 1],
      [1, 9, 9, 9, 1], [1, 1, 1, 1, 1]] 25 (by decide) (by decide) (by decide) (by decide)⟩

end Day11

namespace Day06

/-- C12 (ring buffer against the naive simulation): for every comma-separated
list of timers in `0..6` and every number of days `n`, `simulate<n>` returns,
and its value is the number of fish of the naive per-fish process after `n`
days, reduced modulo `2 ^ 64` as every `std::size_t` is; it is that number
itself whenever the number is below `2 ^ 64`. -/
theorem simulate_refines_naive (timers : List Nat) (n fuel : Nat) (ht : ∀ t ∈ timers, t ≤ 6)
    (hf : timers.length + 1 ≤ fuel) :
    simulate n fuel (timers_str timers) = some ((naive n timers).length % SIZE_MOD) ∧
    ((naive n timers).length < SIZE_MOD →
      simulate n fuel (timers_str timers) = some (naive n timers).length) := by
  have hmain : simulate n fuel (timers_str timers) =
      some ((naive n timers).length % SIZE_MOD) := by
    unfold simulate
    rw [read_timers_str timers fuel _ ht hf, Option.map_some']
    obtain ⟨e, hlt⟩ := days_count n
      { lanternfish := timers.foldl (fun a t => add_at a t 1) (List.replicate 7 0),
        newlanternfish := List.replicate 2 0, offset := 0 } timers
      (by rw [read_fold_length]; rfl) rfl (show 0 < 7 by decide)
      (fun x hx => Nat.le_trans (ht x hx) (by decide))
      (fun t h8 => read_count timers ht t h8)
    congr 1
    apply eq_of_cast_eq hlt (Nat.mod_lt _ SIZE_MOD_pos)
    rw [e, ZMod.natCast_mod]
  exact ⟨hmain, fun hlt => by rw [hmain, Nat.mod_eq_of_lt hlt]⟩

/-- Witness of C12: the example input `3,4,3,1,2` for 18 days. -/
theorem simulate_refines_naive_witness :
    ((∀ t ∈ [3, 4, 3, 1, 2], t ≤ 6) ∧ [3, 4, 3, 1, 2].length + 1 ≤ 6 ∧
      input_example.data = timers_str [3, 4, 3, 1, 2]) ∧
    (simulate 18 6 (timers_str [3, 4, 3, 1, 2]) =
        some ((naive 18 [3, 4, 3, 1, 2]).length % SIZE_MOD) ∧
      ((naive 18 [3, 4, 3, 1, 2]).length < SIZE_MOD →
        simulate 18 6 (timers_str [3, 4, 3, 1, 2]) = some (naive 18 [3, 4, 3, 1, 2]).length)) :=
  ⟨⟨by decide, by decide, by decide⟩,
    simulate_refines_naive [3, 4, 3, 1, 2] 18 6 (by decide) (by decide)⟩

end Day06
